import Mathlib

/-!
# Adaptive edge detection (`src/gimp/adaptive-edge.c`)

A shallow embedding of the numerical pixel pipeline of the plug-in: the C
routines walk flat buffers with raw pointers, so buffers are lists of samples,
pointers are integer offsets into them, and every dereference is checked: a
read or a write outside the buffer makes the routine return `none`.

Sample values are integers.  A store into a `guchar` buffer reduces the value
modulo 256 (`u8`), and `gint` arithmetic that can leave the 32-bit range is
reduced with `wrap32`.  Dimensions, sizes and channel counts are the
non-negative `gint`s the host hands over, so they are natural numbers; the loop
bounds computed from them (`width - 1`, `nh - 1`, ...) are integers, as in C.
-/

namespace AdaptiveEdge

/-! ## Memory model -/

/-- A flat buffer of samples; the C pointer `base + p` is the offset `p`. -/
abbrev Buf := List Int

/-- Checked read `*(base + p)`. -/
def rd (b : Buf) (p : Int) : Option Int :=
  if p < 0 then none else b[p.toNat]?

/-- Checked write `*(base + p) = v`. -/
def wr (b : Buf) (p : Int) (v : Int) : Option Buf :=
  if p < 0 then none else if p.toNat < b.length then some (b.set p.toNat v) else none

/-- Conversion to `guchar`. -/
def u8 (v : Int) : Int := v % 256

/-- Two's complement reduction of a `gint` result. -/
def wrap32 (v : Int) : Int := (v + 2147483648) % 4294967296 - 2147483648

/-- Run a loop body `n` times, stopping at the first faulting access. -/
def loopM {σ : Type} : Nat → (σ → Option σ) → σ → Option σ
  | 0, _, s => some s
  | n + 1, f, s => (f s).bind (loopM n f)

/-- Number of iterations of `for (i = start; i < stop; i++)`. -/
def iters (start stop : Int) : Nat := (stop - start).toNat

/-- Number of iterations of `for (i = start; i < stop; i += 2)`. -/
def iters2 (start stop : Int) : Nat := ((stop - start + 1) / 2).toNat

/-- An output cursor: the buffer written so far and the pointer `po`. -/
structure Cur where
  out : Buf
  po : Int

/-- The statement `*po++ = v`. -/
def Cur.put (c : Cur) (v : Int) : Option Cur :=
  (wr c.out c.po v).map fun o => ⟨o, c.po + 1⟩

/-- The loop `for (i = 0; i < n; i++) *po++ = v` (also `memset` with `v = 0`). -/
def Cur.fill (c : Cur) (n : Nat) (v : Int) : Option Cur :=
  loopM n (fun c => c.put v) c

/-- A cursor together with one read pointer into a source buffer. -/
structure Cpy where
  cur : Cur
  ps : Int

/-- The statement `*po++ = *ps++` with `ps` pointing into `src`. -/
def Cpy.step (src : Buf) (s : Cpy) : Option Cpy := do
  let v ← rd src s.ps
  let c ← s.cur.put v
  pure ⟨c, s.ps + 1⟩

/-- The call `g_memmove(po, ps, n)` between two distinct buffers, one sample at
a time; `po` is not advanced by the call. -/
def memmove (src : Buf) (ps : Int) (c : Cur) (n : Nat) : Option Buf :=
  (loopM n (Cpy.step src) ⟨c, ps⟩).map fun s => s.cur.out

/-- The statement `*po++ = *ps++` with both pointers in the output buffer. -/
def Cpy.stepSelf (s : Cpy) : Option Cpy := do
  let v ← rd s.cur.out s.ps
  let c ← s.cur.put v
  pure ⟨c, s.ps + 1⟩

/-! ## `greyscale` -/

/-- State of the pixel loop of `greyscale`: read pointer and output cursor. -/
structure GreySt where
  src : Int
  cur : Cur

/-- The statement `v += *src++` of the channel loop. -/
def greyAcc (src : Buf) (vp : Int × Int) : Option (Int × Int) := do
  let x ← rd src vp.2
  pure (vp.1 + x, vp.2 + 1)

/-- One pixel of `greyscale`; the division faults when `channels` is 0. -/
def greyPixel (src : Buf) (channels : Nat) (alpha : Bool) (s : GreySt) : Option GreySt := do
  let vp ← loopM (iters 0 channels) (greyAcc src) (0, s.src)
  let p := if alpha then vp.2 + 1 else vp.2
  if channels = 0 then none else
  let c ← s.cur.put (u8 (Int.tdiv vp.1 channels))
  pure ⟨p, c⟩

/-- The routine `greyscale(src, dst, size, channels, alpha)`. -/
def greyscale (src dst : Buf) (size channels : Nat) (alpha : Bool) : Option Buf :=
  (loopM (iters 0 size) (greyPixel src channels alpha) ⟨0, ⟨dst, 0⟩⟩).map fun s => s.cur.out

/-! ## `blur` and `bluri` -/

/-- Pointers of the 3x3 box blur: centre `ps`, neighbours `pa` .. `ph`. -/
structure BlurSt where
  cur : Cur
  ps : Int
  pa : Int
  pb : Int
  pc : Int
  pd : Int
  pe : Int
  pf : Int
  pg : Int
  ph : Int

/-- The statement `pa++; pb++; pc++; pd++; pe++; pf++; pg++; ph++;`. -/
def BlurSt.skip (s : BlurSt) : BlurSt :=
  ⟨s.cur, s.ps, s.pa + 1, s.pb + 1, s.pc + 1, s.pd + 1, s.pe + 1, s.pf + 1, s.pg + 1, s.ph + 1⟩

/-- The statement `*po++ = *ps++` of a border column. -/
def blurEdge (src : Buf) (s : BlurSt) : Option BlurSt := do
  let v ← rd src s.ps
  let c ← s.cur.put v
  pure ⟨c, s.ps + 1, s.pa, s.pb, s.pc, s.pd, s.pe, s.pf, s.pg, s.ph⟩

/-- The statement
`*po++ = (*pa++ + *pb++ + *pc++ + *pd++ + *pe++ + *pf++ + *pg++ + *ph++ + *ps++) / 9`. -/
def blurPixel (src : Buf) (add : Int → Int → Int) (store : Int → Int) (s : BlurSt) :
    Option BlurSt := do
  let a ← rd src s.pa
  let b ← rd src s.pb
  let c ← rd src s.pc
  let d ← rd src s.pd
  let e ← rd src s.pe
  let f ← rd src s.pf
  let g ← rd src s.pg
  let h ← rd src s.ph
  let v ← rd src s.ps
  let sum := add (add (add (add (add (add (add (add a b) c) d) e) f) g) h) v
  let cur ← s.cur.put (store (Int.tdiv sum 9))
  pure ⟨cur, s.ps + 1, s.pa + 1, s.pb + 1, s.pc + 1, s.pd + 1, s.pe + 1, s.pf + 1,
    s.pg + 1, s.ph + 1⟩

/-- One pass of the row loop of `blur`. -/
def blurRow (src : Buf) (add : Int → Int → Int) (store : Int → Int) (width : Nat)
    (s : BlurSt) : Option BlurSt := do
  let s ← blurEdge src s.skip
  let s ← loopM (iters 1 ((width : Int) - 1)) (blurPixel src add store) s
  let s ← blurEdge src s
  pure s.skip

/-- The common body of `blur` and `bluri`; `add` is the addition of the
accumulator type and `store` the conversion to the sample type. -/
def blurG (add : Int → Int → Int) (store : Int → Int) (src dst : Buf) (width height : Nat) :
    Option Buf := do
  let w : Int := width
  let ps : Int := w
  let out ← memmove src 0 ⟨dst, 0⟩ width
  let s0 : BlurSt := ⟨⟨out, w⟩, ps, ps - 1, ps + 1, ps - w, ps + w, ps - w - 1, ps - w + 1,
    ps + w - 1, ps + w + 1⟩
  let s ← loopM (iters 1 ((height : Int) - 1)) (blurRow src add store width) s0
  memmove src s.ps s.cur width

/-- The routine `blur(src, dst, width, height)` on 8-bit samples. -/
def blur (src dst : Buf) (width height : Nat) : Option Buf :=
  blurG (fun a b => a + b) u8 src dst width height

/-- The routine `bluri(src, dst, width, height)` on `gint` samples. -/
def bluri (src dst : Buf) (width height : Nat) : Option Buf :=
  blurG (fun a b => wrap32 (a + b)) id src dst width height

/-! ## `downsize` -/

/-- The statements `*po++ = *ps; ps += 2;`. -/
def downPixel (src : Buf) (s : Cpy) : Option Cpy := do
  let v ← rd src s.ps
  let c ← s.cur.put v
  pure ⟨c, s.ps + 2⟩

/-- One pass of the row loop of `downsize`. -/
def downRow (src : Buf) (nw : Nat) (jump : Int) (s : Cpy) : Option Cpy := do
  let s ← loopM (iters 0 nw) (downPixel src) s
  pure ⟨s.cur, s.ps + jump⟩

/-- The routine `downsize(src, dst, w, h, nw, nh)`. -/
def downsize (src dst : Buf) (w _h nw nh : Nat) : Option Buf :=
  let jump : Int := if w % 2 = 1 then (w : Int) + 1 else w
  (loopM (iters 0 nh) (downRow src nw jump) ⟨⟨dst, 0⟩, 0⟩).map fun s => s.cur.out

/-! ## `magnitude` -/

/-- Pointers of `magnitude`: four read pointers and the output cursor `pm`. -/
structure MagSt where
  cur : Cur
  pa : Int
  pb : Int
  pc : Int
  pd : Int

/-- The statement `pa++; pb++; pc++; pd++; *pm++ = 0;`. -/
def magEdge (s : MagSt) : Option MagSt := do
  let c ← s.cur.put 0
  pure ⟨c, s.pa + 1, s.pb + 1, s.pc + 1, s.pd + 1⟩

/-- The combination `max + min / 3` of the two absolute differences. -/
def magCombine (ver hor : Int) : Int :=
  if ver > hor then ver + Int.tdiv hor 3 else hor + Int.tdiv ver 3

/-- The body of the pixel loop of `magnitude`. -/
def magPixel (inp : Buf) (s : MagSt) : Option MagSt := do
  let a ← rd inp s.pa
  let b ← rd inp s.pb
  let ver : Int := (a - b).natAbs
  let c ← rd inp s.pc
  let d ← rd inp s.pd
  let hor : Int := (c - d).natAbs
  let cur ← s.cur.put (magCombine ver hor)
  pure ⟨cur, s.pa + 1, s.pb + 1, s.pc + 1, s.pd + 1⟩

/-- One pass of the row loop of `magnitude`. -/
def magRow (inp : Buf) (w : Nat) (s : MagSt) : Option MagSt := do
  let s ← magEdge s
  let s ← loopM (iters 1 ((w : Int) - 1)) (magPixel inp) s
  magEdge s

/-- The routine `magnitude(in, out, w, h)`. -/
def magnitude (inp out : Buf) (w h : Nat) : Option Buf := do
  let c ← Cur.fill ⟨out, 0⟩ w 0
  let s0 : MagSt := ⟨c, (w : Int) + 1, (w : Int) - 1, 2 * (w : Int), 0⟩
  let s ← loopM (iters 1 ((h : Int) - 1)) (magRow inp w) s0
  let c ← s.cur.fill w 0
  pure c.out

/-! ## `upsize` and `upsizei` -/

/-- State of the horizontal pass of `upsize`: source pointer, output cursor and
the two locals `prev` and `curr`. -/
structure UpSt where
  cur : Cur
  ps : Int
  prev : Int
  curr : Int

/-- The body of the inner loop of the horizontal pass. -/
def upPair (src : Buf) (add : Int → Int → Int) (store : Int → Int) (s : UpSt) :
    Option UpSt := do
  let curr ← rd src s.ps
  let c ← s.cur.put (store (add s.prev curr >>> (1 : Nat)))
  let c ← c.put (store curr)
  pure ⟨c, s.ps + 1, curr, curr⟩

/-- The statement `if (b) *po++ = v;`. -/
def Cur.putIf (c : Cur) (b : Bool) (v : Int) : Option Cur :=
  if b then c.put v else some c

/-- One pass of the row loop of the horizontal pass. -/
def upRow (src : Buf) (add : Int → Int → Int) (store : Int → Int) (w nw : Nat) (s : UpSt) :
    Option UpSt := do
  let prev ← rd src s.ps
  let c ← s.cur.put (store prev)
  let s ← loopM (iters 0 ((w : Int) - 1)) (upPair src add store) ⟨c, s.ps + 1, prev, s.curr⟩
  let c ← s.cur.putIf (nw % 2 = 1) (store (add s.prev s.curr >>> (1 : Nat)))
  let c ← c.put (store s.curr)
  pure ⟨⟨c.out, c.po + nw⟩, s.ps, s.prev, s.curr⟩

/-- State of the vertical pass: output cursor and the pointers `pt`, `pb` to the
rows above and below, all three inside the output buffer. -/
structure UpVSt where
  cur : Cur
  pt : Int
  pb : Int

/-- The statement `*po++ = (*pt++ + *pb++) >> 1`. -/
def upMid (add : Int → Int → Int) (store : Int → Int) (s : UpVSt) : Option UpVSt := do
  let t ← rd s.cur.out s.pt
  let b ← rd s.cur.out s.pb
  let c ← s.cur.put (store (add t b >>> (1 : Nat)))
  pure ⟨c, s.pt + 1, s.pb + 1⟩

/-- One pass of the row loop of the vertical pass. -/
def upMidRow (add : Int → Int → Int) (store : Int → Int) (nw : Nat) (s : UpVSt) :
    Option UpVSt := do
  let s ← loopM (iters 0 nw) (upMid add store) s
  pure ⟨⟨s.cur.out, s.cur.po + nw⟩, s.pt + nw, s.pb + nw⟩

/-- The loop `for (x=0; x<nw; x++) *po++ = *ps++;` that copies one output row to
another, with `ps` starting at the offset `ps` of the output buffer. -/
def upCopyRow (nw : Nat) (c : Cur) (ps : Int) : Option Cur :=
  (loopM (iters 0 nw) Cpy.stepSelf ⟨c, ps⟩).map fun t => t.cur

/-- The common body of `upsize` and `upsizei`. -/
def upsizeG (add : Int → Int → Int) (store : Int → Int) (src dst : Buf) (w h nw nh : Nat) :
    Option Buf := do
  let oddHeight : Bool := nh % 2 = 1
  let s ← loopM (iters 0 h) (upRow src add store w nw) ⟨⟨dst, 0⟩, 0, 0, 0⟩
  let c ← (if oddHeight then upCopyRow nw s.cur (s.cur.po - 2 * (nw : Int)) else some s.cur)
  let v ← loopM (iters2 1 ((nh : Int) - 1)) (upMidRow add store nw)
    ⟨⟨c.out, nw⟩, 0, 2 * (nw : Int)⟩
  let c ← (if oddHeight then some v.cur else upCopyRow nw v.cur v.pt)
  pure c.out

/-- The routine `upsize(src, dst, w, h, nw, nh)` on 8-bit samples. -/
def upsize (src dst : Buf) (w h nw nh : Nat) : Option Buf :=
  upsizeG (fun a b => a + b) u8 src dst w h nw nh

/-- The routine `upsizei(src, dst, w, h, nw, nh)` on `gint` samples. -/
def upsizei (src dst : Buf) (w h nw nh : Nat) : Option Buf :=
  upsizeG (fun a b => wrap32 (a + b)) id src dst w h nw nh

/-! ## `multiply`, `divide`, `apply_threshold` -/

/-- State of an element-wise routine with two read pointers. -/
structure ZipSt where
  cur : Cur
  pa : Int
  pb : Int

/-- The statement `*out++ = (gint)*a++ * *b++`. -/
def mulStep (a b : Buf) (s : ZipSt) : Option ZipSt := do
  let x ← rd a s.pa
  let y ← rd b s.pb
  let c ← s.cur.put (wrap32 (x * y))
  pure ⟨c, s.pa + 1, s.pb + 1⟩

/-- The routine `multiply(a, b, out, size)`. -/
def multiply (a b out : Buf) (size : Nat) : Option Buf :=
  (loopM (iters 0 size) (mulStep a b) ⟨⟨out, 0⟩, 0, 0⟩).map fun s => s.cur.out

/-- The body of the loop of `divide`. -/
def divStep (a b : Buf) (s : ZipSt) : Option ZipSt := do
  let d ← rd b s.pb
  let x ← rd a s.pa
  let q := wrap32 (Int.tdiv x (if d = 0 then 1 else d))
  let c ← s.cur.put (u8 (if q > 255 then 255 else q))
  pure ⟨c, s.pa + 1, s.pb + 1⟩

/-- The routine `divide(a, b, out, size)`. -/
def divide (a b out : Buf) (size : Nat) : Option Buf :=
  (loopM (iters 0 size) (divStep a b) ⟨⟨out, 0⟩, 0, 0⟩).map fun s => s.cur.out

/-- The value `apply_threshold` stores at the cursor: the test on `*mag`, then
the comparison of `*blurred` (read through the cursor) with `*buffer`. -/
def threshValue (mag buffer : Buf) (threshold : Int) (s : ZipSt) : Option Int := do
  let m ← rd mag s.pa
  if m > threshold then do
    let x ← rd s.cur.out s.cur.po
    let t ← rd buffer s.pb
    pure (if x ≤ t then 0 else 255)
  else pure 128

/-- The body of the loop of `apply_threshold`; the cursor walks `blurred`, which
is read and overwritten in place, `pa` walks `mag` and `pb` walks `buffer`. -/
def threshStep (mag buffer : Buf) (threshold : Int) (s : ZipSt) : Option ZipSt := do
  let v ← threshValue mag buffer threshold s
  let c ← s.cur.put v
  pure ⟨c, s.pa + 1, s.pb + 1⟩

/-- The routine `apply_threshold(blurred, mag, buffer, size, threshold)`; the
result is the new contents of `blurred`. -/
def apply_threshold (blurred mag buffer : Buf) (size : Nat) (threshold : Int) : Option Buf :=
  (loopM (iters 0 size) (threshStep mag buffer threshold) ⟨⟨blurred, 0⟩, 0, 0⟩).map
    fun s => s.cur.out

/-! ## `filter` -/

/-- Pointers of `filter`: centre `pe` and the eight neighbours. -/
structure FiltSt where
  cur : Cur
  pa : Int
  pb : Int
  pc : Int
  pd : Int
  pe : Int
  pf : Int
  pg : Int
  ph : Int
  pi : Int

/-- The statement `pa++; pb++; pc++; pd++; pe++; pf++; pg++; ph++; pi++;`. -/
def FiltSt.skip (s : FiltSt) : FiltSt :=
  ⟨s.cur, s.pa + 1, s.pb + 1, s.pc + 1, s.pd + 1, s.pe + 1, s.pf + 1, s.pg + 1, s.ph + 1,
    s.pi + 1⟩

/-- The test `*p == 255 || rest`, reading `rest` only when the left side fails. -/
def orIs255 (b : Buf) (p : Int) (rest : Option Bool) : Option Bool := do
  let v ← rd b p
  if v = 255 then pure true else rest

/-- The expression `(!*pe && (*pa==255 || ... || *pi==255)) ? 0 : 255`, with the
short-circuit evaluation of C. -/
def filtValue (b : Buf) (s : FiltSt) : Option Int := do
  let e ← rd b s.pe
  if e = 0 then do
    let hit ← orIs255 b s.pa (orIs255 b s.pb (orIs255 b s.pc (orIs255 b s.pd
      (orIs255 b s.pf (orIs255 b s.pg (orIs255 b s.ph (orIs255 b s.pi (some false))))))))
    pure (if hit then 0 else 255)
  else pure 255

/-- The statements `for (i=0; i<channels; i++) *po++ = v; if (alpha) *po++ = 255;`. -/
def Cur.putPixel (c : Cur) (channels : Nat) (alpha : Bool) (v : Int) : Option Cur :=
  (c.fill (iters 0 channels) v).bind fun c => if alpha then c.put 255 else some c

/-- The body of the pixel loop of `filter`. -/
def filtPixel (b : Buf) (channels : Nat) (alpha : Bool) (s : FiltSt) : Option FiltSt := do
  let v ← filtValue b s
  let c ← s.cur.putPixel channels alpha v
  pure (FiltSt.skip ⟨c, s.pa, s.pb, s.pc, s.pd, s.pe, s.pf, s.pg, s.ph, s.pi⟩)

/-- The statement `for (i=0; i<bpp; i++) *po++ = 255;` inside the row loop. -/
def filtEdge (bpp : Nat) (s : FiltSt) : Option FiltSt := do
  let c ← s.cur.fill (iters 0 bpp) 255
  pure ⟨c, s.pa, s.pb, s.pc, s.pd, s.pe, s.pf, s.pg, s.ph, s.pi⟩

/-- One pass of the row loop of `filter`. -/
def filtRow (b : Buf) (width channels : Nat) (alpha : Bool) (s : FiltSt) : Option FiltSt := do
  let bpp := channels + (if alpha then 1 else 0)
  let s ← filtEdge bpp s.skip
  let s ← loopM (iters 1 ((width : Int) - 1)) (filtPixel b channels alpha) s
  filtEdge bpp s.skip

/-- A border row of `filter`: `width` pixels of `bpp` samples 255. -/
def filtBorderRow (width bpp : Nat) (c : Cur) : Option Cur :=
  loopM (iters 0 width) (fun c => c.fill (iters 0 bpp) 255) c

/-- The routine `filter(blurred, out, width, height, channels, alpha)`. -/
def filter (blurred out : Buf) (width height channels : Nat) (alpha : Bool) : Option Buf := do
  let w : Int := (width : Int) - 1
  let bpp := channels + (if alpha then 1 else 0)
  let pe : Int := width
  let pa := pe - width - 1
  let pb := pa + 1
  let pc := pb + 1
  let pd := pe - 1
  let pf := pe + 1
  let pg := pe + w
  let ph := pg + 1
  let pi := ph + 1
  let c ← filtBorderRow width bpp ⟨out, 0⟩
  let s ← loopM (iters 1 ((height : Int) - 1)) (filtRow blurred width channels alpha)
    ⟨c, pa, pb, pc, pd, pe, pf, pg, ph, pi⟩
  let c ← filtBorderRow width bpp s.cur
  pure c.out

/-! ## `edge` -/

/-- The scratch and output buffers `edge` allocates with `g_new`; the allocator
does not initialise them, so their initial contents are arbitrary. -/
structure Scratch where
  out : Buf
  blurred : Buf
  blurredHalf : Buf
  buffer : Buf
  threshHalf : Buf
  mag : Buf
  magHalf : Buf
  filtThresh : Buf
  filtMag : Buf

/-- The contents of every buffer of `edge` after the stage that last writes it,
in the order of the calls. -/
structure Stages where
  grey : Buf
  blurred : Buf
  blurredHalf : Buf
  magHalf : Buf
  mag : Buf
  threshHalf : Buf
  filtThresh : Buf
  filtMag : Buf
  adaptiveHalf : Buf
  adaptive : Buf
  classes : Buf
  out : Buf

/-- The pixel pipeline of `edge(drawable, preview)` on the region read from the
host: `inp` holds `width * height` pixels of `bpp` samples, `alpha` tells whether
the last sample of a pixel is alpha, and `threshold` is the global threshold
(`get_threshold(buffer, size)` in automatic mode, else the value of the dialog).
The result records every intermediate buffer. -/
def edgeStages (inp : Buf) (m : Scratch) (width height bpp : Nat) (alpha : Bool)
    (threshold : Int) : Option Stages := do
  let size := width * height
  let channels := if alpha then bpp - 1 else bpp
  let halfWidth := width / 2
  let halfHeight := height / 2
  let halfSize := halfWidth * halfHeight
  let grey ← greyscale inp m.buffer size channels alpha
  let blurred ← blur grey m.blurred width height
  let blurredHalf ← downsize blurred m.blurredHalf width height halfWidth halfHeight
  let magHalf ← magnitude blurredHalf m.magHalf halfWidth halfHeight
  let mag ← upsizei magHalf m.mag halfWidth halfHeight width height
  let threshHalf ← multiply blurredHalf magHalf m.threshHalf halfSize
  let filtThresh ← bluri threshHalf m.filtThresh halfWidth halfHeight
  let filtMag ← bluri magHalf m.filtMag halfWidth halfHeight
  let adaptiveHalf ← divide filtThresh filtMag blurredHalf halfSize
  let adaptive ← upsize adaptiveHalf grey halfWidth halfHeight width height
  let classes ← apply_threshold blurred mag adaptive size threshold
  let out ← filter classes m.out width height channels alpha
  pure ⟨grey, blurred, blurredHalf, magHalf, mag, threshHalf, filtThresh, filtMag,
    adaptiveHalf, adaptive, classes, out⟩

/-- The buffer `edge` hands back to the host with `gimp_pixel_rgn_set_rect`. -/
def edge (inp : Buf) (m : Scratch) (width height bpp : Nat) (alpha : Bool)
    (threshold : Int) : Option Buf :=
  (edgeStages inp m width height bpp alpha threshold).map fun t => t.out

/-! ## Invariants and closed forms -/

/-- The first `k` samples of the cursor's buffer are final (given by `F`), the
rest still holds the original contents, and `po` stands at `k`. -/
def Filled (F : Nat → Int) (orig : Buf) (c : Cur) (k : Nat) : Prop :=
  c.po = (k : Int) ∧ c.out.length = orig.length ∧
    (∀ i, i < k → c.out[i]? = some (F i)) ∧ (∀ i, k ≤ i → c.out[i]? = orig[i]?)

/-- Sample of a `W`-wide single-channel field at column `x`, row `y`. -/
def px (b : Buf) (W x y : Nat) : Int := b.getD (y * W + x) 0

/-- The value `filter` computes for the interior pixel `(x, y)`: 0 when the
classification there is 0 and one of the eight neighbours is 255, else 255. -/
def edgeValue (cls : Buf) (W x y : Nat) : Int :=
  if px cls W x y = 0 ∧
      (px cls W (x - 1) (y - 1) = 255 ∨ px cls W x (y - 1) = 255 ∨
       px cls W (x + 1) (y - 1) = 255 ∨ px cls W (x - 1) y = 255 ∨
       px cls W (x + 1) y = 255 ∨ px cls W (x - 1) (y + 1) = 255 ∨
       px cls W x (y + 1) = 255 ∨ px cls W (x + 1) (y + 1) = 255)
  then 0 else 255

/-- Closed form of sample `j` of pixel `p` of the output of `filter`. -/
def filterSample (cls : Buf) (W H channels p j : Nat) : Int :=
  if p % W = 0 ∨ p / W = 0 ∨ p % W + 1 = W ∨ p / W + 1 = H then 255
  else if j < channels then edgeValue cls W (p % W) (p / W) else 255

/-- Closed form of the output of `filter` at the flat index `i`. -/
def filterFlat (cls : Buf) (W H channels bpp i : Nat) : Int :=
  filterSample cls W H channels (i / bpp) (i % bpp)

/-- The nine pointers of `filter` stand around the offset `q`. -/
def FiltSt.At (s : FiltSt) (W : Nat) (q : Int) : Prop :=
  s.pe = q ∧ s.pa = q - W - 1 ∧ s.pb = q - W ∧ s.pc = q - W + 1 ∧ s.pd = q - 1 ∧
    s.pf = q + 1 ∧ s.pg = q + W - 1 ∧ s.ph = q + W ∧ s.pi = q + W + 1

/-- The classification of one pixel by `apply_threshold`: from the blurred
intensity `x`, the magnitude `m`, the adaptive threshold `t` and the global
threshold. -/
def classify (x m t threshold : Int) : Int :=
  if m > threshold then (if x ≤ t then 0 else 255) else 128

/-- The value `magnitude` computes for the interior pixel `(x, y)`: `ver` is the
difference of the right and left neighbours, `hor` that of the lower and upper
neighbours. -/
def magValue (inp : Buf) (w x y : Nat) : Int :=
  magCombine ((px inp w (x + 1) y - px inp w (x - 1) y).natAbs : Int)
    ((px inp w x (y + 1) - px inp w x (y - 1)).natAbs : Int)

/-- Closed form of the output of `magnitude` at the flat index `i`. -/
def magFlat (inp : Buf) (w h i : Nat) : Int :=
  if i % w = 0 ∨ i / w = 0 ∨ i % w + 1 = w ∨ i / w + 1 = h then 0
  else magValue inp w (i % w) (i / w)

/-- The four read pointers of `magnitude` stand around the offset `q`. -/
def MagSt.At (s : MagSt) (w : Nat) (q : Int) : Prop :=
  s.pa = q + 1 ∧ s.pb = q - 1 ∧ s.pc = q + w ∧ s.pd = q - w

/-- The combination of two diagonal differences that the specification text
describes for the gradient magnitude: `a` and `b` are the absolute differences
of the two pairs of diagonally opposite neighbours of `(x, y)`. -/
def diagonalMagnitude (inp : Buf) (w x y : Nat) : Int :=
  let a : Int := (px inp w (x - 1) (y - 1) - px inp w (x + 1) (y + 1)).natAbs
  let b : Int := (px inp w (x + 1) (y - 1) - px inp w (x - 1) (y + 1)).natAbs
  max a b + min a b / 3

/-- The sample `divide` stores for numerator `x` and denominator `d`. -/
def divValue (x d : Int) : Int :=
  u8 (if wrap32 (Int.tdiv x (if d = 0 then 1 else d)) > 255 then 255
    else wrap32 (Int.tdiv x (if d = 0 then 1 else d)))

/-- The quotient clamped to `[0, 255]` at both ends, as the specification text
describes the adaptive-threshold division. -/
def clampedQuotient (x d : Int) : Int :=
  max 0 (min 255 (Int.tdiv x (if d = 0 then 1 else d)))

/-- The value `blur` computes for the interior pixel `(x, y)`: the nine samples
are added in the order of the source expression and the sum is divided by 9. -/
def blurValue (add : Int → Int → Int) (store : Int → Int) (src : Buf) (W x y : Nat) : Int :=
  store (Int.tdiv
    (add (add (add (add (add (add (add (add (px src W (x - 1) y) (px src W (x + 1) y))
      (px src W x (y - 1))) (px src W x (y + 1))) (px src W (x - 1) (y - 1)))
      (px src W (x + 1) (y - 1))) (px src W (x - 1) (y + 1))) (px src W (x + 1) (y + 1)))
      (px src W x y)) 9)

/-- Closed form of the output of `blur` and `bluri` at the flat index `i`. -/
def blurFlat (add : Int → Int → Int) (store : Int → Int) (src : Buf) (W H i : Nat) : Int :=
  if i % W = 0 ∨ i / W = 0 ∨ i % W + 1 = W ∨ i / W + 1 = H then src.getD i 0
  else blurValue add store src W (i % W) (i / W)

/-- The nine read pointers of `blur` stand around the offset `q`. -/
def BlurSt.At (s : BlurSt) (W : Nat) (q : Int) : Prop :=
  s.ps = q ∧ s.pa = q - 1 ∧ s.pb = q + 1 ∧ s.pc = q - W ∧ s.pd = q + W ∧
    s.pe = q - W - 1 ∧ s.pf = q - W + 1 ∧ s.pg = q + W - 1 ∧ s.ph = q + W + 1

/-- Closed form of the output of `downsize` at the flat index `i`: the source
sample in column `2 * (i % nw)` of row `2 * (i / nw)`. -/
def downFlat (src : Buf) (w nw i : Nat) : Int :=
  px src w (2 * (i % nw)) (2 * (i / nw))

/-- Sum of the `n` samples of `src` starting at offset `base`. -/
def chanSum (src : Buf) (base : Nat) : Nat → Int
  | 0 => 0
  | n + 1 => chanSum src base n + src.getD (base + n) 0

/-- Closed form of the output of `greyscale` at pixel `i`. -/
def greyFlat (src : Buf) (channels : Nat) (alpha : Bool) (i : Nat) : Int :=
  u8 (Int.tdiv (chanSum src (i * (channels + (if alpha then 1 else 0))) channels) channels)

/-- Sample `c` of the horizontally upsampled source row `y`, as the row loop of
`upsize` produces it.  The last sample is the final value of the local `curr`,
which is the last source sample of the row when `w >= 2` and still the initial
0 when `w = 1`. -/
def upRowValue (add : Int → Int → Int) (store : Int → Int) (src : Buf) (w nw y c : Nat) :
    Int :=
  if c = 0 then store (px src w 0 y)
  else if c + 1 < 2 * w then
    (if c % 2 = 1 then
      store (add (px src w ((c - 1) / 2) y) (px src w ((c + 1) / 2) y) >>> (1 : Nat))
    else store (px src w (c / 2) y))
  else if nw % 2 = 1 ∧ c + 1 = 2 * w then
    store (add (px src w (w - 1) y) (if w = 1 then 0 else px src w (w - 1) y) >>> (1 : Nat))
  else store (if w = 1 then 0 else px src w (w - 1) y)

/-- Sample `c` of the even output row `r` of `upsize`: the upsampled source row
`r / 2`, and for the extra last row of an odd target height a copy of the last
upsampled source row. -/
def upEven (add : Int → Int → Int) (store : Int → Int) (src : Buf) (w h nw r c : Nat) : Int :=
  upRowValue add store src w nw (min (r / 2) (h - 1)) c

/-- Sample `c` of output row `r` of `upsize`: even rows come from the source, odd
rows are the mean of the rows above and below, and the last row of an even
target height copies the row above. -/
def upsizeAt (add : Int → Int → Int) (store : Int → Int) (src : Buf) (w h nw nh r c : Nat) :
    Int :=
  if r % 2 = 0 then upEven add store src w h nw r c
  else if r + 1 < nh then
    store (add (upEven add store src w h nw (r - 1) c) (upEven add store src w h nw (r + 1) c)
      >>> (1 : Nat))
  else upEven add store src w h nw (r - 1) c

/-- Closed form of the output of `upsize` and `upsizei` at the flat index `i`. -/
def upsizeFlat (add : Int → Int → Int) (store : Int → Int) (src : Buf) (w h nw nh i : Nat) :
    Int :=
  upsizeAt add store src w h nw nh (i / nw) (i % nw)

/-- The samples with index in `S` are final (given by `F`), the buffer has `N`
samples and `po` stands at `k`. -/
def Part (S : Nat → Prop) (F : Nat → Int) (N : Nat) (c : Cur) (k : Nat) : Prop :=
  c.po = (k : Int) ∧ c.out.length = N ∧ ∀ i, S i → c.out[i]? = some (F i)

/-- Indices written by the horizontal pass of `upsize` when it stands in column
`col` of source row `y`: the even rows below `2 * y` and the first `col` samples
of row `2 * y`. -/
def UpS1 (nw y col i : Nat) : Prop :=
  (i / nw) % 2 = 0 ∧ (i / nw < 2 * y ∨ (i / nw = 2 * y ∧ i % nw < col))

/-- Indices written once the extra last row of an odd target height has been
copied up to column `col`. -/
def UpS2 (nw h col i : Nat) : Prop :=
  UpS1 nw h 0 i ∨ (i / nw = 2 * h ∧ i % nw < col)

/-- All even rows of the target. -/
def EvenDone (nw nh i : Nat) : Prop :=
  (i / nw) % 2 = 0 ∧ i / nw < nh

/-- Indices written when the vertical pass stands in column `col` of the odd row
`2 * k + 1`. -/
def UpS3 (nw nh k col i : Nat) : Prop :=
  EvenDone nw nh i ∨ ((i / nw) % 2 = 1 ∧ (i / nw < 2 * k ∨ (i / nw = 2 * k + 1 ∧ i % nw < col)))

/-- Indices written when the final copy of an even target height stands in
column `col` of the last row. -/
def UpS4 (nw nh k col i : Nat) : Prop :=
  UpS3 nw nh k 0 i ∨ (i / nw = 2 * k + 1 ∧ i % nw < col)

/-- The buffers of `edge` have the sizes of its `g_new` calls. -/
def Scratch.Sized (m : Scratch) (width height bpp : Nat) : Prop :=
  m.out.length = width * height * bpp ∧ m.blurred.length = width * height ∧
  m.blurredHalf.length = (width / 2) * (height / 2) ∧ m.buffer.length = width * height ∧
  m.threshHalf.length = (width / 2) * (height / 2) ∧ m.mag.length = width * height ∧
  m.magHalf.length = (width / 2) * (height / 2) ∧
  m.filtThresh.length = (width / 2) * (height / 2) ∧
  m.filtMag.length = (width / 2) * (height / 2)

/-- A set of scratch buffers of the sizes `edge` allocates, every sample holding
the junk value `c`. -/
def scratchOf (width height bpp : Nat) (c : Int) : Scratch :=
  ⟨List.replicate (width * height * bpp) c, List.replicate (width * height) c,
    List.replicate ((width / 2) * (height / 2)) c, List.replicate (width * height) c,
    List.replicate ((width / 2) * (height / 2)) c, List.replicate (width * height) c,
    List.replicate ((width / 2) * (height / 2)) c,
    List.replicate ((width / 2) * (height / 2)) c,
    List.replicate ((width / 2) * (height / 2)) c⟩

/-! ## Ranges of samples and laws of the stages -/

/-- Every sample of the first `n` of `b` is a byte. -/
def IsBytes (b : Buf) (n : Nat) : Prop :=
  ∀ i, i < n → 0 ≤ b.getD i 0 ∧ b.getD i 0 ≤ 255

/-- Sum of the sample at `(x, y)` and of its eight neighbours, row by row. -/
def sum9 (b : Buf) (W x y : Nat) : Int :=
  px b W (x - 1) (y - 1) + px b W x (y - 1) + px b W (x + 1) (y - 1)
    + px b W (x - 1) y + px b W x y + px b W (x + 1) y
    + px b W (x - 1) (y + 1) + px b W x (y + 1) + px b W (x + 1) (y + 1)

/-- Every sample of the first `n` of `b` lies in `[lo, hi]`. -/
def InRange (b : Buf) (n : Nat) (lo hi : Int) : Prop :=
  ∀ i, i < n → lo ≤ b.getD i 0 ∧ b.getD i 0 ≤ hi

/-- On `[lo, hi]` the store keeps a sample and the addition followed by the
shift and the store gives the mean of two samples rounded down. -/
def ExactOn (add : Int → Int → Int) (store : Int → Int) (lo hi : Int) : Prop :=
  (∀ a, lo ≤ a → a ≤ hi → store a = a) ∧
    ∀ a b, lo ≤ a → a ≤ hi → lo ≤ b → b ≤ hi → store (add a b >>> (1 : Nat)) = (a + b) / 2

/-- The row law of an upsampled field, in the words of the specification: the
even output row `2 * y` starts with the first sample of source row `y`; every
further source sample `k` is preceded by the mean, rounded down, of the source
samples `k - 1` and `k`; the row ends with a copy of the last source sample,
two copies when the target width is odd. -/
def UpsampledRow (out src : Buf) (w nw y : Nat) : Prop :=
  out[2 * y * nw]? = some (px src w 0 y) ∧
  (∀ k, 1 ≤ k → k + 1 ≤ w →
    out[2 * y * nw + (2 * k - 1)]? = some ((px src w (k - 1) y + px src w k y) / 2) ∧
    out[2 * y * nw + 2 * k]? = some (px src w k y)) ∧
  out[2 * y * nw + (2 * w - 1)]? = some (px src w (w - 1) y) ∧
  (nw % 2 = 1 → out[2 * y * nw + 2 * w]? = some (px src w (w - 1) y))

/-- The law between the rows of an upsampled field, in the words of the
specification: the even row `2 * y` is the horizontally upsampled source row
`y` (given by `rowOf y`), every odd row that is not the last one is the mean,
rounded down, of the rows above and below, the last row of an even height
copies the row above it and the last row of an odd height copies the row two
above it. -/
def UpsampledRows (out : Buf) (rowOf : Nat → Nat → Int) (h nw nh : Nat) : Prop :=
  (∀ y c, y < h → c < nw → out[2 * y * nw + c]? = some (rowOf y c)) ∧
  (∀ r c, r % 2 = 1 → r + 1 < nh → c < nw →
    out[r * nw + c]? = some
      ((out.getD ((r - 1) * nw + c) 0 + out.getD ((r + 1) * nw + c) 0) / 2)) ∧
  (nh % 2 = 0 → ∀ c, c < nw → out[(nh - 1) * nw + c]? = out[(nh - 2) * nw + c]?) ∧
  (nh % 2 = 1 → ∀ c, c < nw → out[(nh - 1) * nw + c]? = out[(nh - 3) * nw + c]?)

/-! ## The bright-square scenario -/

/-- The single-channel 20 x 20 image that is 0 everywhere except for the block
of value 255 in rows and columns 7 to 12. -/
def brightSquare : Buf :=
  List.map (fun i : Nat =>
    if 7 ≤ i % 20 ∧ i % 20 ≤ 12 ∧ 7 ≤ i / 20 ∧ i / 20 ≤ 12 then (255 : Int) else 0)
    (List.range 400)

/-- Sample `j` of `brightSquare`, and 0 beyond its end. -/
def sqPixel (j : Nat) : Int :=
  if j < 400 then
    (if 7 ≤ j % 20 ∧ j % 20 ≤ 12 ∧ 7 ≤ j / 20 ∧ j / 20 ≤ 12 then 255 else 0)
  else 0

/-- The ring of the specification text: the 20 pixels of the block that lie on
its perimeter. -/
def blockPerimeter (x y : Nat) : Bool :=
  decide (7 ≤ x ∧ x ≤ 12 ∧ 7 ≤ y ∧ y ≤ 12 ∧ (x = 7 ∨ x = 12 ∨ y = 7 ∨ y = 12))

/-- The ring the pipeline draws: the 28 pixels that surround the block, without
the corner `(6, 6)` and with the block corner `(7, 7)` in its place. -/
def outerRing (x y : Nat) : Bool :=
  decide ((6 ≤ x ∧ x ≤ 13 ∧ 6 ≤ y ∧ y ≤ 13 ∧ (x = 6 ∨ x = 13 ∨ y = 6 ∨ y = 13) ∧
      ¬ (x = 6 ∧ y = 6)) ∨ (x = 7 ∧ y = 7))

/-- The 20 x 20 single-channel image that is 0 on `ring` and 255 elsewhere. -/
def ringImage (ring : Nat → Nat → Bool) : Buf :=
  List.map (fun i : Nat => if ring (i % 20) (i / 20) then (0 : Int) else 255) (List.range 400)

/-- A list of samples below `2 ^ 20` as one number, sample `j` being digit `j`
in base `2 ^ 20`. -/
def pack : List Nat → Nat
  | [] => 0
  | a :: l => a + 1048576 * pack l

/-- Digit `j` in base `2 ^ 20`. -/
def dig (N j : Nat) : Int := Int.ofNat (N / 1048576 ^ j % 1048576)

/-- A list of non-negative samples as a buffer. -/
def img (L : List Nat) : Buf := List.map Int.ofNat L

/-- The bright square after `blur`. -/
def sqBlurred : List Nat :=
  [0, 0, 0, 0, 0, 0, 0, 0, 0, 0, 0, 0, 0, 0, 0, 0, 0, 0, 0, 0,
    0, 0, 0, 0, 0, 0, 0, 0, 0, 0, 0, 0, 0, 0, 0, 0, 0, 0, 0, 0,
    0, 0, 0, 0, 0, 0, 0, 0, 0, 0, 0, 0, 0, 0, 0, 0, 0, 0, 0, 0,
    0, 0, 0, 0, 0, 0, 0, 0, 0, 0, 0, 0, 0, 0, 0, 0, 0, 0, 0, 0,
    0, 0, 0, 0, 0, 0, 0, 0, 0, 0, 0, 0, 0, 0, 0, 0, 0, 0, 0, 0,
    0, 0, 0, 0, 0, 0, 0, 0, 0, 0, 0, 0, 0, 0, 0, 0, 0, 0, 0, 0,
    0, 0, 0, 0, 0, 0, 28, 56, 85, 85, 85, 85, 56, 28, 0, 0, 0, 0, 0, 0,
    0, 0, 0, 0, 0, 0, 56, 113, 170, 170, 170, 170, 113, 56, 0, 0, 0, 0, 0, 0,
    0, 0, 0, 0, 0, 0, 85, 170, 255, 255, 255, 255, 170, 85, 0, 0, 0, 0, 0, 0,
    0, 0, 0, 0, 0, 0, 85, 170, 255, 255, 255, 255, 170, 85, 0, 0, 0, 0, 0, 0,
    0, 0, 0, 0, 0, 0, 85, 170, 255, 255, 255, 255, 170, 85, 0, 0, 0, 0, 0, 0,
    0, 0, 0, 0, 0, 0, 85, 170, 255, 255, 255, 255, 170, 85, 0, 0, 0, 0, 0, 0,
    0, 0, 0, 0, 0, 0, 56, 113, 170, 170, 170, 170, 113, 56, 0, 0, 0, 0, 0, 0,
    0, 0, 0, 0, 0, 0, 28, 56, 85, 85, 85, 85, 56, 28, 0, 0, 0, 0, 0, 0,
    0, 0, 0, 0, 0, 0, 0, 0, 0, 0, 0, 0, 0, 0, 0, 0, 0, 0, 0, 0,
    0, 0, 0, 0, 0, 0, 0, 0, 0, 0, 0, 0, 0, 0, 0, 0, 0, 0, 0, 0,
    0, 0, 0, 0, 0, 0, 0, 0, 0, 0, 0, 0, 0, 0, 0, 0, 0, 0, 0, 0,
    0, 0, 0, 0, 0, 0, 0, 0, 0, 0, 0, 0, 0, 0, 0, 0, 0, 0, 0, 0,
    0, 0, 0, 0, 0, 0, 0, 0, 0, 0, 0, 0, 0, 0, 0, 0, 0, 0, 0, 0,
    0, 0, 0, 0, 0, 0, 0, 0, 0, 0, 0, 0, 0, 0, 0, 0, 0, 0, 0, 0]

/-- The blurred bright square after `downsize`. -/
def sqBlurredHalf : List Nat :=
  [0, 0, 0, 0, 0, 0, 0, 0, 0, 0,
    0, 0, 0, 0, 0, 0, 0, 0, 0, 0,
    0, 0, 0, 0, 0, 0, 0, 0, 0, 0,
    0, 0, 0, 28, 85, 85, 56, 0, 0, 0,
    0, 0, 0, 85, 255, 255, 170, 0, 0, 0,
    0, 0, 0, 85, 255, 255, 170, 0, 0, 0,
    0, 0, 0, 56, 170, 170, 113, 0, 0, 0,
    0, 0, 0, 0, 0, 0, 0, 0, 0, 0,
    0, 0, 0, 0, 0, 0, 0, 0, 0, 0,
    0, 0, 0, 0, 0, 0, 0, 0, 0, 0]

/-- The half-resolution gradient magnitude of the bright square. -/
def sqMagHalf : List Nat :=
  [0, 0, 0, 0, 0, 0, 0, 0, 0, 0,
    0, 0, 0, 0, 0, 0, 0, 0, 0, 0,
    0, 0, 0, 28, 85, 85, 56, 0, 0, 0,
    0, 0, 28, 113, 274, 264, 198, 56, 0, 0,
    0, 0, 85, 274, 226, 198, 293, 170, 0, 0,
    0, 0, 85, 264, 198, 113, 274, 170, 0, 0,
    0, 0, 56, 198, 293, 274, 226, 113, 0, 0,
    0, 0, 0, 56, 170, 170, 113, 0, 0, 0,
    0, 0, 0, 0, 0, 0, 0, 0, 0, 0,
    0, 0, 0, 0, 0, 0, 0, 0, 0, 0]

/-- The gradient magnitude of the bright square after `upsizei`. -/
def sqMag : List Nat :=
  [0, 0, 0, 0, 0, 0, 0, 0, 0, 0, 0, 0, 0, 0, 0, 0, 0, 0, 0, 0,
    0, 0, 0, 0, 0, 0, 0, 0, 0, 0, 0, 0, 0, 0, 0, 0, 0, 0, 0, 0,
    0, 0, 0, 0, 0, 0, 0, 0, 0, 0, 0, 0, 0, 0, 0, 0, 0, 0, 0, 0,
    0, 0, 0, 0, 0, 7, 14, 28, 42, 42, 42, 35, 28, 14, 0, 0, 0, 0, 0, 0,
    0, 0, 0, 0, 0, 14, 28, 56, 85, 85, 85, 70, 56, 28, 0, 0, 0, 0, 0, 0,
    0, 0, 0, 7, 14, 42, 70, 124, 179, 177, 174, 150, 127, 77, 28, 14, 0, 0, 0, 0,
    0, 0, 0, 14, 28, 70, 113, 193, 274, 269, 264, 231, 198, 127, 56, 28, 0, 0, 0, 0,
    0, 0, 0, 28, 56, 124, 193, 221, 250, 240, 231, 238, 245, 179, 113, 56, 0, 0, 0, 0,
    0, 0, 0, 42, 85, 179, 274, 250, 226, 212, 198, 245, 293, 231, 170, 85, 0, 0, 0, 0,
    0, 0, 0, 42, 85, 176, 269, 240, 212, 183, 155, 219, 283, 226, 170, 85, 0, 0, 0, 0,
    0, 0, 0, 42, 85, 174, 264, 231, 198, 155, 113, 193, 274, 222, 170, 85, 0, 0, 0, 0,
    0, 0, 0, 35, 70, 150, 231, 238, 245, 219, 193, 221, 250, 195, 141, 70, 0, 0, 0, 0,
    0, 0, 0, 28, 56, 127, 198, 245, 293, 283, 274, 250, 226, 169, 113, 56, 0, 0, 0, 0,
    0, 0, 0, 14, 28, 77, 127, 179, 231, 226, 222, 195, 169, 112, 56, 28, 0, 0, 0, 0,
    0, 0, 0, 0, 0, 28, 56, 113, 170, 170, 170, 141, 113, 56, 0, 0, 0, 0, 0, 0,
    0, 0, 0, 0, 0, 14, 28, 56, 85, 85, 85, 70, 56, 28, 0, 0, 0, 0, 0, 0,
    0, 0, 0, 0, 0, 0, 0, 0, 0, 0, 0, 0, 0, 0, 0, 0, 0, 0, 0, 0,
    0, 0, 0, 0, 0, 0, 0, 0, 0, 0, 0, 0, 0, 0, 0, 0, 0, 0, 0, 0,
    0, 0, 0, 0, 0, 0, 0, 0, 0, 0, 0, 0, 0, 0, 0, 0, 0, 0, 0, 0,
    0, 0, 0, 0, 0, 0, 0, 0, 0, 0, 0, 0, 0, 0, 0, 0, 0, 0, 0, 0]

/-- The products of intensity and magnitude of the bright square. -/
def sqThreshHalf : List Nat :=
  [0, 0, 0, 0, 0, 0, 0, 0, 0, 0,
    0, 0, 0, 0, 0, 0, 0, 0, 0, 0,
    0, 0, 0, 0, 0, 0, 0, 0, 0, 0,
    0, 0, 0, 3164, 23290, 22440, 11088, 0, 0, 0,
    0, 0, 0, 23290, 57630, 50490, 49810, 0, 0, 0,
    0, 0, 0, 22440, 50490, 28815, 46580, 0, 0, 0,
    0, 0, 0, 11088, 49810, 46580, 25538, 0, 0, 0,
    0, 0, 0, 0, 0, 0, 0, 0, 0, 0,
    0, 0, 0, 0, 0, 0, 0, 0, 0, 0,
    0, 0, 0, 0, 0, 0, 0, 0, 0, 0]

/-- The blurred products of the bright square. -/
def sqFiltThresh : List Nat :=
  [0, 0, 0, 0, 0, 0, 0, 0, 0, 0,
    0, 0, 0, 0, 0, 0, 0, 0, 0, 0,
    0, 0, 351, 2939, 5432, 6313, 3725, 1232, 0, 0,
    0, 0, 2939, 11930, 20033, 23860, 14869, 6766, 0, 0,
    0, 0, 5432, 20033, 31338, 37848, 23247, 11942, 0, 0,
    0, 0, 6313, 23860, 37848, 45082, 27534, 13547, 0, 0,
    0, 0, 3725, 14869, 23247, 27534, 16390, 8013, 0, 0,
    0, 0, 1232, 6766, 11942, 13547, 8013, 2837, 0, 0,
    0, 0, 0, 0, 0, 0, 0, 0, 0, 0,
    0, 0, 0, 0, 0, 0, 0, 0, 0, 0]

/-- The blurred half-resolution magnitude of the bright square. -/
def sqFiltMag : List Nat :=
  [0, 0, 0, 0, 0, 0, 0, 0, 0, 0,
    0, 0, 3, 12, 22, 25, 15, 6, 0, 0,
    0, 3, 18, 58, 94, 106, 73, 34, 6, 0,
    0, 12, 58, 123, 171, 186, 146, 85, 25, 0,
    0, 22, 94, 171, 213, 226, 192, 129, 44, 0,
    0, 25, 106, 186, 226, 232, 203, 138, 50, 0,
    0, 15, 73, 146, 192, 203, 161, 99, 31, 0,
    0, 6, 34, 85, 129, 138, 99, 50, 12, 0,
    0, 0, 6, 25, 44, 50, 31, 12, 0, 0,
    0, 0, 0, 0, 0, 0, 0, 0, 0, 0]

/-- The half-resolution adaptive threshold of the bright square. -/
def sqAdaptiveHalf : List Nat :=
  [0, 0, 0, 0, 0, 0, 0, 0, 0, 0,
    0, 0, 0, 0, 0, 0, 0, 0, 0, 0,
    0, 0, 19, 50, 57, 59, 51, 36, 0, 0,
    0, 0, 50, 96, 117, 128, 101, 79, 0, 0,
    0, 0, 57, 117, 147, 167, 121, 92, 0, 0,
    0, 0, 59, 128, 167, 194, 135, 98, 0, 0,
    0, 0, 51, 101, 121, 135, 101, 80, 0, 0,
    0, 0, 36, 79, 92, 98, 80, 56, 0, 0,
    0, 0, 0, 0, 0, 0, 0, 0, 0, 0,
    0, 0, 0, 0, 0, 0, 0, 0, 0, 0]

/-- The adaptive threshold of the bright square after `upsize`. -/
def sqAdaptive : List Nat :=
  [0, 0, 0, 0, 0, 0, 0, 0, 0, 0, 0, 0, 0, 0, 0, 0, 0, 0, 0, 0,
    0, 0, 0, 0, 0, 0, 0, 0, 0, 0, 0, 0, 0, 0, 0, 0, 0, 0, 0, 0,
    0, 0, 0, 0, 0, 0, 0, 0, 0, 0, 0, 0, 0, 0, 0, 0, 0, 0, 0, 0,
    0, 0, 0, 4, 9, 17, 25, 26, 28, 29, 29, 27, 25, 21, 18, 9, 0, 0, 0, 0,
    0, 0, 0, 9, 19, 34, 50, 53, 57, 58, 59, 55, 51, 43, 36, 18, 0, 0, 0, 0,
    0, 0, 0, 17, 34, 53, 73, 79, 87, 90, 93, 84, 76, 66, 57, 28, 0, 0, 0, 0,
    0, 0, 0, 25, 50, 73, 96, 106, 117, 122, 128, 114, 101, 90, 79, 39, 0, 0, 0, 0,
    0, 0, 0, 26, 53, 80, 106, 119, 132, 139, 147, 129, 111, 98, 85, 42, 0, 0, 0, 0,
    0, 0, 0, 28, 57, 87, 117, 132, 147, 157, 167, 144, 121, 106, 92, 46, 0, 0, 0, 0,
    0, 0, 0, 28, 58, 90, 122, 139, 157, 168, 180, 154, 128, 111, 95, 47, 0, 0, 0, 0,
    0, 0, 0, 29, 59, 93, 128, 147, 167, 180, 194, 164, 135, 116, 98, 49, 0, 0, 0, 0,
    0, 0, 0, 27, 55, 84, 114, 129, 144, 154, 164, 141, 118, 103, 89, 44, 0, 0, 0, 0,
    0, 0, 0, 25, 51, 76, 101, 111, 121, 128, 135, 118, 101, 90, 80, 40, 0, 0, 0, 0,
    0, 0, 0, 21, 43, 66, 90, 98, 106, 111, 116, 103, 90, 79, 68, 34, 0, 0, 0, 0,
    0, 0, 0, 18, 36, 57, 79, 85, 92, 95, 98, 89, 80, 68, 56, 28, 0, 0, 0, 0,
    0, 0, 0, 9, 18, 28, 39, 42, 46, 47, 49, 44, 40, 34, 28, 14, 0, 0, 0, 0,
    0, 0, 0, 0, 0, 0, 0, 0, 0, 0, 0, 0, 0, 0, 0, 0, 0, 0, 0, 0,
    0, 0, 0, 0, 0, 0, 0, 0, 0, 0, 0, 0, 0, 0, 0, 0, 0, 0, 0, 0,
    0, 0, 0, 0, 0, 0, 0, 0, 0, 0, 0, 0, 0, 0, 0, 0, 0, 0, 0, 0,
    0, 0, 0, 0, 0, 0, 0, 0, 0, 0, 0, 0, 0, 0, 0, 0, 0, 0, 0, 0]

/-- The classification of the bright square for the threshold 10. -/
def sqClasses : List Nat :=
  [128, 128, 128, 128, 128, 128, 128, 128, 128, 128, 128, 128, 128, 128, 128, 128, 128, 128, 128, 128,
    128, 128, 128, 128, 128, 128, 128, 128, 128, 128, 128, 128, 128, 128, 128, 128, 128, 128, 128, 128,
    128, 128, 128, 128, 128, 128, 128, 128, 128, 128, 128, 128, 128, 128, 128, 128, 128, 128, 128, 128,
    128, 128, 128, 128, 128, 128, 0, 0, 0, 0, 0, 0, 0, 0, 128, 128, 128, 128, 128, 128,
    128, 128, 128, 128, 128, 0, 0, 0, 0, 0, 0, 0, 0, 0, 128, 128, 128, 128, 128, 128,
    128, 128, 128, 128, 0, 0, 0, 0, 0, 0, 0, 0, 0, 0, 0, 0, 128, 128, 128, 128,
    128, 128, 128, 0, 0, 0, 0, 0, 0, 0, 0, 0, 0, 0, 0, 0, 128, 128, 128, 128,
    128, 128, 128, 0, 0, 0, 0, 0, 255, 255, 255, 255, 255, 0, 0, 0, 128, 128, 128, 128,
    128, 128, 128, 0, 0, 0, 0, 255, 255, 255, 255, 255, 255, 0, 0, 0, 128, 128, 128, 128,
    128, 128, 128, 0, 0, 0, 0, 255, 255, 255, 255, 255, 255, 0, 0, 0, 128, 128, 128, 128,
    128, 128, 128, 0, 0, 0, 0, 255, 255, 255, 255, 255, 255, 0, 0, 0, 128, 128, 128, 128,
    128, 128, 128, 0, 0, 0, 0, 255, 255, 255, 255, 255, 255, 0, 0, 0, 128, 128, 128, 128,
    128, 128, 128, 0, 0, 0, 0, 255, 255, 255, 255, 255, 255, 0, 0, 0, 128, 128, 128, 128,
    128, 128, 128, 0, 0, 0, 0, 0, 0, 0, 0, 0, 0, 0, 0, 0, 128, 128, 128, 128,
    128, 128, 128, 128, 128, 0, 0, 0, 0, 0, 0, 0, 0, 0, 128, 128, 128, 128, 128, 128,
    128, 128, 128, 128, 128, 0, 0, 0, 0, 0, 0, 0, 0, 0, 128, 128, 128, 128, 128, 128,
    128, 128, 128, 128, 128, 128, 128, 128, 128, 128, 128, 128, 128, 128, 128, 128, 128, 128, 128, 128,
    128, 128, 128, 128, 128, 128, 128, 128, 128, 128, 128, 128, 128, 128, 128, 128, 128, 128, 128, 128,
    128, 128, 128, 128, 128, 128, 128, 128, 128, 128, 128, 128, 128, 128, 128, 128, 128, 128, 128, 128,
    128, 128, 128, 128, 128, 128, 128, 128, 128, 128, 128, 128, 128, 128, 128, 128, 128, 128, 128, 128]

/-! ## Basic facts about the memory model -/

theorem rd_eq (b : Buf) (p : Int) (n : Nat) (hp : p = n) (hn : n < b.length) :
    rd b p = some (b.getD n 0) := by
  subst hp
  simp [rd, List.getD, List.getElem?_eq_getElem hn]

theorem rd_eq_get (b : Buf) (p : Int) (n : Nat) (v : Int) (hp : p = n) (hv : b[n]? = some v) :
    rd b p = some v := by
  subst hp
  simp [rd, hv]

theorem wr_eq (b : Buf) (p : Int) (n : Nat) (v : Int) (hp : p = n) (hn : n < b.length) :
    wr b p v = some (b.set n v) := by
  subst hp
  simp [wr, hn]

theorem put_eq (c : Cur) (n : Nat) (v : Int) (hp : c.po = n) (hn : n < c.out.length) :
    c.put v = some ⟨c.out.set n v, ((n + 1 : Nat) : Int)⟩ := by
  rw [Cur.put, wr_eq c.out c.po n v hp hn, hp]; simp

theorem iters_zero (n : Nat) : iters 0 (n : Int) = n := by
  simp [iters]

theorem iters_one (n : Nat) : iters 1 ((n : Int) - 1) = n - 2 := by
  simp only [iters]; omega

theorem loopM_succ {σ : Type} (n : Nat) (f : σ → Option σ) (s : σ) :
    loopM (n + 1) f s = (f s).bind (loopM n f) := rfl

/-- Hoare-style rule for `loopM`: an invariant indexed by the iteration count. -/
theorem loopM_inv {σ : Type} (P : Nat → σ → Prop) (f : σ → Option σ) (n : Nat) :
    ∀ (m : Nat) (s : σ), P m s →
      (∀ k t, m ≤ k → k < m + n → P k t → ∃ t', f t = some t' ∧ P (k + 1) t') →
      ∃ s', loopM n f s = some s' ∧ P (m + n) s' := by
  induction n with
  | zero => intro m s h _; exact ⟨s, rfl, by simpa using h⟩
  | succ n ih =>
    intro m s h hstep
    obtain ⟨t, ht, hPt⟩ := hstep m s (Nat.le_refl m) (by omega) h
    obtain ⟨s', hs', hP⟩ := ih (m + 1) t hPt (fun k u hk hlt hu => hstep k u (by omega) (by omega) hu)
    refine ⟨s', ?_, ?_⟩
    · simp [loopM_succ, ht, hs']
    · have e : m + (n + 1) = m + 1 + n := by omega
      rw [e]; exact hP

theorem Filled.init (F : Nat → Int) (orig : Buf) : Filled F orig ⟨orig, 0⟩ 0 :=
  ⟨rfl, rfl, fun i h => absurd h (Nat.not_lt_zero i), fun _ _ => rfl⟩

theorem Filled.step {F : Nat → Int} {orig : Buf} {c : Cur} {k : Nat} (h : Filled F orig c k)
    (hk : k < orig.length) (v : Int) (hv : v = F k) :
    ∃ c', c.put v = some c' ∧ Filled F orig c' (k + 1) := by
  obtain ⟨hpo, hlen, hlo, hhi⟩ := h
  refine ⟨_, put_eq c k v hpo (by omega), rfl, by simpa using hlen, ?_, ?_⟩
  · intro i hi
    simp only [List.getElem?_set]
    by_cases e : k = i
    · subst e; simp [hlen, hk, hv]
    · simp only [e, if_false]; exact hlo i (by omega)
  · intro i hi
    simp only [List.getElem?_set]
    have e : ¬ k = i := by omega
    simp only [e, if_false]; exact hhi i (by omega)

theorem Filled.fill {F : Nat → Int} {orig : Buf} {c : Cur} {k : Nat} (h : Filled F orig c k)
    (n : Nat) (v : Int) (hk : k + n ≤ orig.length) (hv : ∀ j, j < n → F (k + j) = v) :
    ∃ c', c.fill n v = some c' ∧ Filled F orig c' (k + n) := by
  unfold Cur.fill
  refine loopM_inv (fun j c => Filled F orig c (k + j)) _ n 0 c (by simpa using h) ?_ |>.imp
    (fun c' hc => ⟨hc.1, by simpa using hc.2⟩)
  intro j t _ hj ht
  have := ht.step (by omega) v (by rw [hv j (by omega)])
  simpa [Nat.add_assoc] using this

/-- The nine indices of a 3 x 3 neighbourhood of an interior pixel lie inside a
`W * H` buffer. -/
theorem nbr_bounds (W H r t n : Nat) (hn : n = W * H) (ht : t + 2 < W) (hr : r + 2 < H) :
    r * W + t < n ∧ r * W + (t + 1) < n ∧ r * W + (t + 1 + 1) < n ∧
    (r + 1) * W + t < n ∧ (r + 1) * W + (t + 1) < n ∧ (r + 1) * W + (t + 1 + 1) < n ∧
    (r + 1 + 1) * W + t < n ∧ (r + 1 + 1) * W + (t + 1) < n ∧
    (r + 1 + 1) * W + (t + 1 + 1) < n := by
  have e1 : (r + 1) * W = r * W + W := by ring
  have e2 : (r + 1 + 1) * W = r * W + W + W := by ring
  have hB : r * W + W + W + W ≤ W * H := by
    have := Nat.mul_le_mul_left W (show r + 3 ≤ H by omega)
    have e3 : W * (r + 3) = r * W + W + W + W := by ring
    omega
  subst hn
  rw [e1, e2]
  generalize r * W = R at *
  generalize W * H = N at *
  omega

/-! ## `filter` -/

theorem coord_mod (y W x : Nat) (hx : x < W) : (y * W + x) % W = x := by
  rw [Nat.mul_comm, Nat.mul_add_mod]; exact Nat.mod_eq_of_lt hx

theorem coord_div (y W x : Nat) (hx : x < W) : (y * W + x) / W = y := by
  rw [Nat.mul_comm, Nat.mul_add_div (by omega)]; simp [Nat.div_eq_of_lt hx]

theorem filterFlat_eq (cls : Buf) (W H channels bpp p j : Nat) (hj : j < bpp) :
    filterFlat cls W H channels bpp (p * bpp + j) = filterSample cls W H channels p j := by
  simp [filterFlat, coord_mod p bpp j hj, coord_div p bpp j hj]

/-- Writing one pixel: `channels` samples `v` and, with alpha, one sample 255. -/
theorem Filled.pixel {F : Nat → Int} {orig : Buf} {c : Cur} {p : Nat} (channels : Nat)
    (alpha : Bool) (v : Int)
    (h : Filled F orig c (p * (channels + (if alpha then 1 else 0))))
    (hlen : (p + 1) * (channels + (if alpha then 1 else 0)) ≤ orig.length)
    (hv : ∀ j, j < channels → F (p * (channels + (if alpha then 1 else 0)) + j) = v)
    (ha : alpha = true → F (p * (channels + 1) + channels) = 255) :
    ∃ c', c.putPixel channels alpha v = some c' ∧
      Filled F orig c' ((p + 1) * (channels + (if alpha then 1 else 0))) := by
  unfold Cur.putPixel
  rw [iters_zero]
  have e : (p + 1) * (channels + (if alpha then 1 else 0))
      = p * (channels + (if alpha then 1 else 0)) + (channels + (if alpha then 1 else 0)) := by
    ring
  rw [e] at hlen ⊢
  obtain ⟨c1, hc1, hF1⟩ := h.fill channels v (by omega) hv
  rw [hc1]
  cases alpha with
  | false => exact ⟨c1, by simp, by simpa using hF1⟩
  | true =>
    simp only [if_true] at hF1 hlen ⊢
    obtain ⟨c2, hc2, hF2⟩ := hF1.step (by omega) 255 (ha rfl).symm
    exact ⟨c2, by simpa using hc2, by simpa [Nat.add_assoc] using hF2⟩

theorem orIs255_eq (b : Buf) (p : Int) (v : Int) (r : Bool) (h : rd b p = some v) :
    orIs255 b p (some r) = some (decide (v = 255) || r) := by
  unfold orIs255
  by_cases e : v = 255 <;> simp [h, e]

theorem filtValue_eq (cls : Buf) (W H r t : Nat) (s : FiltSt) (hlen : cls.length = W * H)
    (ht : t + 2 < W) (hr : r + 2 < H)
    (hs : s.At W (((r + 1) * W + (t + 1) : Nat) : Int)) :
    filtValue cls s = some (edgeValue cls W (t + 1) (r + 1)) := by
  obtain ⟨he, ha, hb, hc, hd, hf, hg, hh, hi⟩ := hs
  obtain ⟨b0, b1, b2, b3, b4, b5, b6, b7, b8⟩ := nbr_bounds W H r t cls.length hlen ht hr
  have ra := rd_eq cls s.pa (r * W + t) (by rw [ha]; push_cast; ring) b0
  have rb := rd_eq cls s.pb (r * W + (t + 1)) (by rw [hb]; push_cast; ring) b1
  have rc := rd_eq cls s.pc (r * W + (t + 1 + 1)) (by rw [hc]; push_cast; ring) b2
  have rd' := rd_eq cls s.pd ((r + 1) * W + t) (by rw [hd]; push_cast; ring) b3
  have re := rd_eq cls s.pe ((r + 1) * W + (t + 1)) (by rw [he]) b4
  have rf := rd_eq cls s.pf ((r + 1) * W + (t + 1 + 1)) (by rw [hf]; push_cast; ring) b5
  have rg := rd_eq cls s.pg ((r + 1 + 1) * W + t) (by rw [hg]; push_cast; ring) b6
  have rh := rd_eq cls s.ph ((r + 1 + 1) * W + (t + 1)) (by rw [hh]; push_cast; ring) b7
  have ri := rd_eq cls s.pi ((r + 1 + 1) * W + (t + 1 + 1)) (by rw [hi]; push_cast; ring) b8
  unfold filtValue edgeValue px
  simp only [Nat.add_sub_cancel]
  rw [re, orIs255_eq cls s.pi _ false ri, orIs255_eq cls s.ph _ _ rh, orIs255_eq cls s.pg _ _ rg,
    orIs255_eq cls s.pf _ _ rf, orIs255_eq cls s.pd _ _ rd', orIs255_eq cls s.pc _ _ rc,
    orIs255_eq cls s.pb _ _ rb, orIs255_eq cls s.pa _ _ ra]
  clear ra rb rc rd' re rf rg rh ri he ha hb hc hd hf hg hh hi b0 b1 b2 b3 b4 b5 b6 b7 b8 hlen
  generalize cls.getD ((r + 1) * W + (t + 1)) 0 = e
  by_cases h0 : e = 0 <;> simp [h0]

theorem FiltSt.At.skip {s : FiltSt} {W : Nat} {q : Int} (h : s.At W q) :
    s.skip.At W (q + 1) := by
  unfold FiltSt.At at h ⊢
  unfold FiltSt.skip
  dsimp only
  omega

theorem filterSample_border (cls : Buf) (W H channels p j : Nat)
    (h : p % W = 0 ∨ p / W = 0 ∨ p % W + 1 = W ∨ p / W + 1 = H) :
    filterSample cls W H channels p j = 255 := by
  simp [filterSample, h]

theorem filterSample_inner (cls : Buf) (W H channels r t j : Nat) (ht : t + 2 < W)
    (hr : r + 2 < H) :
    filterSample cls W H channels ((r + 1) * W + (t + 1)) j =
      if j < channels then edgeValue cls W (t + 1) (r + 1) else 255 := by
  have hm := coord_mod (r + 1) W (t + 1) (by omega)
  have hd := coord_div (r + 1) W (t + 1) (by omega)
  unfold filterSample
  rw [hm, hd]
  have : ¬ (t + 1 = 0 ∨ r + 1 = 0 ∨ t + 1 + 1 = W ∨ r + 1 + 1 = H) := by omega
  rw [if_neg this]

/-- A border row of `filter` appends `W` pixels of value 255. -/
theorem filtBorderRow_spec {F : Nat → Int} {orig : Buf} {c : Cur} (W bpp p0 : Nat)
    (h : Filled F orig c (p0 * bpp)) (hlen : (p0 + W) * bpp ≤ orig.length)
    (hv : ∀ q j, p0 ≤ q → q < p0 + W → j < bpp → F (q * bpp + j) = 255) :
    ∃ c', filtBorderRow W bpp c = some c' ∧ Filled F orig c' ((p0 + W) * bpp) := by
  unfold filtBorderRow
  rw [iters_zero, iters_zero]
  refine loopM_inv (fun k c => Filled F orig c ((p0 + k) * bpp)) _ W 0 c (by simpa using h) ?_
    |>.imp (fun c' hc => ⟨hc.1, by simpa using hc.2⟩)
  intro k t _ hk ht
  have e : (p0 + (k + 1)) * bpp = (p0 + k) * bpp + bpp := by ring
  have hle : (p0 + (k + 1)) * bpp ≤ (p0 + W) * bpp := Nat.mul_le_mul_right _ (by omega)
  show ∃ t', _ ∧ Filled F orig t' ((p0 + (k + 1)) * bpp)
  rw [e] at hle ⊢
  exact ht.fill bpp 255 (by omega) (fun j hj => hv (p0 + k) j (by omega) (by omega) hj)

/-- A border column pixel inside the row loop of `filter`. -/
theorem filtEdge_spec {F : Nat → Int} {orig : Buf} {s : FiltSt} (W bpp p : Nat) (q : Int)
    (h : Filled F orig s.cur (p * bpp)) (hs : s.At W q) (hlen : (p + 1) * bpp ≤ orig.length)
    (hv : ∀ j, j < bpp → F (p * bpp + j) = 255) :
    ∃ s', filtEdge bpp s = some s' ∧ Filled F orig s'.cur ((p + 1) * bpp) ∧ s'.At W q := by
  have e : (p + 1) * bpp = p * bpp + bpp := by ring
  rw [e] at hlen ⊢
  obtain ⟨c', hc', hF⟩ := h.fill bpp 255 hlen hv
  refine ⟨⟨c', s.pa, s.pb, s.pc, s.pd, s.pe, s.pf, s.pg, s.ph, s.pi⟩, ?_, hF, hs⟩
  simp [filtEdge, iters_zero, hc']

/-- An interior pixel of `filter`. -/
theorem filtPixel_spec (cls orig : Buf) (W H channels : Nat) (alpha : Bool) (r t : Nat)
    (s : FiltSt) (hcls : cls.length = W * H)
    (horig : orig.length = W * H * (channels + (if alpha then 1 else 0)))
    (ht : t + 2 < W) (hr : r + 2 < H)
    (h : Filled (filterFlat cls W H channels (channels + (if alpha then 1 else 0))) orig s.cur
      (((r + 1) * W + (t + 1)) * (channels + (if alpha then 1 else 0))))
    (hs : s.At W (((r + 1) * W + (t + 1) : Nat) : Int)) :
    ∃ s', filtPixel cls channels alpha s = some s' ∧
      Filled (filterFlat cls W H channels (channels + (if alpha then 1 else 0))) orig s'.cur
        (((r + 1) * W + (t + 1 + 1)) * (channels + (if alpha then 1 else 0))) ∧
      s'.At W (((r + 1) * W + (t + 1 + 1) : Nat) : Int) := by
  have hval := filtValue_eq cls W H r t s hcls ht hr hs
  have hp : (r + 1) * W + (t + 1) + 1 ≤ W * H := by nlinarith
  obtain ⟨c', hc', hF⟩ := h.pixel channels alpha (edgeValue cls W (t + 1) (r + 1))
    (by rw [horig]; exact Nat.mul_le_mul_right _ hp)
    (fun j hj => by
      rw [filterFlat_eq _ _ _ _ _ _ _ (by omega), filterSample_inner _ _ _ _ _ _ _ ht hr,
        if_pos hj])
    (fun ha => by
      subst ha
      have := filterFlat_eq cls W H channels (channels + 1) ((r + 1) * W + (t + 1)) channels
        (by omega)
      simp only [if_true]
      rw [this, filterSample_inner _ _ _ _ _ _ _ ht hr, if_neg (by omega)])
  refine ⟨FiltSt.skip ⟨c', s.pa, s.pb, s.pc, s.pd, s.pe, s.pf, s.pg, s.ph, s.pi⟩, ?_, ?_, ?_⟩
  · unfold filtPixel
    rw [hval]
    simp only [Option.bind_eq_bind, Option.some_bind]
    rw [hc']
    rfl
  · exact hF
  · have : (((r + 1) * W + (t + 1 + 1) : Nat) : Int) = (((r + 1) * W + (t + 1) : Nat) : Int) + 1 := by
      push_cast; ring
    rw [this]
    exact FiltSt.At.skip (s := ⟨c', s.pa, s.pb, s.pc, s.pd, s.pe, s.pf, s.pg, s.ph, s.pi⟩) hs

/-- One pass of the row loop of `filter` writes row `r + 1`. -/
theorem filtRow_spec (cls orig : Buf) (W H channels : Nat) (alpha : Bool) (r : Nat)
    (s : FiltSt) (hcls : cls.length = W * H)
    (horig : orig.length = W * H * (channels + (if alpha then 1 else 0)))
    (hW : 2 ≤ W) (hr : r + 2 < H)
    (h : Filled (filterFlat cls W H channels (channels + (if alpha then 1 else 0))) orig s.cur
      (((r + 1) * W) * (channels + (if alpha then 1 else 0))))
    (hs : s.At W (((r + 1) * W : Nat) : Int)) :
    ∃ s', filtRow cls W channels alpha s = some s' ∧
      Filled (filterFlat cls W H channels (channels + (if alpha then 1 else 0))) orig s'.cur
        (((r + 1 + 1) * W) * (channels + (if alpha then 1 else 0))) ∧
      s'.At W (((r + 1 + 1) * W : Nat) : Int) := by
  have hrow : (r + 1) * W + W ≤ W * H := by nlinarith
  have e2 : (r + 1 + 1) * W = (r + 1) * W + W := by ring
  -- the left border pixel
  obtain ⟨s1, hs1, hF1, hA1⟩ := filtEdge_spec (s := s.skip) W
    (channels + (if alpha then 1 else 0)) ((r + 1) * W) ((((r + 1) * W : Nat) : Int) + 1) h
    hs.skip (by rw [horig]; exact Nat.mul_le_mul_right _ (by omega))
    (fun j hj => by
      rw [filterFlat_eq _ _ _ _ _ _ _ hj]
      apply filterSample_border
      left
      exact coord_mod (r + 1) W 0 (by omega))
  -- the interior pixels
  obtain ⟨s2, hs2, hF2, hA2⟩ := loopM_inv
    (fun j (u : FiltSt) =>
      Filled (filterFlat cls W H channels (channels + (if alpha then 1 else 0))) orig u.cur
        (((r + 1) * W + (j + 1)) * (channels + (if alpha then 1 else 0))) ∧
      u.At W (((r + 1) * W + (j + 1) : Nat) : Int))
    (filtPixel cls channels alpha) (W - 2) 0 s1
    ⟨by simpa using hF1, by simpa using hA1⟩
    (fun j u _ hj hu => filtPixel_spec cls orig W H channels alpha r j u hcls horig (by omega) hr
      hu.1 hu.2)
  -- the right border pixel
  have e3 : (r + 1) * W + (0 + (W - 2) + 1) = (r + 1) * W + W - 1 := by omega
  rw [e3] at hF2 hA2
  obtain ⟨s3, hs3, hF3, hA3⟩ := filtEdge_spec (s := s2.skip) W
    (channels + (if alpha then 1 else 0)) ((r + 1) * W + W - 1)
    ((((r + 1) * W + W - 1 : Nat) : Int) + 1) hF2
    hA2.skip (by rw [horig]; exact Nat.mul_le_mul_right _ (by omega))
    (fun j hj => by
      rw [filterFlat_eq _ _ _ _ _ _ _ hj]
      apply filterSample_border
      right; right; left
      have e : (r + 1) * W + W - 1 = (r + 1) * W + (W - 1) := by omega
      rw [e, coord_mod (r + 1) W (W - 1) (by omega)]
      omega)
  refine ⟨s3, ?_, ?_, ?_⟩
  · unfold filtRow
    simp only [Option.bind_eq_bind, iters_one]
    rw [hs1, Option.some_bind, hs2, Option.some_bind, hs3]
  · have e : (r + 1) * W + W - 1 + 1 = (r + 1 + 1) * W := by omega
    rw [e] at hF3
    exact hF3
  · have e : (((r + 1) * W + W - 1 : Nat) : Int) + 1 = (((r + 1 + 1) * W : Nat) : Int) := by
      omega
    rw [e] at hA3
    exact hA3

/-- Closed form of `filter`: for a field of at least 2 x 2 pixels the routine
stays inside its buffers and the output is given by `filterFlat`. -/
theorem filter_closed (cls out0 : Buf) (W H channels : Nat) (alpha : Bool)
    (hW : 2 ≤ W) (hH : 2 ≤ H) (hcls : cls.length = W * H)
    (hout : out0.length = W * H * (channels + (if alpha then 1 else 0))) :
    ∃ out, filter cls out0 W H channels alpha = some out ∧ out.length = out0.length ∧
      ∀ i, i < out0.length →
        out[i]? = some (filterFlat cls W H channels (channels + (if alpha then 1 else 0)) i) := by
  have hWH : W + W ≤ W * H := by nlinarith
  -- first row
  obtain ⟨c1, hc1, hF1⟩ := filtBorderRow_spec
    (F := filterFlat cls W H channels (channels + (if alpha then 1 else 0)))
    (c := ⟨out0, 0⟩) W (channels + (if alpha then 1 else 0)) 0
    (by simpa using Filled.init _ out0)
    (by rw [hout]; exact Nat.mul_le_mul_right _ (by omega))
    (fun q j _ hq hj => by
      rw [filterFlat_eq _ _ _ _ _ _ _ hj]
      apply filterSample_border
      right; left
      exact Nat.div_eq_of_lt (by omega))
  -- middle rows
  obtain ⟨s2, hs2, hF2, hA2⟩ := loopM_inv
    (fun r (u : FiltSt) =>
      Filled (filterFlat cls W H channels (channels + (if alpha then 1 else 0))) out0 u.cur
        (((r + 1) * W) * (channels + (if alpha then 1 else 0))) ∧
      u.At W (((r + 1) * W : Nat) : Int))
    (filtRow cls W channels alpha) (H - 2) 0
    ⟨c1, (W : Int) - W - 1, (W : Int) - W - 1 + 1, (W : Int) - W - 1 + 1 + 1, (W : Int) - 1,
      (W : Int), (W : Int) + 1, (W : Int) + ((W : Int) - 1), (W : Int) + ((W : Int) - 1) + 1,
      (W : Int) + ((W : Int) - 1) + 1 + 1⟩
    ⟨by simpa using hF1, by
      simp only [FiltSt.At]
      refine ⟨?_, ?_, ?_, ?_, ?_, ?_, ?_, ?_, ?_⟩ <;> push_cast <;> omega⟩
    (fun r u _ hr hu => filtRow_spec cls out0 W H channels alpha r u hcls hout hW (by omega)
      hu.1 hu.2)
  -- last row
  have e : (0 + (H - 2) + 1) * W = (H - 1) * W := by
    congr 1; omega
  rw [e] at hF2
  have e2 : (H - 1) * W + W = W * H := by
    obtain ⟨k, rfl⟩ : ∃ k, H = k + 1 := ⟨H - 1, by omega⟩
    simp; ring
  obtain ⟨c3, hc3, hF3⟩ := filtBorderRow_spec W (channels + (if alpha then 1 else 0))
    ((H - 1) * W) hF2
    (by rw [hout, e2])
    (fun q j hq1 hq2 hj => by
      rw [filterFlat_eq _ _ _ _ _ _ _ hj]
      apply filterSample_border
      right; right; right
      have : q / W = H - 1 := by
        have hq : q = (H - 1) * W + (q - (H - 1) * W) := by omega
        rw [hq, coord_div (H - 1) W _ (by omega)]
      omega)
  rw [e2] at hF3
  refine ⟨c3.out, ?_, hF3.2.1, fun i hi => hF3.2.2.1 i (by rw [← hout]; exact hi)⟩
  unfold filter
  simp only [Option.bind_eq_bind, iters_one]
  rw [hc1, Option.some_bind, hs2, Option.some_bind, hc3]
  rfl

/-! ## `apply_threshold` -/

theorem threshStep_spec (blurred mag buffer : Buf) (threshold : Int) (k : Nat) (s : ZipSt)
    (hk : k < blurred.length) (hm : k < mag.length) (hb : k < buffer.length)
    (h : Filled (fun i => classify (blurred.getD i 0) (mag.getD i 0) (buffer.getD i 0)
      threshold) blurred s.cur k)
    (hpa : s.pa = k) (hpb : s.pb = k) :
    ∃ s', threshStep mag buffer threshold s = some s' ∧
      Filled (fun i => classify (blurred.getD i 0) (mag.getD i 0) (buffer.getD i 0)
        threshold) blurred s'.cur (k + 1) ∧ s'.pa = ((k + 1 : Nat) : Int) ∧
      s'.pb = ((k + 1 : Nat) : Int) := by
  have rm := rd_eq mag s.pa k hpa hm
  have rb := rd_eq buffer s.pb k hpb hb
  have rx : rd s.cur.out s.cur.po = some (blurred.getD k 0) :=
    rd_eq_get _ _ k _ h.1 (by
      rw [h.2.2.2 k (Nat.le_refl k)]
      simp [List.getD, List.getElem?_eq_getElem hk])
  have hv : threshValue mag buffer threshold s
      = some (classify (blurred.getD k 0) (mag.getD k 0) (buffer.getD k 0) threshold) := by
    unfold threshValue classify
    rw [rm]
    by_cases hgt : mag.getD k 0 > threshold
    · simp only [Option.bind_eq_bind, Option.some_bind, if_pos hgt, rx, rb]; rfl
    · simp only [Option.bind_eq_bind, Option.some_bind, if_neg hgt]; rfl
  obtain ⟨c', hc', hF⟩ := h.step hk _ rfl
  refine ⟨⟨c', s.pa + 1, s.pb + 1⟩, ?_, hF, by simp [hpa], by simp [hpb]⟩
  unfold threshStep
  rw [hv]
  simp only [Option.bind_eq_bind, Option.some_bind]
  rw [hc']
  rfl

/-- Closed form of `apply_threshold`. -/
theorem apply_threshold_closed (blurred mag buffer : Buf) (size : Nat) (threshold : Int)
    (hbl : blurred.length = size) (hmag : mag.length = size) (hbuf : buffer.length = size) :
    ∃ out, apply_threshold blurred mag buffer size threshold = some out ∧ out.length = size ∧
      ∀ i, i < size → out[i]? = some
        (classify (blurred.getD i 0) (mag.getD i 0) (buffer.getD i 0) threshold) := by
  obtain ⟨s', hs', hF, _, _⟩ := loopM_inv
    (fun k (s : ZipSt) =>
      Filled (fun i => classify (blurred.getD i 0) (mag.getD i 0) (buffer.getD i 0)
        threshold) blurred s.cur k ∧ s.pa = (k : Int) ∧ s.pb = (k : Int))
    (threshStep mag buffer threshold) size 0 ⟨⟨blurred, 0⟩, 0, 0⟩
    ⟨Filled.init _ blurred, rfl, rfl⟩
    (fun k s _ hk hs => threshStep_spec blurred mag buffer threshold k s (by omega) (by omega)
      (by omega) hs.1 hs.2.1 hs.2.2)
  rw [Nat.zero_add] at hF
  refine ⟨s'.cur.out, ?_, by rw [hF.2.1, hbl], fun i hi => hF.2.2.1 i hi⟩
  unfold apply_threshold
  rw [iters_zero, hs']
  rfl

/-! ## `magnitude` -/

theorem magFlat_border (inp : Buf) (w h x y : Nat) (hx : x < w)
    (hb : x = 0 ∨ y = 0 ∨ x + 1 = w ∨ y + 1 = h) : magFlat inp w h (y * w + x) = 0 := by
  unfold magFlat
  rw [coord_mod y w x hx, coord_div y w x hx, if_pos hb]

theorem magFlat_inner (inp : Buf) (w h r t : Nat) (ht : t + 2 < w) (hr : r + 2 < h) :
    magFlat inp w h ((r + 1) * w + (t + 1)) = magValue inp w (t + 1) (r + 1) := by
  unfold magFlat
  rw [coord_mod (r + 1) w (t + 1) (by omega), coord_div (r + 1) w (t + 1) (by omega)]
  have : ¬ (t + 1 = 0 ∨ r + 1 = 0 ∨ t + 1 + 1 = w ∨ r + 1 + 1 = h) := by omega
  rw [if_neg this]

theorem magEdge_spec {F : Nat → Int} {orig : Buf} {s : MagSt} (w p : Nat)
    (h : Filled F orig s.cur p) (hs : s.At w p) (hlen : p < orig.length) (hv : F p = 0) :
    ∃ s', magEdge s = some s' ∧ Filled F orig s'.cur (p + 1) ∧ s'.At w ((p + 1 : Nat) : Int) := by
  obtain ⟨c', hc', hF⟩ := h.step hlen 0 hv.symm
  refine ⟨⟨c', s.pa + 1, s.pb + 1, s.pc + 1, s.pd + 1⟩, ?_, hF, ?_⟩
  · unfold magEdge
    rw [hc']
    rfl
  · unfold MagSt.At at hs ⊢
    dsimp only
    push_cast
    omega

theorem magPixel_spec (inp orig : Buf) (w h r t : Nat) (s : MagSt) (hinp : inp.length = w * h)
    (horig : orig.length = w * h) (ht : t + 2 < w) (hr : r + 2 < h)
    (hF : Filled (magFlat inp w h) orig s.cur ((r + 1) * w + (t + 1)))
    (hs : s.At w (((r + 1) * w + (t + 1) : Nat) : Int)) :
    ∃ s', magPixel inp s = some s' ∧
      Filled (magFlat inp w h) orig s'.cur ((r + 1) * w + (t + 1 + 1)) ∧
      s'.At w (((r + 1) * w + (t + 1 + 1) : Nat) : Int) := by
  obtain ⟨ha, hb, hc, hd⟩ := hs
  obtain ⟨_, b1, _, b3, b4, b5, _, b7, _⟩ := nbr_bounds w h r t inp.length hinp ht hr
  have ra := rd_eq inp s.pa ((r + 1) * w + (t + 1 + 1)) (by rw [ha]; push_cast; ring) b5
  have rb := rd_eq inp s.pb ((r + 1) * w + t) (by rw [hb]; push_cast; ring) b3
  have rc := rd_eq inp s.pc ((r + 1 + 1) * w + (t + 1)) (by rw [hc]; push_cast; ring) b7
  have rd' := rd_eq inp s.pd (r * w + (t + 1)) (by rw [hd]; push_cast; ring) b1
  obtain ⟨c', hc', hF'⟩ := hF.step (by rw [horig, ← hinp]; exact b4)
    (magValue inp w (t + 1) (r + 1))
    (magFlat_inner inp w h r t ht hr).symm
  refine ⟨⟨c', s.pa + 1, s.pb + 1, s.pc + 1, s.pd + 1⟩, ?_, hF', ?_⟩
  · unfold magPixel
    rw [ra, rb, rc, rd']
    simp only [Option.bind_eq_bind, Option.some_bind]
    unfold magValue px at hc'
    simp only [Nat.add_sub_cancel] at hc'
    rw [hc']
    rfl
  · unfold MagSt.At
    dsimp only
    rw [ha, hb, hc, hd]
    push_cast
    refine ⟨?_, ?_, ?_, ?_⟩ <;> ring

theorem magRow_spec (inp orig : Buf) (w h r : Nat) (s : MagSt) (hinp : inp.length = w * h)
    (horig : orig.length = w * h) (hw : 2 ≤ w) (hr : r + 2 < h)
    (hF : Filled (magFlat inp w h) orig s.cur ((r + 1) * w))
    (hs : s.At w (((r + 1) * w : Nat) : Int)) :
    ∃ s', magRow inp w s = some s' ∧ Filled (magFlat inp w h) orig s'.cur ((r + 1 + 1) * w) ∧
      s'.At w (((r + 1 + 1) * w : Nat) : Int) := by
  have hrow : (r + 1) * w + w ≤ w * h := by nlinarith
  have e2 : (r + 1 + 1) * w = (r + 1) * w + w := by ring
  obtain ⟨s1, hs1, hF1, hA1⟩ := magEdge_spec w ((r + 1) * w) hF hs (by omega)
    (by simpa using magFlat_border inp w h 0 (r + 1) (by omega) (Or.inl rfl))
  obtain ⟨s2, hs2, hF2, hA2⟩ := loopM_inv
    (fun j (u : MagSt) => Filled (magFlat inp w h) orig u.cur ((r + 1) * w + (j + 1)) ∧
      u.At w (((r + 1) * w + (j + 1) : Nat) : Int))
    (magPixel inp) (w - 2) 0 s1 ⟨hF1, hA1⟩
    (fun j u _ hj hu => magPixel_spec inp orig w h r j u hinp horig (by omega) hr hu.1 hu.2)
  have e3 : (r + 1) * w + (0 + (w - 2) + 1) = (r + 1) * w + (w - 1) := by omega
  rw [e3] at hF2 hA2
  obtain ⟨s3, hs3, hF3, hA3⟩ := magEdge_spec w ((r + 1) * w + (w - 1)) hF2 hA2 (by omega)
    (magFlat_border inp w h (w - 1) (r + 1) (by omega) (Or.inr (Or.inr (Or.inl (by omega)))))
  have e4 : (r + 1) * w + (w - 1) + 1 = (r + 1 + 1) * w := by omega
  rw [e4] at hF3 hA3
  refine ⟨s3, ?_, hF3, hA3⟩
  unfold magRow
  simp only [Option.bind_eq_bind, iters_one]
  rw [hs1, Option.some_bind, hs2, Option.some_bind, hs3]

/-- Closed form of `magnitude`: for a field of at least 2 x 2 samples the
routine stays inside its buffers and the output is given by `magFlat`. -/
theorem magnitude_closed (inp out0 : Buf) (w h : Nat) (hw : 2 ≤ w) (hh : 2 ≤ h)
    (hinp : inp.length = w * h) (hout : out0.length = w * h) :
    ∃ out, magnitude inp out0 w h = some out ∧ out.length = w * h ∧
      ∀ i, i < w * h → out[i]? = some (magFlat inp w h i) := by
  have hwh : w + w ≤ w * h := by nlinarith
  obtain ⟨c1, hc1, hF1⟩ := (Filled.init (magFlat inp w h) out0).fill w 0 (by omega)
    (fun j hj => by
      simpa using magFlat_border inp w h j 0 hj (Or.inr (Or.inl rfl)))
  rw [Nat.zero_add] at hF1
  obtain ⟨s2, hs2, hF2, hA2⟩ := loopM_inv
    (fun r (u : MagSt) => Filled (magFlat inp w h) out0 u.cur ((r + 1) * w) ∧
      u.At w (((r + 1) * w : Nat) : Int))
    (magRow inp w) (h - 2) 0 ⟨c1, (w : Int) + 1, (w : Int) - 1, 2 * (w : Int), 0⟩
    ⟨by simpa using hF1, by
      unfold MagSt.At
      dsimp only
      push_cast
      omega⟩
    (fun r u _ hr hu => magRow_spec inp out0 w h r u hinp hout hw (by omega) hu.1 hu.2)
  have e : (0 + (h - 2) + 1) * w = (h - 1) * w := by
    congr 1; omega
  rw [e] at hF2
  have e2 : (h - 1) * w + w = w * h := by
    obtain ⟨k, rfl⟩ : ∃ k, h = k + 1 := ⟨h - 1, by omega⟩
    simp; ring
  obtain ⟨c3, hc3, hF3⟩ := hF2.fill w 0 (by omega)
    (fun j hj => magFlat_border inp w h j (h - 1) hj (Or.inr (Or.inr (Or.inr (by omega)))))
  rw [e2] at hF3
  refine ⟨c3.out, ?_, by rw [hF3.2.1, hout], fun i hi => hF3.2.2.1 i hi⟩
  unfold magnitude
  simp only [Option.bind_eq_bind, iters_one]
  rw [hc1, Option.some_bind, hs2, Option.some_bind, hc3]
  rfl

/-! ## `divide` and `multiply` -/

theorem divStep_spec (a b orig : Buf) (k : Nat) (s : ZipSt)
    (ha : k < a.length) (hb : k < b.length) (ho : k < orig.length)
    (h : Filled (fun i => divValue (a.getD i 0) (b.getD i 0)) orig s.cur k)
    (hpa : s.pa = k) (hpb : s.pb = k) :
    ∃ s', divStep a b s = some s' ∧
      Filled (fun i => divValue (a.getD i 0) (b.getD i 0)) orig s'.cur (k + 1) ∧
      s'.pa = ((k + 1 : Nat) : Int) ∧ s'.pb = ((k + 1 : Nat) : Int) := by
  have ra := rd_eq a s.pa k hpa ha
  have rb := rd_eq b s.pb k hpb hb
  obtain ⟨c', hc', hF⟩ := h.step ho (divValue (a.getD k 0) (b.getD k 0)) rfl
  refine ⟨⟨c', s.pa + 1, s.pb + 1⟩, ?_, hF, by simp [hpa], by simp [hpb]⟩
  unfold divStep
  rw [ra, rb]
  simp only [Option.bind_eq_bind, Option.some_bind]
  unfold divValue at hc'
  rw [hc']
  rfl

/-- Closed form of `divide`. -/
theorem divide_closed (a b out0 : Buf) (size : Nat) (ha : a.length = size)
    (hb : b.length = size) (ho : out0.length = size) :
    ∃ out, divide a b out0 size = some out ∧ out.length = size ∧
      ∀ i, i < size → out[i]? = some (divValue (a.getD i 0) (b.getD i 0)) := by
  obtain ⟨s', hs', hF, _, _⟩ := loopM_inv
    (fun k (s : ZipSt) => Filled (fun i => divValue (a.getD i 0) (b.getD i 0)) out0 s.cur k ∧
      s.pa = (k : Int) ∧ s.pb = (k : Int))
    (divStep a b) size 0 ⟨⟨out0, 0⟩, 0, 0⟩ ⟨Filled.init _ out0, rfl, rfl⟩
    (fun k s _ hk hs => divStep_spec a b out0 k s (by omega) (by omega) (by omega) hs.1 hs.2.1
      hs.2.2)
  rw [Nat.zero_add] at hF
  refine ⟨s'.cur.out, ?_, by rw [hF.2.1, ho], fun i hi => hF.2.2.1 i hi⟩
  unfold divide
  rw [iters_zero, hs']
  rfl

theorem mulStep_spec (a b orig : Buf) (k : Nat) (s : ZipSt)
    (ha : k < a.length) (hb : k < b.length) (ho : k < orig.length)
    (h : Filled (fun i => wrap32 (a.getD i 0 * b.getD i 0)) orig s.cur k)
    (hpa : s.pa = k) (hpb : s.pb = k) :
    ∃ s', mulStep a b s = some s' ∧
      Filled (fun i => wrap32 (a.getD i 0 * b.getD i 0)) orig s'.cur (k + 1) ∧
      s'.pa = ((k + 1 : Nat) : Int) ∧ s'.pb = ((k + 1 : Nat) : Int) := by
  have ra := rd_eq a s.pa k hpa ha
  have rb := rd_eq b s.pb k hpb hb
  obtain ⟨c', hc', hF⟩ := h.step ho (wrap32 (a.getD k 0 * b.getD k 0)) rfl
  refine ⟨⟨c', s.pa + 1, s.pb + 1⟩, ?_, hF, by simp [hpa], by simp [hpb]⟩
  unfold mulStep
  rw [ra, rb]
  simp only [Option.bind_eq_bind, Option.some_bind]
  rw [hc']
  rfl

/-- Closed form of `multiply`. -/
theorem multiply_closed (a b out0 : Buf) (size : Nat) (ha : a.length = size)
    (hb : b.length = size) (ho : out0.length = size) :
    ∃ out, multiply a b out0 size = some out ∧ out.length = size ∧
      ∀ i, i < size → out[i]? = some (wrap32 (a.getD i 0 * b.getD i 0)) := by
  obtain ⟨s', hs', hF, _, _⟩ := loopM_inv
    (fun k (s : ZipSt) => Filled (fun i => wrap32 (a.getD i 0 * b.getD i 0)) out0 s.cur k ∧
      s.pa = (k : Int) ∧ s.pb = (k : Int))
    (mulStep a b) size 0 ⟨⟨out0, 0⟩, 0, 0⟩ ⟨Filled.init _ out0, rfl, rfl⟩
    (fun k s _ hk hs => mulStep_spec a b out0 k s (by omega) (by omega) (by omega) hs.1 hs.2.1
      hs.2.2)
  rw [Nat.zero_add] at hF
  refine ⟨s'.cur.out, ?_, by rw [hF.2.1, ho], fun i hi => hF.2.2.1 i hi⟩
  unfold multiply
  rw [iters_zero, hs']
  rfl

/-- For a non-negative 32-bit numerator and a non-negative denominator the
sample stored by `divide` is the quotient saturated at 255. -/
theorem divValue_nonneg (x d : Int) (hx0 : 0 ≤ x) (hx1 : x < 2147483648) (hd : 0 ≤ d) :
    divValue x d = min (x / (if d = 0 then 1 else d)) 255 ∧
      divValue x d = clampedQuotient x d := by
  have hd' : 0 < (if d = 0 then 1 else d) := by split_ifs <;> omega
  have hq : Int.tdiv x (if d = 0 then 1 else d) = x / (if d = 0 then 1 else d) :=
    Int.tdiv_eq_ediv hx0 (by omega)
  have hq0 : 0 ≤ x / (if d = 0 then 1 else d) := Int.ediv_nonneg hx0 (by omega)
  have hq1 : x / (if d = 0 then 1 else d) ≤ x := Int.ediv_le_self _ hx0
  unfold divValue clampedQuotient
  rw [hq]
  generalize x / (if d = 0 then 1 else d) = q at hq0 hq1
  have hw : wrap32 q = q := by unfold wrap32; omega
  rw [hw]
  unfold u8
  by_cases hgt : q > 255
  · rw [if_pos hgt, min_eq_right (by omega), min_eq_left (by omega), max_eq_right (by omega)]
    exact ⟨rfl, rfl⟩
  · rw [if_neg hgt, min_eq_left (by omega), min_eq_right (by omega), max_eq_right (by omega)]
    exact ⟨by omega, by omega⟩

/-! ## `blur` and `bluri` -/

theorem Filled.congr_po {F : Nat → Int} {orig : Buf} {out : Buf} {p : Int} {k : Nat}
    (h : Filled F orig ⟨out, (k : Int)⟩ k) (hp : p = k) : Filled F orig ⟨out, p⟩ k := by
  subst hp; exact h

/-- `g_memmove` of `n` samples from offset `p` of `src` to the cursor. -/
theorem memmove_spec {F : Nat → Int} {orig : Buf} {c : Cur} (src : Buf) (k n p : Nat)
    (ps : Int) (hps : ps = p)
    (h : Filled F orig c k) (hk : k + n ≤ orig.length) (hp : p + n ≤ src.length)
    (hv : ∀ j, j < n → F (k + j) = src.getD (p + j) 0) :
    ∃ out, memmove src ps c n = some out ∧ Filled F orig ⟨out, ((k + n : Nat) : Int)⟩ (k + n) := by
  obtain ⟨s', hs', hF, hq⟩ := loopM_inv
    (fun j (s : Cpy) => Filled F orig s.cur (k + j) ∧ s.ps = ((p + j : Nat) : Int))
    (Cpy.step src) n 0 ⟨c, ps⟩ ⟨by simpa using h, by simpa using hps⟩
    (fun j s _ hj hs => by
      have r := rd_eq src s.ps (p + j) hs.2 (by omega)
      obtain ⟨c', hc', hF'⟩ := hs.1.step (by omega) (src.getD (p + j) 0) (hv j (by omega)).symm
      refine ⟨⟨c', s.ps + 1⟩, ?_, hF', by simp [hs.2]; ring⟩
      unfold Cpy.step
      rw [r]
      simp only [Option.bind_eq_bind, Option.some_bind]
      rw [hc']
      rfl)
  rw [Nat.zero_add] at hF
  refine ⟨s'.cur.out, ?_, ?_⟩
  · unfold memmove
    rw [hs']
    rfl
  · exact ⟨rfl, hF.2.1, hF.2.2.1, hF.2.2.2⟩

theorem blurFlat_border (add : Int → Int → Int) (store : Int → Int) (src : Buf)
    (W H x y : Nat) (hx : x < W) (hb : x = 0 ∨ y = 0 ∨ x + 1 = W ∨ y + 1 = H) :
    blurFlat add store src W H (y * W + x) = src.getD (y * W + x) 0 := by
  unfold blurFlat
  rw [coord_mod y W x hx, coord_div y W x hx, if_pos hb]

theorem blurFlat_inner (add : Int → Int → Int) (store : Int → Int) (src : Buf)
    (W H r t : Nat) (ht : t + 2 < W) (hr : r + 2 < H) :
    blurFlat add store src W H ((r + 1) * W + (t + 1))
      = blurValue add store src W (t + 1) (r + 1) := by
  unfold blurFlat
  rw [coord_mod (r + 1) W (t + 1) (by omega), coord_div (r + 1) W (t + 1) (by omega)]
  have : ¬ (t + 1 = 0 ∨ r + 1 = 0 ∨ t + 1 + 1 = W ∨ r + 1 + 1 = H) := by omega
  rw [if_neg this]

/-- A border column sample at the start of a row: the neighbour pointers are
advanced, then the sample is copied. -/
theorem blurEdge_skip_spec {F : Nat → Int} {orig : Buf} {s : BlurSt} (src : Buf) (W p : Nat)
    (h : Filled F orig s.cur p) (hs : s.At W p) (hlen : p < orig.length)
    (hsrc : p < src.length) (hv : F p = src.getD p 0) :
    ∃ s', blurEdge src s.skip = some s' ∧ Filled F orig s'.cur (p + 1) ∧
      s'.At W ((p + 1 : Nat) : Int) := by
  have hps : s.skip.ps = p := hs.1
  have r := rd_eq src s.skip.ps p hps hsrc
  obtain ⟨c', hc', hF⟩ := h.step hlen (src.getD p 0) hv.symm
  refine ⟨⟨c', s.skip.ps + 1, s.skip.pa, s.skip.pb, s.skip.pc, s.skip.pd, s.skip.pe,
    s.skip.pf, s.skip.pg, s.skip.ph⟩, ?_, hF, ?_⟩
  · unfold blurEdge
    rw [r]
    simp only [Option.bind_eq_bind, Option.some_bind]
    have : s.skip.cur = s.cur := rfl
    rw [this, hc']
    rfl
  · unfold BlurSt.At at hs ⊢
    unfold BlurSt.skip
    dsimp only
    push_cast
    omega

/-- A border column sample at the end of a row: the sample is copied, then the
neighbour pointers are advanced. -/
theorem blurEdge_then_skip_spec {F : Nat → Int} {orig : Buf} {s : BlurSt} (src : Buf)
    (W p : Nat) (h : Filled F orig s.cur p) (hs : s.At W p) (hlen : p < orig.length)
    (hsrc : p < src.length) (hv : F p = src.getD p 0) :
    ∃ s', blurEdge src s = some s' ∧ Filled F orig s'.skip.cur (p + 1) ∧
      s'.skip.At W ((p + 1 : Nat) : Int) := by
  have r := rd_eq src s.ps p hs.1 hsrc
  obtain ⟨c', hc', hF⟩ := h.step hlen (src.getD p 0) hv.symm
  refine ⟨⟨c', s.ps + 1, s.pa, s.pb, s.pc, s.pd, s.pe, s.pf, s.pg, s.ph⟩, ?_, hF, ?_⟩
  · unfold blurEdge
    rw [r]
    simp only [Option.bind_eq_bind, Option.some_bind]
    rw [hc']
    rfl
  · unfold BlurSt.At at hs ⊢
    unfold BlurSt.skip
    dsimp only
    push_cast
    omega

theorem blurPixel_spec (add : Int → Int → Int) (store : Int → Int) (src orig : Buf)
    (W H r t : Nat) (s : BlurSt) (hsrc : src.length = W * H) (horig : orig.length = W * H)
    (ht : t + 2 < W) (hr : r + 2 < H)
    (hF : Filled (blurFlat add store src W H) orig s.cur ((r + 1) * W + (t + 1)))
    (hs : s.At W (((r + 1) * W + (t + 1) : Nat) : Int)) :
    ∃ s', blurPixel src add store s = some s' ∧
      Filled (blurFlat add store src W H) orig s'.cur ((r + 1) * W + (t + 1 + 1)) ∧
      s'.At W (((r + 1) * W + (t + 1 + 1) : Nat) : Int) := by
  obtain ⟨hps, ha, hb, hc, hd, he, hf, hg, hh⟩ := hs
  obtain ⟨b0, b1, b2, b3, b4, b5, b6, b7, b8⟩ := nbr_bounds W H r t src.length hsrc ht hr
  have ra := rd_eq src s.pa ((r + 1) * W + t) (by rw [ha]; push_cast; ring) b3
  have rb := rd_eq src s.pb ((r + 1) * W + (t + 1 + 1)) (by rw [hb]; push_cast; ring) b5
  have rc := rd_eq src s.pc (r * W + (t + 1)) (by rw [hc]; push_cast; ring) b1
  have rd' := rd_eq src s.pd ((r + 1 + 1) * W + (t + 1)) (by rw [hd]; push_cast; ring) b7
  have re := rd_eq src s.pe (r * W + t) (by rw [he]; push_cast; ring) b0
  have rf := rd_eq src s.pf (r * W + (t + 1 + 1)) (by rw [hf]; push_cast; ring) b2
  have rg := rd_eq src s.pg ((r + 1 + 1) * W + t) (by rw [hg]; push_cast; ring) b6
  have rh := rd_eq src s.ph ((r + 1 + 1) * W + (t + 1 + 1)) (by rw [hh]; push_cast; ring) b8
  have rs := rd_eq src s.ps ((r + 1) * W + (t + 1)) hps b4
  obtain ⟨c', hc', hF'⟩ := hF.step (by rw [horig, ← hsrc]; exact b4)
    (blurValue add store src W (t + 1) (r + 1))
    (blurFlat_inner add store src W H r t ht hr).symm
  refine ⟨⟨c', s.ps + 1, s.pa + 1, s.pb + 1, s.pc + 1, s.pd + 1, s.pe + 1, s.pf + 1,
    s.pg + 1, s.ph + 1⟩, ?_, hF', ?_⟩
  · unfold blurPixel
    rw [ra, rb, rc, rd', re, rf, rg, rh, rs]
    simp only [Option.bind_eq_bind, Option.some_bind]
    unfold blurValue px at hc'
    simp only [Nat.add_sub_cancel] at hc'
    rw [hc']
    rfl
  · unfold BlurSt.At
    dsimp only
    rw [hps, ha, hb, hc, hd, he, hf, hg, hh]
    push_cast
    refine ⟨?_, ?_, ?_, ?_, ?_, ?_, ?_, ?_, ?_⟩ <;> ring

theorem blurRow_spec (add : Int → Int → Int) (store : Int → Int) (src orig : Buf)
    (W H r : Nat) (s : BlurSt) (hsrc : src.length = W * H) (horig : orig.length = W * H)
    (hW : 2 ≤ W) (hr : r + 2 < H)
    (hF : Filled (blurFlat add store src W H) orig s.cur ((r + 1) * W))
    (hs : s.At W (((r + 1) * W : Nat) : Int)) :
    ∃ s', blurRow src add store W s = some s' ∧
      Filled (blurFlat add store src W H) orig s'.cur ((r + 1 + 1) * W) ∧
      s'.At W (((r + 1 + 1) * W : Nat) : Int) := by
  have hrow : (r + 1) * W + W ≤ W * H := by
    have := Nat.mul_le_mul_left W (show r + 2 ≤ H by omega)
    have e3 : W * (r + 2) = (r + 1) * W + W := by ring
    omega
  have e2 : (r + 1 + 1) * W = (r + 1) * W + W := by ring
  have hb0 := blurFlat_border add store src W H 0 (r + 1) (by omega) (Or.inl rfl)
  rw [Nat.add_zero] at hb0
  obtain ⟨s1, hs1, hF1, hA1⟩ := blurEdge_skip_spec src W ((r + 1) * W) hF hs (by omega)
    (by omega) hb0
  obtain ⟨s2, hs2, hF2, hA2⟩ := loopM_inv
    (fun j (u : BlurSt) =>
      Filled (blurFlat add store src W H) orig u.cur ((r + 1) * W + (j + 1)) ∧
      u.At W (((r + 1) * W + (j + 1) : Nat) : Int))
    (blurPixel src add store) (W - 2) 0 s1 ⟨hF1, hA1⟩
    (fun j u _ hj hu => blurPixel_spec add store src orig W H r j u hsrc horig (by omega) hr
      hu.1 hu.2)
  have e3 : (r + 1) * W + (0 + (W - 2) + 1) = (r + 1) * W + (W - 1) := by omega
  rw [e3] at hF2 hA2
  obtain ⟨s3, hs3, hF3, hA3⟩ := blurEdge_then_skip_spec src W ((r + 1) * W + (W - 1)) hF2 hA2
    (by omega) (by omega)
    (blurFlat_border add store src W H (W - 1) (r + 1) (by omega)
      (Or.inr (Or.inr (Or.inl (by omega)))))
  have e4 : (r + 1) * W + (W - 1) + 1 = (r + 1 + 1) * W := by omega
  rw [e4] at hF3 hA3
  refine ⟨s3.skip, ?_, hF3, hA3⟩
  unfold blurRow
  simp only [Option.bind_eq_bind, iters_one]
  rw [hs1, Option.some_bind, hs2, Option.some_bind, hs3]
  rfl

/-- Closed form of `blur` and `bluri`: for a field of at least 2 x 2 samples the
routine stays inside its buffers and the output is given by `blurFlat`. -/
theorem blurG_closed (add : Int → Int → Int) (store : Int → Int) (src out0 : Buf)
    (W H : Nat) (hW : 2 ≤ W) (hH : 2 ≤ H) (hsrc : src.length = W * H)
    (hout : out0.length = W * H) :
    ∃ out, blurG add store src out0 W H = some out ∧ out.length = W * H ∧
      ∀ i, i < W * H → out[i]? = some (blurFlat add store src W H i) := by
  have hWH : W + W ≤ W * H := by
    have := Nat.mul_le_mul_left W hH
    omega
  obtain ⟨o1, ho1, hF1⟩ := memmove_spec (F := blurFlat add store src W H) src 0 W 0 0 rfl
    (Filled.init _ out0) (by omega) (by omega)
    (fun j hj => by
      simpa using blurFlat_border add store src W H j 0 hj (Or.inr (Or.inl rfl)))
  rw [Nat.zero_add] at hF1
  obtain ⟨s2, hs2, hF2, hA2⟩ := loopM_inv
    (fun r (u : BlurSt) => Filled (blurFlat add store src W H) out0 u.cur ((r + 1) * W) ∧
      u.At W (((r + 1) * W : Nat) : Int))
    (blurRow src add store W) (H - 2) 0
    ⟨⟨o1, (W : Int)⟩, (W : Int), (W : Int) - 1, (W : Int) + 1, (W : Int) - W, (W : Int) + W,
      (W : Int) - W - 1, (W : Int) - W + 1, (W : Int) + W - 1, (W : Int) + W + 1⟩
    ⟨by simpa using hF1, by
      unfold BlurSt.At
      dsimp only
      push_cast
      omega⟩
    (fun r u _ hr hu => blurRow_spec add store src out0 W H r u hsrc hout hW (by omega) hu.1
      hu.2)
  have e : (0 + (H - 2) + 1) * W = (H - 1) * W := by
    congr 1; omega
  rw [e] at hF2 hA2
  have e2 : (H - 1) * W + W = W * H := by
    obtain ⟨k, rfl⟩ : ∃ k, H = k + 1 := ⟨H - 1, by omega⟩
    simp; ring
  obtain ⟨o3, ho3, hF3⟩ := memmove_spec src ((H - 1) * W) W ((H - 1) * W) s2.ps hA2.1 hF2
    (by omega) (by omega)
    (fun j hj => blurFlat_border add store src W H j (H - 1) hj
      (Or.inr (Or.inr (Or.inr (by omega)))))
  rw [e2] at hF3
  refine ⟨o3, ?_, by rw [hF3.2.1, hout], fun i hi => hF3.2.2.1 i hi⟩
  unfold blurG
  simp only [Option.bind_eq_bind]
  rw [ho1, Option.some_bind, iters_one, hs2, Option.some_bind, ho3]

/-! ## `downsize` -/

theorem downPixel_spec (src orig : Buf) (w h r j : Nat) (s : Cpy)
    (hsrc : src.length = w * h) (hr : 2 * r + 1 < h + 1) (hj : 2 * j + 1 < w + 1)
    (horig : r * (w / 2) + j < orig.length)
    (hF : Filled (downFlat src w (w / 2)) orig s.cur (r * (w / 2) + j))
    (hps : s.ps = ((2 * r * w + 2 * j : Nat) : Int)) (hjw : j < w / 2) :
    ∃ s', downPixel src s = some s' ∧
      Filled (downFlat src w (w / 2)) orig s'.cur (r * (w / 2) + (j + 1)) ∧
      s'.ps = ((2 * r * w + 2 * (j + 1) : Nat) : Int) := by
  have hb : 2 * r * w + 2 * j < src.length := by
    rw [hsrc]
    have := Nat.mul_le_mul_left w (show 2 * r + 1 ≤ h by omega)
    have e : w * (2 * r + 1) = 2 * r * w + w := by ring
    omega
  have r1 := rd_eq src s.ps (2 * r * w + 2 * j) hps hb
  have hv : src.getD (2 * r * w + 2 * j) 0 = downFlat src w (w / 2) (r * (w / 2) + j) := by
    unfold downFlat px
    rw [coord_mod r (w / 2) j hjw, coord_div r (w / 2) j hjw]
  obtain ⟨c', hc', hF'⟩ := hF.step horig _ hv
  refine ⟨⟨c', s.ps + 2⟩, ?_, hF', by rw [hps]; push_cast; ring⟩
  unfold downPixel
  rw [r1]
  simp only [Option.bind_eq_bind, Option.some_bind]
  rw [hc']
  rfl

theorem downRow_spec (src orig : Buf) (w h r : Nat) (s : Cpy)
    (hsrc : src.length = w * h) (horig : orig.length = (w / 2) * (h / 2)) (hr : r < h / 2)
    (hF : Filled (downFlat src w (w / 2)) orig s.cur (r * (w / 2)))
    (hps : s.ps = ((2 * r * w : Nat) : Int)) :
    ∃ s', downRow src (w / 2) (if w % 2 = 1 then (w : Int) + 1 else w) s = some s' ∧
      Filled (downFlat src w (w / 2)) orig s'.cur ((r + 1) * (w / 2)) ∧
      s'.ps = ((2 * (r + 1) * w : Nat) : Int) := by
  have hrow : r * (w / 2) + w / 2 ≤ orig.length := by
    rw [horig]
    have := Nat.mul_le_mul_left (w / 2) (show r + 1 ≤ h / 2 by omega)
    have e : w / 2 * (r + 1) = r * (w / 2) + w / 2 := by ring
    omega
  obtain ⟨s1, hs1, hF1, hp1⟩ := loopM_inv
    (fun j (u : Cpy) => Filled (downFlat src w (w / 2)) orig u.cur (r * (w / 2) + j) ∧
      u.ps = ((2 * r * w + 2 * j : Nat) : Int))
    (downPixel src) (w / 2) 0 s ⟨hF, by simpa using hps⟩
    (fun j u _ hj hu => downPixel_spec src orig w h r j u hsrc (by omega) (by omega) (by omega)
      hu.1 hu.2 (by omega))
  rw [Nat.zero_add] at hF1 hp1
  refine ⟨⟨s1.cur, s1.ps + (if w % 2 = 1 then (w : Int) + 1 else w)⟩, ?_, ?_, ?_⟩
  · unfold downRow
    rw [iters_zero, hs1]
    rfl
  · have e : (r + 1) * (w / 2) = r * (w / 2) + w / 2 := by ring
    rw [e]; exact hF1
  · show s1.ps + _ = _
    rw [hp1]
    have e : 2 * (r + 1) * w = 2 * r * w + 2 * w := by ring
    rw [e]
    push_cast
    split_ifs <;> omega

/-- Closed form of `downsize` with the half dimensions `w / 2` and `h / 2`: the
routine stays inside its buffers and takes every other sample of every other
row. -/
theorem downsize_closed (src out0 : Buf) (w h : Nat) (hsrc : src.length = w * h)
    (hout : out0.length = (w / 2) * (h / 2)) :
    ∃ out, downsize src out0 w h (w / 2) (h / 2) = some out ∧
      out.length = (w / 2) * (h / 2) ∧
      ∀ i, i < (w / 2) * (h / 2) → out[i]? = some (downFlat src w (w / 2) i) := by
  obtain ⟨s', hs', hF, _⟩ := loopM_inv
    (fun r (u : Cpy) => Filled (downFlat src w (w / 2)) out0 u.cur (r * (w / 2)) ∧
      u.ps = ((2 * r * w : Nat) : Int))
    (downRow src (w / 2) (if w % 2 = 1 then (w : Int) + 1 else w)) (h / 2) 0 ⟨⟨out0, 0⟩, 0⟩
    ⟨by simpa using Filled.init _ out0, by simp⟩
    (fun r u _ hr hu => downRow_spec src out0 w h r u hsrc hout (by omega) hu.1 hu.2)
  rw [Nat.zero_add] at hF
  have e : h / 2 * (w / 2) = w / 2 * (h / 2) := Nat.mul_comm _ _
  rw [e] at hF
  refine ⟨s'.cur.out, ?_, by rw [hF.2.1, hout], fun i hi => hF.2.2.1 i hi⟩
  unfold downsize
  simp only [iters_zero]
  rw [hs']
  rfl

/-! ## `greyscale` -/

theorem greyAcc_loop (src : Buf) (base n : Nat) (hb : base + n ≤ src.length) :
    loopM n (greyAcc src) (0, (base : Int))
      = some (chanSum src base n, ((base + n : Nat) : Int)) := by
  obtain ⟨s', hs', h1, h2⟩ := loopM_inv
    (fun j (vp : Int × Int) => vp.1 = chanSum src base j ∧ vp.2 = ((base + j : Nat) : Int))
    (greyAcc src) n 0 (0, (base : Int)) ⟨rfl, by simp⟩
    (fun j vp _ hj hvp => by
      have r := rd_eq src vp.2 (base + j) hvp.2 (by omega)
      refine ⟨(vp.1 + src.getD (base + j) 0, vp.2 + 1), ?_, ?_, ?_⟩
      · unfold greyAcc
        rw [r]
        rfl
      · show vp.1 + _ = chanSum src base (j + 1)
        rw [hvp.1]; rfl
      · show vp.2 + 1 = _
        rw [hvp.2]; push_cast; ring)
  rw [Nat.zero_add] at h1 h2
  rw [hs']
  congr 1
  exact Prod.ext h1 h2

theorem greyPixel_spec (src orig : Buf) (size channels : Nat) (alpha : Bool) (k : Nat)
    (s : GreySt) (hch : 1 ≤ channels)
    (hsrc : src.length = size * (channels + (if alpha then 1 else 0)))
    (hk : k < size) (horig : orig.length = size)
    (hF : Filled (greyFlat src channels alpha) orig s.cur k)
    (hp : s.src = ((k * (channels + (if alpha then 1 else 0)) : Nat) : Int)) :
    ∃ s', greyPixel src channels alpha s = some s' ∧
      Filled (greyFlat src channels alpha) orig s'.cur (k + 1) ∧
      s'.src = (((k + 1) * (channels + (if alpha then 1 else 0)) : Nat) : Int) := by
  have hb : k * (channels + (if alpha then 1 else 0)) + (channels + (if alpha then 1 else 0))
      ≤ src.length := by
    rw [hsrc]
    have := Nat.mul_le_mul_right (channels + (if alpha then 1 else 0)) (show k + 1 ≤ size from hk)
    have e : (k + 1) * (channels + (if alpha then 1 else 0))
      = k * (channels + (if alpha then 1 else 0)) + (channels + (if alpha then 1 else 0)) := by
      ring
    omega
  have hl := greyAcc_loop src (k * (channels + (if alpha then 1 else 0))) channels (by omega)
  obtain ⟨c', hc', hF'⟩ := hF.step (by omega) (greyFlat src channels alpha k) rfl
  refine ⟨⟨if alpha then
      ((k * (channels + (if alpha then 1 else 0)) + channels : Nat) : Int) + 1
    else ((k * (channels + (if alpha then 1 else 0)) + channels : Nat) : Int), c'⟩, ?_, hF', ?_⟩
  · unfold greyPixel
    rw [iters_zero, hp, hl]
    simp only [Option.bind_eq_bind, Option.some_bind]
    rw [if_neg (by omega)]
    unfold greyFlat at hc'
    rw [hc']
    rfl
  · show (if alpha then _ else _) = _
    have e : (k + 1) * (channels + (if alpha then 1 else 0))
      = k * (channels + (if alpha then 1 else 0)) + (channels + (if alpha then 1 else 0)) := by
      ring
    rw [e]
    cases alpha
    · simp
    · simp; ring

/-- Closed form of `greyscale`: with at least one non-alpha channel the routine
stays inside its buffers and pixel `i` is the truncated mean of its non-alpha
samples. -/
theorem greyscale_closed (src out0 : Buf) (size channels : Nat) (alpha : Bool)
    (hch : 1 ≤ channels) (hsrc : src.length = size * (channels + (if alpha then 1 else 0)))
    (hout : out0.length = size) :
    ∃ out, greyscale src out0 size channels alpha = some out ∧ out.length = size ∧
      ∀ i, i < size → out[i]? = some (greyFlat src channels alpha i) := by
  obtain ⟨s', hs', hF, _⟩ := loopM_inv
    (fun k (u : GreySt) => Filled (greyFlat src channels alpha) out0 u.cur k ∧
      u.src = ((k * (channels + (if alpha then 1 else 0)) : Nat) : Int))
    (greyPixel src channels alpha) size 0 ⟨0, ⟨out0, 0⟩⟩
    ⟨Filled.init _ out0, by simp⟩
    (fun k u _ hk hu => greyPixel_spec src out0 size channels alpha k u hch hsrc (by omega) hout
      hu.1 hu.2)
  rw [Nat.zero_add] at hF
  refine ⟨s'.cur.out, ?_, by rw [hF.2.1, hout], fun i hi => hF.2.2.1 i hi⟩
  unfold greyscale
  rw [iters_zero, hs']
  rfl

/-! ## `upsize` and `upsizei` -/

theorem Part.store {S : Nat → Prop} {F : Nat → Int} {N : Nat} {c : Cur} {k : Nat}
    (h : Part S F N c k) (S' : Nat → Prop) (hk : k < N) (v : Int) (hv : v = F k)
    (hS : ∀ i, S' i → S i ∨ i = k) :
    ∃ c', c.put v = some c' ∧ Part S' F N c' (k + 1) ∧ c'.out = c.out.set k v := by
  obtain ⟨hpo, hlen, hval⟩ := h
  refine ⟨_, put_eq c k v hpo (by omega), ⟨rfl, by simpa using hlen, ?_⟩, rfl⟩
  intro i hi
  simp only [List.getElem?_set]
  by_cases e : k = i
  · subst e; simp [hlen, hk, hv]
  · simp only [e, if_false]
    rcases hS i hi with h1 | h1
    · exact hval i h1
    · exact absurd h1.symm e

theorem Part.mono {S S' : Nat → Prop} {F : Nat → Int} {N : Nat} {c : Cur} {k : Nat}
    (h : Part S F N c k) (hS : ∀ i, S' i → S i) : Part S' F N c k :=
  ⟨h.1, h.2.1, fun i hi => h.2.2 i (hS i hi)⟩

theorem Part.move {S : Nat → Prop} {F : Nat → Int} {N : Nat} {c : Cur} {k : Nat}
    (h : Part S F N c k) (p : Int) (k' : Nat) (hp : p = k') : Part S F N ⟨c.out, p⟩ k' :=
  ⟨hp, h.2.1, h.2.2⟩

theorem Part.read {S : Nat → Prop} {F : Nat → Int} {N : Nat} {c : Cur} {k : Nat}
    (h : Part S F N c k) (p : Int) (i : Nat) (hp : p = i) (hi : S i) :
    rd c.out p = some (F i) :=
  rd_eq_get c.out p i (F i) hp (h.2.2 i hi)

theorem UpS1_succ (nw y col i : Nat) (h : UpS1 nw y (col + 1) i) :
    UpS1 nw y col i ∨ i = 2 * y * nw + col := by
  obtain ⟨he, h1 | ⟨h2, h3⟩⟩ := h
  · exact Or.inl ⟨he, Or.inl h1⟩
  · by_cases hc : i % nw < col
    · exact Or.inl ⟨he, Or.inr ⟨h2, hc⟩⟩
    · right
      have := Nat.div_add_mod i nw
      rw [h2] at this
      have e : i % nw = col := by omega
      rw [e, Nat.mul_comm] at this
      exact this.symm

theorem UpS1_row_end (nw y i : Nat) (hnw : 0 < nw) (h : UpS1 nw (y + 1) 0 i) :
    UpS1 nw y nw i := by
  obtain ⟨he, h1 | ⟨_, h3⟩⟩ := h
  · have := Nat.mod_lt i hnw
    refine ⟨he, ?_⟩
    omega
  · exact absurd h3 (Nat.not_lt_zero _)

theorem UpS2_succ (nw h col i : Nat) (hS : UpS2 nw h (col + 1) i) :
    UpS2 nw h col i ∨ i = 2 * h * nw + col := by
  rcases hS with h1 | ⟨h2, h3⟩
  · exact Or.inl (Or.inl h1)
  · by_cases hc : i % nw < col
    · exact Or.inl (Or.inr ⟨h2, hc⟩)
    · right
      have := Nat.div_add_mod i nw
      rw [h2] at this
      have e : i % nw = col := by omega
      rw [e, Nat.mul_comm] at this
      exact this.symm

theorem UpS3_succ (nw nh k col i : Nat) (hS : UpS3 nw nh k (col + 1) i) :
    UpS3 nw nh k col i ∨ i = (2 * k + 1) * nw + col := by
  rcases hS with h1 | ⟨ho, h2 | ⟨h2, h3⟩⟩
  · exact Or.inl (Or.inl h1)
  · exact Or.inl (Or.inr ⟨ho, Or.inl h2⟩)
  · by_cases hc : i % nw < col
    · exact Or.inl (Or.inr ⟨ho, Or.inr ⟨h2, hc⟩⟩)
    · right
      have := Nat.div_add_mod i nw
      rw [h2] at this
      have e : i % nw = col := by omega
      rw [e, Nat.mul_comm] at this
      exact this.symm

theorem UpS3_row_end (nw nh k i : Nat) (hnw : 0 < nw) (h : UpS3 nw nh (k + 1) 0 i) :
    UpS3 nw nh k nw i := by
  rcases h with h1 | ⟨ho, h2 | ⟨_, h3⟩⟩
  · exact Or.inl h1
  · have := Nat.mod_lt i hnw
    refine Or.inr ⟨ho, ?_⟩
    omega
  · exact absurd h3 (Nat.not_lt_zero _)

theorem UpS4_succ (nw nh k col i : Nat) (hS : UpS4 nw nh k (col + 1) i) :
    UpS4 nw nh k col i ∨ i = (2 * k + 1) * nw + col := by
  rcases hS with h1 | ⟨h2, h3⟩
  · exact Or.inl (Or.inl h1)
  · by_cases hc : i % nw < col
    · exact Or.inl (Or.inr ⟨h2, hc⟩)
    · right
      have := Nat.div_add_mod i nw
      rw [h2] at this
      have e : i % nw = col := by omega
      rw [e, Nat.mul_comm] at this
      exact this.symm

theorem upsizeFlat_at (add : Int → Int → Int) (store : Int → Int) (src : Buf)
    (w h nw nh r c : Nat) (hc : c < nw) :
    upsizeFlat add store src w h nw nh (r * nw + c) = upsizeAt add store src w h nw nh r c := by
  unfold upsizeFlat
  rw [coord_mod r nw c hc, coord_div r nw c hc]

theorem upsizeAt_even (add : Int → Int → Int) (store : Int → Int) (src : Buf)
    (w h nw nh y c : Nat) (hy : y < h) :
    upsizeAt add store src w h nw nh (2 * y) c = upRowValue add store src w nw y c := by
  unfold upsizeAt upEven
  have e1 : 2 * y % 2 = 0 := by omega
  have e2 : 2 * y / 2 = y := by omega
  rw [if_pos e1, e2, min_eq_left (by omega)]

theorem iters_pred (w : Nat) : iters 0 ((w : Int) - 1) = w - 1 := by
  simp only [iters]; omega

theorem upsizeFlat_row (add : Int → Int → Int) (store : Int → Int) (src : Buf)
    (w h nw nh y c : Nat) (hc : c < nw) (hy : y < h) :
    upsizeFlat add store src w h nw nh (2 * y * nw + c) = upRowValue add store src w nw y c := by
  rw [upsizeFlat_at add store src w h nw nh (2 * y) c hc, upsizeAt_even _ _ _ _ _ _ _ _ _ hy]

theorem upRowValue_odd (add : Int → Int → Int) (store : Int → Int) (src : Buf)
    (w nw y j : Nat) (hj : j + 1 < w) :
    upRowValue add store src w nw y (1 + 2 * j)
      = store (add (px src w j y) (px src w (j + 1) y) >>> (1 : Nat)) := by
  unfold upRowValue
  have e1 : ¬ (1 + 2 * j = 0) := by omega
  have e2 : 1 + 2 * j + 1 < 2 * w := by omega
  have e3 : (1 + 2 * j) % 2 = 1 := by omega
  have e4 : (1 + 2 * j - 1) / 2 = j := by omega
  have e5 : (1 + 2 * j + 1) / 2 = j + 1 := by omega
  rw [if_neg e1, if_pos e2, if_pos e3, e4, e5]

theorem upRowValue_even (add : Int → Int → Int) (store : Int → Int) (src : Buf)
    (w nw y j : Nat) (hj : j + 1 < w) :
    upRowValue add store src w nw y (1 + 2 * j + 1) = store (px src w (j + 1) y) := by
  unfold upRowValue
  have e1 : ¬ (1 + 2 * j + 1 = 0) := by omega
  have e2 : 1 + 2 * j + 1 + 1 < 2 * w := by omega
  have e3 : ¬ ((1 + 2 * j + 1) % 2 = 1) := by omega
  have e4 : (1 + 2 * j + 1) / 2 = j + 1 := by omega
  rw [if_neg e1, if_pos e2, if_neg e3, e4]

/-- One pass of the inner loop of the horizontal pass: source sample `j + 1` of
row `y` yields output columns `1 + 2 j` and `2 + 2 j`. -/
theorem upPair_spec (add : Int → Int → Int) (store : Int → Int) (src : Buf)
    (w h nw nh N y j : Nat) (s : UpSt) (hy : y < h) (hj : j + 1 < w) (hnw : 2 * w ≤ nw)
    (hsrc : y * w + w ≤ src.length) (hrow : 2 * y * nw + nw ≤ N)
    (hP : Part (UpS1 nw y (1 + 2 * j)) (upsizeFlat add store src w h nw nh) N s.cur
      (2 * y * nw + (1 + 2 * j)))
    (hps : s.ps = ((y * w + (j + 1) : Nat) : Int)) (hprev : s.prev = px src w j y) :
    ∃ s', upPair src add store s = some s' ∧
      Part (UpS1 nw y (1 + 2 * (j + 1))) (upsizeFlat add store src w h nw nh) N s'.cur
        (2 * y * nw + (1 + 2 * (j + 1))) ∧
      s'.ps = ((y * w + (j + 1 + 1) : Nat) : Int) ∧ s'.prev = px src w (j + 1) y ∧
      s'.curr = px src w (j + 1) y := by
  have r1 := rd_eq src s.ps (y * w + (j + 1)) hps (by omega)
  obtain ⟨c1, hc1, hP1, _⟩ := hP.store (UpS1 nw y (1 + 2 * j + 1)) (by omega)
    (store (add s.prev (px src w (j + 1) y) >>> (1 : Nat)))
    (by rw [upsizeFlat_row add store src w h nw nh y _ (by omega) hy,
      upRowValue_odd add store src w nw y j hj, hprev])
    (fun i hi => UpS1_succ nw y (1 + 2 * j) i hi)
  obtain ⟨c2, hc2, hP2, _⟩ := hP1.store (UpS1 nw y (1 + 2 * j + 1 + 1)) (by omega)
    (store (px src w (j + 1) y))
    (by
      have e : 2 * y * nw + (1 + 2 * j) + 1 = 2 * y * nw + (1 + 2 * j + 1) := by omega
      rw [e, upsizeFlat_row add store src w h nw nh y _ (by omega) hy,
        upRowValue_even add store src w nw y j hj])
    (fun i hi => by
      have e : 2 * y * nw + (1 + 2 * j) + 1 = 2 * y * nw + (1 + 2 * j + 1) := by omega
      rw [e]
      exact UpS1_succ nw y (1 + 2 * j + 1) i hi)
  refine ⟨⟨c2, s.ps + 1, px src w (j + 1) y, px src w (j + 1) y⟩, ?_, ?_, ?_, rfl, rfl⟩
  · unfold upPair
    rw [r1]
    simp only [Option.bind_eq_bind, Option.some_bind]
    unfold px at hc1 hc2 ⊢
    rw [hc1, Option.some_bind, hc2]
    rfl
  · have e : 2 * y * nw + (1 + 2 * (j + 1)) = 2 * y * nw + (1 + 2 * j) + 1 + 1 := by omega
    have e' : 1 + 2 * (j + 1) = 1 + 2 * j + 1 + 1 := by omega
    rw [e, e']
    exact hP2
  · show s.ps + 1 = _
    rw [hps]; push_cast; ring

theorem upRowValue_zero (add : Int → Int → Int) (store : Int → Int) (src : Buf)
    (w nw y : Nat) : upRowValue add store src w nw y 0 = store (px src w 0 y) := by
  unfold upRowValue
  rw [if_pos rfl]

theorem upRowValue_extra (add : Int → Int → Int) (store : Int → Int) (src : Buf)
    (w nw y : Nat) (hw : 1 ≤ w) (hodd : nw % 2 = 1) :
    upRowValue add store src w nw y (1 + 2 * (w - 1))
      = store (add (px src w (w - 1) y) (if w = 1 then 0 else px src w (w - 1) y) >>> (1 : Nat)) := by
  unfold upRowValue
  have e1 : ¬ (1 + 2 * (w - 1) = 0) := by omega
  have e2 : ¬ (1 + 2 * (w - 1) + 1 < 2 * w) := by omega
  have e3 : nw % 2 = 1 ∧ 1 + 2 * (w - 1) + 1 = 2 * w := ⟨hodd, by omega⟩
  rw [if_neg e1, if_neg e2, if_pos e3]

theorem upRowValue_last (add : Int → Int → Int) (store : Int → Int) (src : Buf)
    (w nw y c : Nat) (hw : 1 ≤ w) (hc : c + 1 = nw)
    (hnw : (nw % 2 = 1 ∧ nw = 2 * w + 1) ∨ (¬ nw % 2 = 1 ∧ nw = 2 * w)) :
    upRowValue add store src w nw y c
      = store (if w = 1 then 0 else px src w (w - 1) y) := by
  unfold upRowValue
  have e1 : ¬ (c = 0) := by omega
  have e2 : ¬ (c + 1 < 2 * w) := by omega
  have e3 : ¬ (nw % 2 = 1 ∧ c + 1 = 2 * w) := by omega
  rw [if_neg e1, if_neg e2, if_neg e3]

/-- One pass of the row loop of the horizontal pass: source row `y` yields the
output row `2 y`, and `po` skips the row below. -/
theorem upRow_spec (add : Int → Int → Int) (store : Int → Int) (src : Buf)
    (w h nw nh N y : Nat) (s : UpSt) (hw : 1 ≤ w) (hy : y < h)
    (hnw : (nw % 2 = 1 ∧ nw = 2 * w + 1) ∨ (¬ nw % 2 = 1 ∧ nw = 2 * w))
    (hsrc : y * w + w ≤ src.length) (hrow : 2 * y * nw + nw ≤ N)
    (hP : Part (UpS1 nw y 0) (upsizeFlat add store src w h nw nh) N s.cur (2 * y * nw))
    (hps : s.ps = ((y * w : Nat) : Int)) (hcurr : w = 1 → s.curr = 0) :
    ∃ s', upRow src add store w nw s = some s' ∧
      Part (UpS1 nw (y + 1) 0) (upsizeFlat add store src w h nw nh) N s'.cur
        (2 * (y + 1) * nw) ∧
      s'.ps = (((y + 1) * w : Nat) : Int) ∧ (w = 1 → s'.curr = 0) := by
  have hnw0 : 0 < nw := by omega
  -- first sample of the row
  have r0 := rd_eq src s.ps (y * w + 0) (by rw [hps]; rfl) (by omega)
  obtain ⟨c0, hc0, hP0, _⟩ := hP.store (UpS1 nw y (0 + 1)) (by omega)
    (store (px src w 0 y))
    (by
      have e := upsizeFlat_row add store src w h nw nh y 0 hnw0 hy
      rw [Nat.add_zero] at e
      rw [e, upRowValue_zero])
    (fun i hi => by
      have := UpS1_succ nw y 0 i hi
      rwa [Nat.add_zero] at this)
  -- the pairs
  obtain ⟨s1, hs1, hP1, hps1, hprev1, hcurr1, hcurr1'⟩ := loopM_inv
    (fun j (u : UpSt) =>
      Part (UpS1 nw y (1 + 2 * j)) (upsizeFlat add store src w h nw nh) N u.cur
        (2 * y * nw + (1 + 2 * j)) ∧
      u.ps = ((y * w + (j + 1) : Nat) : Int) ∧ u.prev = px src w j y ∧
      (0 < j → u.curr = px src w j y) ∧ (j = 0 → u.curr = s.curr))
    (upPair src add store) (w - 1) 0 ⟨c0, s.ps + 1, px src w 0 y, s.curr⟩
    ⟨by
      have e : 2 * y * nw + (1 + 2 * 0) = 2 * y * nw + 1 := by omega
      have e' : 1 + 2 * 0 = 0 + 1 := by omega
      rw [e, e']; exact hP0,
     by show s.ps + 1 = _; rw [hps]; push_cast; ring,
     rfl, fun h0 => absurd h0 (Nat.lt_irrefl 0), fun _ => rfl⟩
    (fun j u _ hj hu => by
      obtain ⟨u', hu', hPu, hpsu, hprevu, hcurru⟩ := upPair_spec add store src w h nw nh N y j
        u hy (by omega) (by omega) hsrc hrow hu.1 hu.2.1 hu.2.2.1
      exact ⟨u', hu', hPu, hpsu, hprevu, fun _ => hcurru, fun h0 => absurd h0 (by omega)⟩)
  rw [Nat.zero_add] at hP1 hps1 hprev1 hcurr1 hcurr1'
  have hlast : s1.curr = (if w = 1 then 0 else px src w (w - 1) y) := by
    by_cases h1 : w = 1
    · rw [if_pos h1, hcurr1' (by omega), hcurr h1]
    · rw [if_neg h1, hcurr1 (by omega)]
  -- the extra interpolated sample of an odd width, then the last sample
  have hfin : ∃ c2, (s1.cur.putIf (nw % 2 = 1) (store (add s1.prev s1.curr >>> (1 : Nat)))).bind
      (fun c => c.put (store s1.curr)) = some c2 ∧
      Part (UpS1 nw y nw) (upsizeFlat add store src w h nw nh) N c2 (2 * y * nw + nw) := by
    rcases hnw with ⟨hodd, hnwe⟩ | ⟨heven, hnwe⟩
    · obtain ⟨c1, hc1, hPc1, _⟩ := hP1.store (UpS1 nw y (1 + 2 * (w - 1) + 1)) (by omega)
        (store (add s1.prev s1.curr >>> (1 : Nat)))
        (by rw [upsizeFlat_row add store src w h nw nh y _ (by omega) hy,
          upRowValue_extra add store src w nw y hw hodd, hprev1, hlast])
        (fun i hi => UpS1_succ nw y (1 + 2 * (w - 1)) i hi)
      obtain ⟨c2, hc2, hPc2, _⟩ := hPc1.store (UpS1 nw y (1 + 2 * (w - 1) + 1 + 1))
        (by omega) (store s1.curr)
        (by
          have e : 2 * y * nw + (1 + 2 * (w - 1)) + 1 = 2 * y * nw + (1 + 2 * (w - 1) + 1) := by
            omega
          rw [e, upsizeFlat_row add store src w h nw nh y _ (by omega) hy,
            upRowValue_last add store src w nw y _ hw (by omega) (Or.inl ⟨hodd, hnwe⟩), hlast])
        (fun i hi => by
          have e : 2 * y * nw + (1 + 2 * (w - 1)) + 1 = 2 * y * nw + (1 + 2 * (w - 1) + 1) := by
            omega
          rw [e]
          exact UpS1_succ nw y (1 + 2 * (w - 1) + 1) i hi)
      refine ⟨c2, ?_, ?_⟩
      · unfold Cur.putIf
        rw [if_pos (by simpa using hodd), hc1, Option.some_bind, hc2]
      · have e : 2 * y * nw + nw = 2 * y * nw + (1 + 2 * (w - 1)) + 1 + 1 := by omega
        have e' : nw = 1 + 2 * (w - 1) + 1 + 1 := by omega
        rw [e]
        rw [e'] at hPc2 ⊢
        exact hPc2
    · obtain ⟨c2, hc2, hPc2, _⟩ := hP1.store (UpS1 nw y (1 + 2 * (w - 1) + 1)) (by omega)
        (store s1.curr)
        (by rw [upsizeFlat_row add store src w h nw nh y _ (by omega) hy,
          upRowValue_last add store src w nw y _ hw (by omega) (Or.inr ⟨heven, hnwe⟩), hlast])
        (fun i hi => UpS1_succ nw y (1 + 2 * (w - 1)) i hi)
      refine ⟨c2, ?_, ?_⟩
      · unfold Cur.putIf
        rw [if_neg (by simpa using heven), Option.some_bind, hc2]
      · have e : 2 * y * nw + nw = 2 * y * nw + (1 + 2 * (w - 1)) + 1 := by omega
        have e' : nw = 1 + 2 * (w - 1) + 1 := by omega
        rw [e]
        rw [e'] at hPc2 ⊢
        exact hPc2
  obtain ⟨c2, hc2, hPc2⟩ := hfin
  refine ⟨⟨⟨c2.out, c2.po + nw⟩, s1.ps, s1.prev, s1.curr⟩, ?_, ?_, ?_, ?_⟩
  · unfold upRow
    rw [r0]
    simp only [Option.bind_eq_bind, Option.some_bind, iters_pred]
    unfold px at hc0 hs1
    rw [hc0, Option.some_bind, hs1, Option.some_bind]
    generalize s1.cur.putIf (decide (nw % 2 = 1)) (store (add s1.prev s1.curr >>> (1 : Nat))) = q
      at hc2 ⊢
    cases q with
    | none => simp at hc2
    | some c1 =>
      simp only [Option.some_bind] at hc2 ⊢
      rw [hc2]
      rfl
  · refine ((hPc2.mono (fun i hi => UpS1_row_end nw y i hnw0 hi)).move _ _ ?_)
    rw [hPc2.1]; push_cast; ring
  · show s1.ps = _
    rw [hps1]
    congr 1
    have : (y + 1) * w = y * w + w := by ring
    omega
  · intro h1
    show s1.curr = 0
    rw [hlast, if_pos h1]

/-- The row copy `for (x=0; x<nw; x++) *po++ = *ps++` inside the output buffer,
from the row at offset `a` to the row at offset `b`. -/
theorem upCopyRow_spec {F : Nat → Int} {N : Nat} (S : Nat → Nat → Prop) (nw a b : Nat)
    (c : Cur) (ps : Int) (hps : ps = a) (hP : Part (S 0) F N c b) (hb : b + nw ≤ N)
    (hread : ∀ j, j < nw → S j (a + j)) (hval : ∀ j, j < nw → F (b + j) = F (a + j))
    (hS : ∀ j i, S (j + 1) i → S j i ∨ i = b + j) :
    ∃ c', upCopyRow nw c ps = some c' ∧ Part (S nw) F N c' (b + nw) := by
  obtain ⟨t, ht, hPt, _⟩ := loopM_inv
    (fun j (u : Cpy) => Part (S j) F N u.cur (b + j) ∧ u.ps = ((a + j : Nat) : Int))
    Cpy.stepSelf nw 0 ⟨c, ps⟩ ⟨hP, by simpa using hps⟩
    (fun j u _ hj hu => by
      have r := hu.1.read u.ps (a + j) hu.2 (hread j (by omega))
      obtain ⟨c', hc', hP', _⟩ := hu.1.store (S (j + 1)) (by omega) (F (a + j))
        (hval j (by omega)).symm (hS j)
      refine ⟨⟨c', u.ps + 1⟩, ?_, hP', by show u.ps + 1 = _; rw [hu.2]; push_cast; ring⟩
      unfold Cpy.stepSelf
      rw [r]
      simp only [Option.bind_eq_bind, Option.some_bind]
      rw [hc']
      rfl)
  rw [Nat.zero_add] at hPt
  refine ⟨t.cur, ?_, hPt⟩
  unfold upCopyRow
  rw [iters_zero, ht]
  rfl

theorem EvenDone_at (nw nh r c : Nat) (hc : c < nw) (he : r % 2 = 0) (hr : r < nh) :
    EvenDone nw nh (r * nw + c) := by
  unfold EvenDone
  rw [coord_div r nw c hc]
  exact ⟨he, hr⟩

theorem upsizeAt_mid (add : Int → Int → Int) (store : Int → Int) (src : Buf)
    (w h nw nh k c : Nat) (hk : 2 * k + 2 < nh) :
    upsizeAt add store src w h nw nh (2 * k + 1) c
      = store (add (upsizeAt add store src w h nw nh (2 * k) c)
          (upsizeAt add store src w h nw nh (2 * k + 2) c) >>> (1 : Nat)) := by
  unfold upsizeAt
  have e1 : ¬ ((2 * k + 1) % 2 = 0) := by omega
  have e2 : 2 * k + 1 + 1 < nh := by omega
  have e3 : 2 * k % 2 = 0 := by omega
  have e4 : (2 * k + 2) % 2 = 0 := by omega
  rw [if_neg e1, if_pos e2, if_pos e3, if_pos e4]
  rfl

theorem upsizeAt_last (add : Int → Int → Int) (store : Int → Int) (src : Buf)
    (w h nw nh k c : Nat) (hk : ¬ 2 * k + 2 < nh) :
    upsizeAt add store src w h nw nh (2 * k + 1) c
      = upsizeAt add store src w h nw nh (2 * k) c := by
  unfold upsizeAt
  have e1 : ¬ ((2 * k + 1) % 2 = 0) := by omega
  have e2 : ¬ (2 * k + 1 + 1 < nh) := by omega
  have e3 : 2 * k % 2 = 0 := by omega
  rw [if_neg e1, if_neg e2, if_pos e3]
  rfl

/-- The statement `*po++ = (*pt++ + *pb++) >> 1` in column `j` of the odd row
`2 k + 1`. -/
theorem upMid_spec (add : Int → Int → Int) (store : Int → Int) (src : Buf)
    (w h nw nh N k j : Nat) (s : UpVSt) (hj : j < nw) (hk : 2 * k + 2 < nh)
    (hrow : (2 * k + 1) * nw + nw ≤ N)
    (hP : Part (UpS3 nw nh k j) (upsizeFlat add store src w h nw nh) N s.cur
      ((2 * k + 1) * nw + j))
    (hpt : s.pt = ((2 * k * nw + j : Nat) : Int))
    (hpb : s.pb = (((2 * k + 2) * nw + j : Nat) : Int)) :
    ∃ s', upMid add store s = some s' ∧
      Part (UpS3 nw nh k (j + 1)) (upsizeFlat add store src w h nw nh) N s'.cur
        ((2 * k + 1) * nw + (j + 1)) ∧
      s'.pt = ((2 * k * nw + (j + 1) : Nat) : Int) ∧
      s'.pb = (((2 * k + 2) * nw + (j + 1) : Nat) : Int) := by
  have rt := hP.read s.pt (2 * k * nw + j) hpt
    (Or.inl (EvenDone_at nw nh (2 * k) j hj (by omega) (by omega)))
  have rb := hP.read s.pb ((2 * k + 2) * nw + j) hpb
    (Or.inl (EvenDone_at nw nh (2 * k + 2) j hj (by omega) (by omega)))
  rw [upsizeFlat_at add store src w h nw nh _ j hj] at rt rb
  obtain ⟨c', hc', hP', _⟩ := hP.store (UpS3 nw nh k (j + 1)) (by omega)
    (store (add (upsizeAt add store src w h nw nh (2 * k) j)
      (upsizeAt add store src w h nw nh (2 * k + 2) j) >>> (1 : Nat)))
    (by rw [upsizeFlat_at add store src w h nw nh _ j hj, upsizeAt_mid _ _ _ _ _ _ _ _ _ hk])
    (fun i hi => UpS3_succ nw nh k j i hi)
  refine ⟨⟨c', s.pt + 1, s.pb + 1⟩, ?_, hP', by show s.pt + 1 = _; rw [hpt]; push_cast; ring,
    by show s.pb + 1 = _; rw [hpb]; push_cast; ring⟩
  unfold upMid
  rw [rt, rb]
  simp only [Option.bind_eq_bind, Option.some_bind]
  rw [hc']
  rfl

/-- One pass of the row loop of the vertical pass writes the odd row `2 k + 1`. -/
theorem upMidRow_spec (add : Int → Int → Int) (store : Int → Int) (src : Buf)
    (w h nw nh N k : Nat) (s : UpVSt) (hnw : 0 < nw) (hk : 2 * k + 2 < nh)
    (hrow : (2 * k + 1) * nw + nw ≤ N)
    (hP : Part (UpS3 nw nh k 0) (upsizeFlat add store src w h nw nh) N s.cur
      ((2 * k + 1) * nw))
    (hpt : s.pt = ((2 * k * nw : Nat) : Int))
    (hpb : s.pb = (((2 * k + 2) * nw : Nat) : Int)) :
    ∃ s', upMidRow add store nw s = some s' ∧
      Part (UpS3 nw nh (k + 1) 0) (upsizeFlat add store src w h nw nh) N s'.cur
        ((2 * (k + 1) + 1) * nw) ∧
      s'.pt = ((2 * (k + 1) * nw : Nat) : Int) ∧
      s'.pb = (((2 * (k + 1) + 2) * nw : Nat) : Int) := by
  obtain ⟨s1, hs1, hP1, hpt1, hpb1⟩ := loopM_inv
    (fun j (u : UpVSt) =>
      Part (UpS3 nw nh k j) (upsizeFlat add store src w h nw nh) N u.cur
        ((2 * k + 1) * nw + j) ∧
      u.pt = ((2 * k * nw + j : Nat) : Int) ∧ u.pb = (((2 * k + 2) * nw + j : Nat) : Int))
    (upMid add store) nw 0 s ⟨hP, hpt, hpb⟩
    (fun j u _ hj hu => upMid_spec add store src w h nw nh N k j u (by omega) hk hrow hu.1
      hu.2.1 hu.2.2)
  rw [Nat.zero_add] at hP1 hpt1 hpb1
  refine ⟨⟨⟨s1.cur.out, s1.cur.po + nw⟩, s1.pt + nw, s1.pb + nw⟩, ?_, ?_, ?_, ?_⟩
  · unfold upMidRow
    rw [iters_zero, hs1]
    rfl
  · refine (hP1.mono (fun i hi => UpS3_row_end nw nh k i hnw hi)).move _ _ ?_
    rw [hP1.1]; push_cast; ring
  · show s1.pt + nw = _
    rw [hpt1]; push_cast; ring
  · show s1.pb + nw = _
    rw [hpb1]; push_cast; ring

theorem iters2_eq (nh : Nat) (hnh : 1 ≤ nh) : iters2 1 ((nh : Int) - 1) = (nh - 1) / 2 := by
  simp only [iters2]; omega

theorem div_lt_rows (nw nh i : Nat) (hi : i < nw * nh) : i / nw < nh :=
  Nat.div_lt_of_lt_mul hi

/-- The horizontal pass of `upsize`: all `h` source rows. -/
theorem upRows_spec (add : Int → Int → Int) (store : Int → Int) (src dst : Buf)
    (w h nw nh : Nat) (hw : 1 ≤ w)
    (hnw : (nw % 2 = 1 ∧ nw = 2 * w + 1) ∨ (¬ nw % 2 = 1 ∧ nw = 2 * w))
    (hnh : 2 * h ≤ nh) (hsrc : src.length = w * h) (hdst : dst.length = nw * nh) :
    ∃ s, loopM (iters 0 h) (upRow src add store w nw) ⟨⟨dst, 0⟩, 0, 0, 0⟩ = some s ∧
      Part (UpS1 nw h 0) (upsizeFlat add store src w h nw nh) (nw * nh) s.cur (2 * h * nw) := by
  obtain ⟨s, hs, hP, _, _⟩ := loopM_inv
    (fun y (u : UpSt) =>
      Part (UpS1 nw y 0) (upsizeFlat add store src w h nw nh) (nw * nh) u.cur (2 * y * nw) ∧
      u.ps = ((y * w : Nat) : Int) ∧ (w = 1 → u.curr = 0))
    (upRow src add store w nw) h 0 ⟨⟨dst, 0⟩, 0, 0, 0⟩
    ⟨⟨by simp, hdst, fun i hi => by
        obtain ⟨_, h1 | ⟨_, h2⟩⟩ := hi
        · exact absurd h1 (Nat.not_lt_zero _)
        · exact absurd h2 (Nat.not_lt_zero _)⟩, by simp, fun _ => rfl⟩
    (fun y u _ hy hu => by
      have hy' : y < h := by omega
      have h1 : y * w + w ≤ src.length := by
        rw [hsrc]
        have := Nat.mul_le_mul_left w (show y + 1 ≤ h from hy')
        have e : w * (y + 1) = y * w + w := by ring
        omega
      have h2 : 2 * y * nw + nw ≤ nw * nh := by
        have := Nat.mul_le_mul_left nw (show 2 * y + 1 ≤ nh by omega)
        have e : nw * (2 * y + 1) = 2 * y * nw + nw := by ring
        omega
      exact upRow_spec add store src w h nw nh (nw * nh) y u hw hy' hnw h1 h2 hu.1 hu.2.1
        hu.2.2)
  rw [Nat.zero_add] at hP
  exact ⟨s, by rw [iters_zero]; exact hs, hP⟩

/-- The vertical pass of `upsize`: the `K` odd rows that have a row below. -/
theorem upMidRows_spec (add : Int → Int → Int) (store : Int → Int) (src : Buf)
    (w h nw nh K k0 : Nat) (c : Cur) (hnw : 0 < nw) (hK : 2 * K < nh)
    (hP : Part (UpS3 nw nh 0 0) (upsizeFlat add store src w h nw nh) (nw * nh) c k0) :
    ∃ v, loopM K (upMidRow add store nw) ⟨⟨c.out, nw⟩, 0, 2 * (nw : Int)⟩ = some v ∧
      Part (UpS3 nw nh K 0) (upsizeFlat add store src w h nw nh) (nw * nh) v.cur
        ((2 * K + 1) * nw) ∧
      v.pt = ((2 * K * nw : Nat) : Int) := by
  obtain ⟨v, hv, hPv, hpt, _⟩ := loopM_inv
    (fun k (u : UpVSt) =>
      Part (UpS3 nw nh k 0) (upsizeFlat add store src w h nw nh) (nw * nh) u.cur
        ((2 * k + 1) * nw) ∧
      u.pt = ((2 * k * nw : Nat) : Int) ∧ u.pb = (((2 * k + 2) * nw : Nat) : Int))
    (upMidRow add store nw) K 0 ⟨⟨c.out, nw⟩, 0, 2 * (nw : Int)⟩
    ⟨hP.move _ _ (by push_cast; ring), by simp, by push_cast; ring⟩
    (fun k u _ hk hu => by
      have h2 : (2 * k + 1) * nw + nw ≤ nw * nh := by
        have := Nat.mul_le_mul_left nw (show 2 * k + 2 ≤ nh by omega)
        have e : nw * (2 * k + 2) = (2 * k + 1) * nw + nw := by ring
        omega
      exact upMidRow_spec add store src w h nw nh (nw * nh) k u hnw (by omega) h2 hu.1 hu.2.1
        hu.2.2)
  rw [Nat.zero_add] at hPv hpt
  exact ⟨v, hv, hPv, hpt⟩

/-- Closed form of `upsize` and `upsizei`: for a source of at least 1 x 1 samples
and target dimensions `2 w` or `2 w + 1` by `2 h` or `2 h + 1`, the routine stays
inside its buffers and the output is given by `upsizeFlat`. -/
theorem upsizeG_closed (add : Int → Int → Int) (store : Int → Int) (src dst : Buf)
    (w h nw nh : Nat) (hw : 1 ≤ w) (hh : 1 ≤ h) (hnw : nw = 2 * w ∨ nw = 2 * w + 1)
    (hnh : nh = 2 * h ∨ nh = 2 * h + 1) (hsrc : src.length = w * h)
    (hdst : dst.length = nw * nh) :
    ∃ out, upsizeG add store src dst w h nw nh = some out ∧ out.length = nw * nh ∧
      ∀ i, i < nw * nh → out[i]? = some (upsizeFlat add store src w h nw nh i) := by
  have hnw0 : 0 < nw := by omega
  have hnw' : (nw % 2 = 1 ∧ nw = 2 * w + 1) ∨ (¬ nw % 2 = 1 ∧ nw = 2 * w) := by omega
  obtain ⟨s, hs, hPs⟩ := upRows_spec add store src dst w h nw nh hw hnw' (by omega) hsrc hdst
  unfold upsizeG
  simp only [Option.bind_eq_bind]
  rw [hs, Option.some_bind, iters2_eq nh (by omega)]
  rcases hnh with he | ho
  · -- even target height: vertical pass, then the last row copies the row above
    have hodd : ¬ (nh % 2 = 1) := by omega
    have hP0 : Part (UpS3 nw nh 0 0) (upsizeFlat add store src w h nw nh) (nw * nh) s.cur
        (2 * h * nw) :=
      hPs.mono (fun i hi => by
        rcases hi with ⟨h1, h2⟩ | ⟨_, h2 | ⟨_, h3⟩⟩
        · exact ⟨h1, Or.inl (by rw [he] at h2; exact h2)⟩
        · exact absurd h2 (Nat.not_lt_zero _)
        · exact absurd h3 (Nat.not_lt_zero _))
    obtain ⟨v, hv, hPv, hpt⟩ := upMidRows_spec add store src w h nw nh ((nh - 1) / 2) _
      s.cur hnw0 (by omega) hP0
    have hK : 2 * ((nh - 1) / 2) + 2 = nh := by omega
    have hb : (2 * ((nh - 1) / 2) + 1) * nw + nw ≤ nw * nh := by
      have e : nw * (2 * ((nh - 1) / 2) + 2) = (2 * ((nh - 1) / 2) + 1) * nw + nw := by ring
      rw [hK] at e
      omega
    obtain ⟨c', hc', hPc⟩ := upCopyRow_spec (F := upsizeFlat add store src w h nw nh)
      (fun j => UpS4 nw nh ((nh - 1) / 2) j) nw (2 * ((nh - 1) / 2) * nw)
      ((2 * ((nh - 1) / 2) + 1) * nw) v.cur v.pt hpt
      (hPv.mono (fun i hi => by
        rcases hi with h1 | ⟨_, h3⟩
        · exact h1
        · exact absurd h3 (Nat.not_lt_zero _)))
      hb
      (fun j hj => Or.inl (Or.inl (EvenDone_at nw nh _ j hj (by omega) (by omega))))
      (fun j hj => by
        rw [upsizeFlat_at add store src w h nw nh _ j hj,
          upsizeFlat_at add store src w h nw nh _ j hj,
          upsizeAt_last _ _ _ _ _ _ _ _ _ (by omega)])
      (fun j i hi => UpS4_succ nw nh _ j i hi)
    simp only [decide_eq_true_eq, if_neg hodd]
    rw [Option.some_bind, hv, Option.some_bind, hc']
    refine ⟨c'.out, rfl, hPc.2.1, fun i hi => hPc.2.2 i ?_⟩
    have h1 := div_lt_rows nw nh i hi
    have h2 := Nat.mod_lt i hnw0
    unfold UpS4 UpS3 EvenDone
    generalize i / nw = m at h1 ⊢
    generalize i % nw = c at h2 ⊢
    omega
  · -- odd target height: the extra last row copies row `2 h - 2`, then the vertical pass
    have hodd : nh % 2 = 1 := by omega
    have hb : 2 * h * nw + nw ≤ nw * nh := by
      have e : nw * (2 * h + 1) = 2 * h * nw + nw := by ring
      rw [← ho] at e
      omega
    obtain ⟨c1, hc1, hPc1⟩ := upCopyRow_spec (F := upsizeFlat add store src w h nw nh)
      (fun j => UpS2 nw h j) nw (2 * (h - 1) * nw) (2 * h * nw) s.cur
      (s.cur.po - 2 * (nw : Int))
      (by
        rw [hPs.1]
        have e : 2 * h * nw = 2 * (h - 1) * nw + 2 * nw := by
          obtain ⟨k, rfl⟩ : ∃ k, h = k + 1 := ⟨h - 1, by omega⟩
          simp; ring
        rw [e]; push_cast; ring)
      (hPs.mono (fun i hi => by
        rcases hi with h1 | ⟨_, h3⟩
        · exact h1
        · exact absurd h3 (Nat.not_lt_zero _)))
      hb
      (fun j hj => Or.inl (by
        unfold UpS1
        rw [coord_div (2 * (h - 1)) nw j hj]
        omega))
      (fun j hj => by
        rw [upsizeFlat_at add store src w h nw nh _ j hj,
          upsizeFlat_at add store src w h nw nh _ j hj]
        unfold upsizeAt upEven
        have e1 : 2 * h % 2 = 0 := by omega
        have e2 : 2 * (h - 1) % 2 = 0 := by omega
        have e3 : min (2 * h / 2) (h - 1) = min (2 * (h - 1) / 2) (h - 1) := by
          have a1 : 2 * h / 2 = h := by omega
          have a2 : 2 * (h - 1) / 2 = h - 1 := by omega
          rw [a1, a2, min_eq_right (by omega), min_eq_left (le_refl _)]
        rw [if_pos e1, if_pos e2, e3])
      (fun j i hi => UpS2_succ nw h j i hi)
    have hP0 : Part (UpS3 nw nh 0 0) (upsizeFlat add store src w h nw nh) (nw * nh) c1
        (2 * h * nw + nw) :=
      (hPc1.mono (fun i hi => by
        have hm := Nat.mod_lt i hnw0
        rcases hi with ⟨h1, h2⟩ | ⟨_, h2 | ⟨_, h3⟩⟩
        · by_cases h4 : i / nw < 2 * h
          · exact Or.inl ⟨h1, Or.inl h4⟩
          · refine Or.inr ⟨?_, hm⟩
            generalize i / nw = m at h1 h2 h4
            omega
        · exact absurd h2 (Nat.not_lt_zero _)
        · exact absurd h3 (Nat.not_lt_zero _)))
    obtain ⟨v, hv, hPv, _⟩ := upMidRows_spec add store src w h nw nh ((nh - 1) / 2) _ c1
      hnw0 (by omega) hP0
    simp only [decide_eq_true_eq, if_pos hodd]
    rw [hc1, Option.some_bind, hv, Option.some_bind]
    refine ⟨v.cur.out, rfl, hPv.2.1, fun i hi => hPv.2.2 i ?_⟩
    have h1 := div_lt_rows nw nh i hi
    unfold UpS3 EvenDone
    generalize i / nw = m at h1 ⊢
    generalize i % nw = c
    omega

/-! ## `edge` -/

theorem blur_closed (src out0 : Buf) (W H : Nat) (hW : 2 ≤ W) (hH : 2 ≤ H)
    (hsrc : src.length = W * H) (hout : out0.length = W * H) :
    ∃ out, blur src out0 W H = some out ∧ out.length = W * H ∧
      ∀ i, i < W * H → out[i]? = some (blurFlat (fun a b => a + b) u8 src W H i) :=
  blurG_closed _ _ src out0 W H hW hH hsrc hout

theorem bluri_closed (src out0 : Buf) (W H : Nat) (hW : 2 ≤ W) (hH : 2 ≤ H)
    (hsrc : src.length = W * H) (hout : out0.length = W * H) :
    ∃ out, bluri src out0 W H = some out ∧ out.length = W * H ∧
      ∀ i, i < W * H → out[i]? = some (blurFlat (fun a b => wrap32 (a + b)) id src W H i) :=
  blurG_closed _ _ src out0 W H hW hH hsrc hout

theorem upsize_closed (src dst : Buf) (w h nw nh : Nat) (hw : 1 ≤ w) (hh : 1 ≤ h)
    (hnw : nw = 2 * w ∨ nw = 2 * w + 1) (hnh : nh = 2 * h ∨ nh = 2 * h + 1)
    (hsrc : src.length = w * h) (hdst : dst.length = nw * nh) :
    ∃ out, upsize src dst w h nw nh = some out ∧ out.length = nw * nh ∧
      ∀ i, i < nw * nh → out[i]? = some (upsizeFlat (fun a b => a + b) u8 src w h nw nh i) :=
  upsizeG_closed _ _ src dst w h nw nh hw hh hnw hnh hsrc hdst

theorem upsizei_closed (src dst : Buf) (w h nw nh : Nat) (hw : 1 ≤ w) (hh : 1 ≤ h)
    (hnw : nw = 2 * w ∨ nw = 2 * w + 1) (hnh : nh = 2 * h ∨ nh = 2 * h + 1)
    (hsrc : src.length = w * h) (hdst : dst.length = nw * nh) :
    ∃ out, upsizei src dst w h nw nh = some out ∧ out.length = nw * nh ∧
      ∀ i, i < nw * nh →
        out[i]? = some (upsizeFlat (fun a b => wrap32 (a + b)) id src w h nw nh i) :=
  upsizeG_closed _ _ src dst w h nw nh hw hh hnw hnh hsrc hdst

/-- Every stage of `edge` stays inside its buffers when the region is at least
4 x 4 pixels, and each buffer keeps its allocation size. -/
theorem edgeStages_safe (inp : Buf) (m : Scratch) (width height bpp : Nat) (alpha : Bool)
    (threshold : Int) (hW : 4 ≤ width) (hH : 4 ≤ height)
    (hbpp : (if alpha then 1 else 0) < bpp)
    (hinp : inp.length = width * height * bpp) (hm : m.Sized width height bpp) :
    ∃ t, edgeStages inp m width height bpp alpha threshold = some t ∧
      greyscale inp m.buffer (width * height) (if alpha then bpp - 1 else bpp) alpha
        = some t.grey ∧
      blur t.grey m.blurred width height = some t.blurred ∧
      downsize t.blurred m.blurredHalf width height (width / 2) (height / 2)
        = some t.blurredHalf ∧
      magnitude t.blurredHalf m.magHalf (width / 2) (height / 2) = some t.magHalf ∧
      upsizei t.magHalf m.mag (width / 2) (height / 2) width height = some t.mag ∧
      multiply t.blurredHalf t.magHalf m.threshHalf ((width / 2) * (height / 2))
        = some t.threshHalf ∧
      bluri t.threshHalf m.filtThresh (width / 2) (height / 2) = some t.filtThresh ∧
      bluri t.magHalf m.filtMag (width / 2) (height / 2) = some t.filtMag ∧
      divide t.filtThresh t.filtMag t.blurredHalf ((width / 2) * (height / 2))
        = some t.adaptiveHalf ∧
      upsize t.adaptiveHalf t.grey (width / 2) (height / 2) width height = some t.adaptive ∧
      apply_threshold t.blurred t.mag t.adaptive (width * height) threshold
        = some t.classes ∧
      filter t.classes m.out width height (if alpha then bpp - 1 else bpp) alpha
        = some t.out ∧
      t.grey.length = width * height ∧ t.blurred.length = width * height ∧
      t.blurredHalf.length = (width / 2) * (height / 2) ∧
      t.magHalf.length = (width / 2) * (height / 2) ∧ t.mag.length = width * height ∧
      t.adaptive.length = width * height ∧ t.classes.length = width * height ∧
      t.out.length = width * height * bpp := by
  obtain ⟨mo, mbl, mbh, mbu, mth, mmag, mmh, mft, mfm⟩ := hm
  have hbppe : (if alpha then bpp - 1 else bpp) + (if alpha then 1 else 0) = bpp := by
    cases alpha
    · simp
    · simp at hbpp ⊢
      omega
  have hch : 1 ≤ (if alpha then bpp - 1 else bpp) := by
    cases alpha
    · simp at hbpp ⊢
      omega
    · simp at hbpp ⊢
      omega
  have hw2 : 2 ≤ width / 2 := by omega
  have hh2 : 2 ≤ height / 2 := by omega
  obtain ⟨grey, e1, l1, _⟩ := greyscale_closed inp m.buffer (width * height)
    (if alpha then bpp - 1 else bpp) alpha hch (by rw [hbppe]; exact hinp) mbu
  obtain ⟨blurred, e2, l2, _⟩ := blur_closed grey m.blurred width height (by omega) (by omega)
    l1 mbl
  obtain ⟨bhalf, e3, l3, _⟩ := downsize_closed blurred m.blurredHalf width height l2 mbh
  obtain ⟨magHalf, e4, l4, _⟩ := magnitude_closed bhalf m.magHalf (width / 2) (height / 2) hw2
    hh2 l3 mmh
  obtain ⟨mag, e5, l5, _⟩ := upsizei_closed magHalf m.mag (width / 2) (height / 2) width height
    (by omega) (by omega) (by omega) (by omega) l4 mmag
  obtain ⟨th, e6, l6, _⟩ := multiply_closed bhalf magHalf m.threshHalf
    ((width / 2) * (height / 2)) l3 l4 mth
  obtain ⟨ft, e7, l7, _⟩ := bluri_closed th m.filtThresh (width / 2) (height / 2) hw2 hh2 l6 mft
  obtain ⟨fm, e8, l8, _⟩ := bluri_closed magHalf m.filtMag (width / 2) (height / 2) hw2 hh2 l4
    mfm
  obtain ⟨ah, e9, l9, _⟩ := divide_closed ft fm bhalf ((width / 2) * (height / 2)) l7 l8 l3
  obtain ⟨ad, e10, l10, _⟩ := upsize_closed ah grey (width / 2) (height / 2) width height
    (by omega) (by omega) (by omega) (by omega) l9 l1
  obtain ⟨cl, e11, l11, _⟩ := apply_threshold_closed blurred mag ad (width * height) threshold
    l2 l5 l10
  obtain ⟨out, e12, l12, _⟩ := filter_closed cl m.out width height
    (if alpha then bpp - 1 else bpp) alpha (by omega) (by omega) l11
    (by rw [hbppe]; exact mo)
  refine ⟨⟨grey, blurred, bhalf, magHalf, mag, th, ft, fm, ah, ad, cl, out⟩, ?_, e1, e2, e3, e4,
    e5, e6, e7, e8, e9, e10, e11, e12, l1, l2, l3, l4, l5, l10, l11, by rw [l12, mo]⟩
  unfold edgeStages
  simp only [Option.bind_eq_bind]
  rw [e1, Option.some_bind, e2, Option.some_bind, e3, Option.some_bind, e4, Option.some_bind,
    e5, Option.some_bind, e6, Option.some_bind, e7, Option.some_bind, e8, Option.some_bind,
    e9, Option.some_bind, e10, Option.some_bind, e11, Option.some_bind, e12, Option.some_bind]
  rfl

/-! ## Constant fields -/

theorem const_of_pointwise (out : Buf) (n : Nat) (v : Int) (hlen : out.length = n)
    (h : ∀ i, i < n → out[i]? = some v) : out = List.replicate n v := by
  apply List.ext_getElem?
  intro i
  by_cases hi : i < n
  · rw [h i hi, List.getElem?_replicate, if_pos hi]
  · rw [List.getElem?_eq_none (by omega), List.getElem?_replicate, if_neg hi]

theorem getD_replicate_lt (n i : Nat) (v : Int) (hi : i < n) :
    (List.replicate n v).getD i 0 = v := by
  rw [List.getD_eq_getElem?_getD, List.getElem?_replicate, if_pos hi]
  rfl

theorem px_replicate (n W x y : Nat) (v : Int) (h : y * W + x < n) :
    px (List.replicate n v) W x y = v :=
  getD_replicate_lt n _ v h

theorem px_zeros (n W x y : Nat) : px (List.replicate n 0) W x y = 0 := by
  unfold px
  rw [List.getD_eq_getElem?_getD, List.getElem?_replicate]
  split_ifs <;> rfl

theorem blurFlat_const (W H i : Nat) (v : Int) (hv0 : 0 ≤ v) (hv1 : v ≤ 255) (hi : i < W * H) :
    blurFlat (fun a b => a + b) u8 (List.replicate (W * H) v) W H i = v := by
  unfold blurFlat
  split_ifs with hb
  · exact getD_replicate_lt _ _ v hi
  · have hW : 0 < W := by
      rcases Nat.eq_zero_or_pos W with h0 | h0
      · rw [h0] at hi; simp at hi
      · exact h0
    have hx := Nat.mod_lt i hW
    have hy := div_lt_rows W H i hi
    generalize i % W = x at hb hx
    generalize i / W = y at hb hy
    obtain ⟨t, rfl⟩ : ∃ t, x = t + 1 := ⟨x - 1, by omega⟩
    obtain ⟨r, rfl⟩ : ∃ r, y = r + 1 := ⟨y - 1, by omega⟩
    obtain ⟨b0, b1, b2, b3, b4, b5, b6, b7, b8⟩ := nbr_bounds W H r t (W * H) rfl (by omega)
      (by omega)
    unfold blurValue
    simp only [Nat.add_sub_cancel]
    rw [px_replicate _ _ _ _ v b0, px_replicate _ _ _ _ v b1, px_replicate _ _ _ _ v b2,
      px_replicate _ _ _ _ v b3, px_replicate _ _ _ _ v b4, px_replicate _ _ _ _ v b5,
      px_replicate _ _ _ _ v b6, px_replicate _ _ _ _ v b7, px_replicate _ _ _ _ v b8]
    have e : v + v + v + v + v + v + v + v + v = 9 * v := by ring
    have hq : Int.tdiv (9 * v) 9 = v := by
      rw [Int.tdiv_eq_ediv (by omega) (by norm_num)]
      omega
    show u8 (Int.tdiv (v + v + v + v + v + v + v + v + v) 9) = v
    rw [e, hq]
    unfold u8
    omega

theorem magFlat_const (w h i : Nat) (v : Int) (hi : i < w * h) :
    magFlat (List.replicate (w * h) v) w h i = 0 := by
  unfold magFlat
  split_ifs with hb
  · rfl
  · have hW : 0 < w := by
      rcases Nat.eq_zero_or_pos w with h0 | h0
      · rw [h0] at hi; simp at hi
      · exact h0
    have hx := Nat.mod_lt i hW
    have hy := div_lt_rows w h i hi
    generalize i % w = x at hb hx
    generalize i / w = y at hb hy
    obtain ⟨t, rfl⟩ : ∃ t, x = t + 1 := ⟨x - 1, by omega⟩
    obtain ⟨r, rfl⟩ : ∃ r, y = r + 1 := ⟨y - 1, by omega⟩
    obtain ⟨_, b1, _, b3, _, b5, _, b7, _⟩ := nbr_bounds w h r t (w * h) rfl (by omega)
      (by omega)
    unfold magValue
    simp only [Nat.add_sub_cancel]
    rw [px_replicate _ _ _ _ v b1, px_replicate _ _ _ _ v b3, px_replicate _ _ _ _ v b5,
      px_replicate _ _ _ _ v b7]
    simp [magCombine]

theorem downFlat_const (w h i : Nat) (v : Int) (hi : i < (w / 2) * (h / 2)) :
    downFlat (List.replicate (w * h) v) w (w / 2) i = v := by
  unfold downFlat
  apply px_replicate
  have hW : 0 < w / 2 := by
    rcases Nat.eq_zero_or_pos (w / 2) with h0 | h0
    · rw [h0] at hi; simp at hi
    · exact h0
  have hx := Nat.mod_lt i hW
  have hy := div_lt_rows (w / 2) (h / 2) i hi
  generalize i % (w / 2) = x at hx
  generalize i / (w / 2) = y at hy
  have := Nat.mul_le_mul_left w (show 2 * y + 1 ≤ h by omega)
  have e : w * (2 * y + 1) = 2 * y * w + w := by ring
  omega

theorem upsizeFlat_zeros (n w h nw nh i : Nat) :
    upsizeFlat (fun a b => wrap32 (a + b)) id (List.replicate n 0) w h nw nh i = 0 := by
  have hr : ∀ y c, upRowValue (fun a b => wrap32 (a + b)) id (List.replicate n 0) w nw y c
      = 0 := by
    intro y c
    unfold upRowValue
    simp only [px_zeros]
    split_ifs <;> decide
  unfold upsizeFlat upsizeAt upEven
  simp only [hr]
  split_ifs <;> decide

theorem chanSum_const (src : Buf) (base n : Nat) (v : Int)
    (h : ∀ j, j < n → src.getD (base + j) 0 = v) : chanSum src base n = n * v := by
  induction n with
  | zero => simp [chanSum]
  | succ n ih =>
    rw [chanSum, ih (fun j hj => h j (by omega)), h n (by omega)]
    push_cast
    ring

theorem greyFlat_uniform (src : Buf) (channels : Nat) (alpha : Bool) (i : Nat) (v : Int)
    (hch : 1 ≤ channels) (hv0 : 0 ≤ v) (hv1 : v ≤ 255)
    (h : ∀ j, j < channels → src.getD (i * (channels + (if alpha then 1 else 0)) + j) 0 = v) :
    greyFlat src channels alpha i = v := by
  unfold greyFlat
  rw [chanSum_const src _ channels v h]
  have hq : Int.tdiv ((channels : Int) * v) channels = v := by
    rw [Int.tdiv_eq_ediv (by positivity) (by omega)]
    exact Int.mul_ediv_cancel_left v (by omega)
  rw [hq]
  unfold u8
  omega

theorem filterFlat_no_edge (cls : Buf) (W H channels bpp i : Nat) (hi : i < W * H * bpp)
    (h : ∀ p, p < W * H → cls.getD p 0 ≠ 0) : filterFlat cls W H channels bpp i = 255 := by
  unfold filterFlat filterSample edgeValue
  split_ifs with h1 h2 h3
  · rfl
  · have hp : i / bpp < W * H := Nat.div_lt_of_lt_mul (by rw [Nat.mul_comm]; exact hi)
    have h0 := h3.1
    unfold px at h0
    rw [Nat.div_add_mod'] at h0
    exact absurd h0 (h _ hp)
  · rfl
  · rfl

theorem greyscale_uniform (src out0 : Buf) (size channels : Nat) (alpha : Bool) (v : Int)
    (hch : 1 ≤ channels) (hsrc : src.length = size * (channels + (if alpha then 1 else 0)))
    (hout : out0.length = size) (h : ∀ p, p < size → greyFlat src channels alpha p = v) :
    greyscale src out0 size channels alpha = some (List.replicate size v) := by
  obtain ⟨out, ho, hlen, hval⟩ := greyscale_closed src out0 size channels alpha hch hsrc hout
  rw [ho, const_of_pointwise out size v hlen (fun i hi => by rw [hval i hi, h i hi])]

theorem blur_const (out0 : Buf) (W H : Nat) (v : Int) (hW : 2 ≤ W) (hH : 2 ≤ H)
    (hv0 : 0 ≤ v) (hv1 : v ≤ 255) (hout : out0.length = W * H) :
    blur (List.replicate (W * H) v) out0 W H = some (List.replicate (W * H) v) := by
  obtain ⟨out, ho, hlen, hval⟩ := blur_closed (List.replicate (W * H) v) out0 W H hW hH
    (by simp) hout
  rw [ho, const_of_pointwise out (W * H) v hlen
    (fun i hi => by rw [hval i hi, blurFlat_const W H i v hv0 hv1 hi])]

theorem downsize_const (out0 : Buf) (w h : Nat) (v : Int)
    (hout : out0.length = (w / 2) * (h / 2)) :
    downsize (List.replicate (w * h) v) out0 w h (w / 2) (h / 2)
      = some (List.replicate ((w / 2) * (h / 2)) v) := by
  obtain ⟨out, ho, hlen, hval⟩ := downsize_closed (List.replicate (w * h) v) out0 w h
    (by simp) hout
  rw [ho, const_of_pointwise out _ v hlen
    (fun i hi => by rw [hval i hi, downFlat_const w h i v hi])]

theorem magnitude_const (out0 : Buf) (w h : Nat) (v : Int) (hw : 2 ≤ w) (hh : 2 ≤ h)
    (hout : out0.length = w * h) :
    magnitude (List.replicate (w * h) v) out0 w h = some (List.replicate (w * h) 0) := by
  obtain ⟨out, ho, hlen, hval⟩ := magnitude_closed (List.replicate (w * h) v) out0 w h hw hh
    (by simp) hout
  rw [ho, const_of_pointwise out _ 0 hlen
    (fun i hi => by rw [hval i hi, magFlat_const w h i v hi])]

theorem upsizei_zeros (dst : Buf) (w h nw nh : Nat) (hw : 1 ≤ w) (hh : 1 ≤ h)
    (hnw : nw = 2 * w ∨ nw = 2 * w + 1) (hnh : nh = 2 * h ∨ nh = 2 * h + 1)
    (hdst : dst.length = nw * nh) :
    upsizei (List.replicate (w * h) 0) dst w h nw nh = some (List.replicate (nw * nh) 0) := by
  obtain ⟨out, ho, hlen, hval⟩ := upsizei_closed (List.replicate (w * h) 0) dst w h nw nh hw hh
    hnw hnh (by simp) hdst
  rw [ho, const_of_pointwise out _ 0 hlen
    (fun i hi => by rw [hval i hi, upsizeFlat_zeros])]

theorem apply_threshold_flat (blurred buffer : Buf) (size : Nat) (threshold : Int)
    (ht : 0 ≤ threshold) (hbl : blurred.length = size) (hbuf : buffer.length = size) :
    apply_threshold blurred (List.replicate size 0) buffer size threshold
      = some (List.replicate size 128) := by
  obtain ⟨out, ho, hlen, hval⟩ := apply_threshold_closed blurred (List.replicate size 0) buffer
    size threshold hbl (by simp) hbuf
  rw [ho, const_of_pointwise out _ 128 hlen (fun i hi => by
    rw [hval i hi, getD_replicate_lt size i 0 hi]
    unfold classify
    rw [if_neg (by omega)])]

theorem filter_ambiguous (out0 : Buf) (W H channels : Nat) (alpha : Bool) (hW : 2 ≤ W)
    (hH : 2 ≤ H) (hout : out0.length = W * H * (channels + (if alpha then 1 else 0))) :
    filter (List.replicate (W * H) 128) out0 W H channels alpha
      = some (List.replicate (W * H * (channels + (if alpha then 1 else 0))) 255) := by
  obtain ⟨out, ho, hlen, hval⟩ := filter_closed (List.replicate (W * H) 128) out0 W H channels
    alpha hW hH (by simp) hout
  rw [ho, const_of_pointwise out _ 255 (by rw [hlen, hout]) (fun i hi => by
    rw [hval i (by rw [hout]; exact hi)]
    congr 1
    apply filterFlat_no_edge _ _ _ _ _ _ hi
    intro p hp
    rw [getD_replicate_lt _ _ _ hp]
    decide)]

/-- The stages of `edge` on a region of uniform intensity `v`. -/
theorem edgeStages_flat (inp : Buf) (m : Scratch) (width height bpp : Nat) (alpha : Bool)
    (threshold v : Int) (hW : 4 ≤ width) (hH : 4 ≤ height)
    (hbpp : (if alpha then 1 else 0) < bpp)
    (hinp : inp.length = width * height * bpp) (hm : m.Sized width height bpp)
    (hv0 : 0 ≤ v) (hv1 : v ≤ 255) (ht : 0 ≤ threshold)
    (huni : ∀ p, p < width * height →
      greyFlat inp (if alpha then bpp - 1 else bpp) alpha p = v) :
    ∃ t, edgeStages inp m width height bpp alpha threshold = some t ∧
      t.grey = List.replicate (width * height) v ∧
      t.magHalf = List.replicate ((width / 2) * (height / 2)) 0 ∧
      t.mag = List.replicate (width * height) 0 ∧
      t.classes = List.replicate (width * height) 128 ∧
      t.out = List.replicate (width * height * bpp) 255 := by
  obtain ⟨t, ht', e1, e2, e3, e4, e5, _, _, _, _, _, e11, e12, _, l2, _, _, _, l10, _, _⟩ :=
    edgeStages_safe inp m width height bpp alpha threshold hW hH hbpp hinp hm
  obtain ⟨mo, mbl, mbh, mbu, mth, mmag, mmh, mft, mfm⟩ := hm
  have hbppe : (if alpha then bpp - 1 else bpp) + (if alpha then 1 else 0) = bpp := by
    cases alpha
    · simp
    · simp at hbpp ⊢
      omega
  have hch : 1 ≤ (if alpha then bpp - 1 else bpp) := by
    cases alpha
    · simp at hbpp ⊢
      omega
    · simp at hbpp ⊢
      omega
  have g1 : t.grey = List.replicate (width * height) v := by
    have := greyscale_uniform inp m.buffer (width * height) (if alpha then bpp - 1 else bpp)
      alpha v hch (by rw [hbppe]; exact hinp) mbu huni
    rw [e1] at this
    exact Option.some.inj this
  have g2 : t.blurred = List.replicate (width * height) v := by
    have := blur_const m.blurred width height v (by omega) (by omega) hv0 hv1 mbl
    rw [g1, this] at e2
    exact (Option.some.inj e2).symm
  have g3 : t.blurredHalf = List.replicate ((width / 2) * (height / 2)) v := by
    have := downsize_const m.blurredHalf width height v mbh
    rw [g2, this] at e3
    exact (Option.some.inj e3).symm
  have g4 : t.magHalf = List.replicate ((width / 2) * (height / 2)) 0 := by
    have := magnitude_const m.magHalf (width / 2) (height / 2) v (by omega) (by omega) mmh
    rw [g3, this] at e4
    exact (Option.some.inj e4).symm
  have g5 : t.mag = List.replicate (width * height) 0 := by
    have := upsizei_zeros m.mag (width / 2) (height / 2) width height (by omega) (by omega)
      (by omega) (by omega) mmag
    rw [g4, this] at e5
    exact (Option.some.inj e5).symm
  have g6 : t.classes = List.replicate (width * height) 128 := by
    have := apply_threshold_flat t.blurred t.adaptive (width * height) threshold ht l2 l10
    rw [g5, this] at e11
    exact (Option.some.inj e11).symm
  have g7 : t.out = List.replicate (width * height * bpp) 255 := by
    have := filter_ambiguous m.out width height (if alpha then bpp - 1 else bpp) alpha
      (by omega) (by omega) (by rw [hbppe]; exact mo)
    rw [g6, this, hbppe] at e12
    exact (Option.some.inj e12).symm
  exact ⟨t, ht', g1, g4, g5, g6, g7⟩

theorem scratchOf_sized (width height bpp : Nat) (c : Int) :
    (scratchOf width height bpp c).Sized width height bpp := by
  simp [Scratch.Sized, scratchOf]

theorem greyFlat_replicate (n : Nat) (v : Int) (hv0 : 0 ≤ v) (hv1 : v ≤ 255) (p : Nat)
    (hp : p < n) : greyFlat (List.replicate n v) 1 false p = v := by
  apply greyFlat_uniform _ _ _ _ _ (le_refl 1) hv0 hv1
  intro j hj
  apply getD_replicate_lt
  simp only [Bool.false_eq_true, if_false]
  omega

/-! ## Resampling a constant field -/

theorem upRowValue_const (w h nw y c : Nat) (v : Int) (hw : 2 ≤ w) (hy : y < h)
    (hv0 : 0 ≤ v) (hv1 : v ≤ 255) :
    upRowValue (fun a b => a + b) u8 (List.replicate (w * h) v) w nw y c = v := by
  have hrow : y * w + w ≤ w * h := by
    have := Nat.mul_le_mul_left w (show y + 1 ≤ h from hy)
    have e : w * (y + 1) = y * w + w := by ring
    omega
  have hp : ∀ x, x < w → px (List.replicate (w * h) v) w x y = v :=
    fun x hx => px_replicate _ _ _ _ v (by omega)
  have hu : u8 v = v := by unfold u8; omega
  have hm : u8 ((v + v) >>> (1 : Nat)) = v := by
    have e : (v + v) >>> (1 : Nat) = v := by
      rw [Int.shiftRight_eq_div_pow]
      norm_num
      omega
    rw [e, hu]
  unfold upRowValue
  split_ifs with h1 h2 h3 h4 h5
  · rw [hp 0 (by omega), hu]
  · rw [hp _ (by omega), hp _ (by omega), hm]
  · rw [hp _ (by omega), hu]
  · omega
  · rw [hp _ (by omega), hm]
  · omega
  · rw [hp _ (by omega), hu]

theorem upsizeFlat_const (w h nw nh i : Nat) (v : Int) (hw : 2 ≤ w) (hh : 1 ≤ h)
    (hv0 : 0 ≤ v) (hv1 : v ≤ 255) :
    upsizeFlat (fun a b => a + b) u8 (List.replicate (w * h) v) w h nw nh i = v := by
  have hr : ∀ r c, upEven (fun a b => a + b) u8 (List.replicate (w * h) v) w h nw r c = v := by
    intro r c
    unfold upEven
    exact upRowValue_const w h nw _ c v hw (by
      have := min_le_right (r / 2) (h - 1)
      omega) hv0 hv1
  have hm : u8 ((v + v) >>> (1 : Nat)) = v := by
    have e : (v + v) >>> (1 : Nat) = v := by
      rw [Int.shiftRight_eq_div_pow]
      norm_num
      omega
    rw [e]; unfold u8; omega
  unfold upsizeFlat upsizeAt
  simp only [hr]
  split_ifs
  · rfl
  · exact hm
  · rfl

/-- For a region of width at least 4 and height at least 2 a constant field
survives `downsize` followed by `upsize`. -/
theorem upsize_downsize_const (half full : Buf) (width height : Nat) (v : Int)
    (hW : 4 ≤ width) (hH : 2 ≤ height) (hv0 : 0 ≤ v) (hv1 : v ≤ 255)
    (hhalf : half.length = (width / 2) * (height / 2)) (hfull : full.length = width * height) :
    ∃ d, downsize (List.replicate (width * height) v) half width height (width / 2)
        (height / 2) = some d ∧
      upsize d full (width / 2) (height / 2) width height
        = some (List.replicate (width * height) v) := by
  refine ⟨_, downsize_const half width height v hhalf, ?_⟩
  obtain ⟨out, ho, hlen, hval⟩ := upsize_closed
    (List.replicate ((width / 2) * (height / 2)) v) full (width / 2) (height / 2) width height
    (by omega) (by omega) (by omega) (by omega) (by simp) hfull
  rw [ho, const_of_pointwise out _ v hlen (fun i hi => by
    rw [hval i hi, upsizeFlat_const _ _ _ _ _ v (by omega) (by omega) hv0 hv1])]
/-! ## Ranges of samples -/

/-- Index of a pixel of a `W` x `H` field. -/
theorem flat_lt (W H x y : Nat) (hx : x < W) (hy : y < H) : y * W + x < W * H := by
  have h1 : (y + 1) * W ≤ H * W := Nat.mul_le_mul_right W hy
  have h2 : (y + 1) * W = y * W + W := by ring
  have h3 : H * W = W * H := Nat.mul_comm _ _
  omega

/-- A sum of `n` bytes lies in `[0, 255 * n]`. -/
theorem chanSum_range (src : Buf) (base n : Nat)
    (hb : ∀ j, j < n → 0 ≤ src.getD (base + j) 0 ∧ src.getD (base + j) 0 ≤ 255) :
    0 ≤ chanSum src base n ∧ chanSum src base n ≤ 255 * (n : Int) := by
  induction n with
  | zero => simp [chanSum]
  | succ n ih =>
    have h1 := ih (fun j hj => hb j (by omega))
    have h2 := hb n (by omega)
    unfold chanSum
    push_cast
    omega

/-- The channel sum only reads the `n` samples from `base` on. -/
theorem chanSum_congr (a b : Buf) (base n : Nat)
    (h : ∀ j, j < n → a.getD (base + j) 0 = b.getD (base + j) 0) :
    chanSum a base n = chanSum b base n := by
  induction n with
  | zero => rfl
  | succ n ih =>
    unfold chanSum
    rw [ih (fun j hj => h j (by omega)), h n (by omega)]

/-- The truncated mean of `n >= 1` bytes is a byte. -/
theorem mean_byte (s : Int) (n : Nat) (hn : 1 ≤ n) (h0 : 0 ≤ s) (h1 : s ≤ 255 * (n : Int)) :
    0 ≤ Int.tdiv s n ∧ Int.tdiv s n ≤ 255 ∧ u8 (Int.tdiv s n) = Int.tdiv s n := by
  have hn0 : (0 : Int) < n := by exact_mod_cast hn
  have e : Int.tdiv s n = s / n := Int.tdiv_eq_ediv h0 (by omega)
  have q0 : 0 ≤ s / (n : Int) := Int.ediv_nonneg h0 (by omega)
  have q1 : s / (n : Int) ≤ 255 := by
    have : s / (n : Int) ≤ (255 * (n : Int)) / (n : Int) := Int.ediv_le_ediv hn0 h1
    rwa [Int.mul_ediv_cancel _ (by omega)] at this
  rw [e]
  unfold u8
  omega

/-- Two buffers whose samples agree below their common length are equal. -/
theorem buf_ext (a b : Buf) (n : Nat) (F : Nat → Int) (ha : a.length = n) (hb : b.length = n)
    (hav : ∀ i, i < n → a[i]? = some (F i)) (hbv : ∀ i, i < n → b[i]? = some (F i)) :
    a = b := by
  apply List.ext_getElem?
  intro i
  by_cases hi : i < n
  · rw [hav i hi, hbv i hi]
  · rw [List.getElem?_eq_none (by omega), List.getElem?_eq_none (by omega)]

/-- The sample of an interior pixel or of one of its neighbours lies in the
range that holds for every sample of the field. -/
theorem px_range (b : Buf) (W H x y : Nat) (lo hi : Int)
    (hb : ∀ i, i < W * H → lo ≤ b.getD i 0 ∧ b.getD i 0 ≤ hi) (hx : x < W) (hy : y < H) :
    lo ≤ px b W x y ∧ px b W x y ≤ hi := by
  have h1 : (y + 1) * W ≤ H * W := Nat.mul_le_mul_right W hy
  have h2 : (y + 1) * W = y * W + W := by ring
  have h3 : H * W = W * H := Nat.mul_comm _ _
  exact hb (y * W + x) (by omega)

/-- The nine samples around an interior pixel all lie in the range of the
field, so their sum lies in nine times that range. -/
theorem sum9_range (b : Buf) (W H r t : Nat) (lo hi : Int)
    (hb : ∀ i, i < W * H → lo ≤ b.getD i 0 ∧ b.getD i 0 ≤ hi) (ht : t + 2 < W)
    (hr : r + 2 < H) :
    9 * lo ≤ sum9 b W (t + 1) (r + 1) ∧ sum9 b W (t + 1) (r + 1) ≤ 9 * hi := by
  have a1 := px_range b W H (t + 1 - 1) (r + 1 - 1) lo hi hb (by omega) (by omega)
  have a2 := px_range b W H (t + 1) (r + 1 - 1) lo hi hb (by omega) (by omega)
  have a3 := px_range b W H (t + 1 + 1) (r + 1 - 1) lo hi hb (by omega) (by omega)
  have a4 := px_range b W H (t + 1 - 1) (r + 1) lo hi hb (by omega) (by omega)
  have a5 := px_range b W H (t + 1) (r + 1) lo hi hb (by omega) (by omega)
  have a6 := px_range b W H (t + 1 + 1) (r + 1) lo hi hb (by omega) (by omega)
  have a7 := px_range b W H (t + 1 - 1) (r + 1 + 1) lo hi hb (by omega) (by omega)
  have a8 := px_range b W H (t + 1) (r + 1 + 1) lo hi hb (by omega) (by omega)
  have a9 := px_range b W H (t + 1 + 1) (r + 1 + 1) lo hi hb (by omega) (by omega)
  unfold sum9
  constructor <;> linarith [a1.1, a1.2, a2.1, a2.2, a3.1, a3.2, a4.1, a4.2, a5.1, a5.2,
    a6.1, a6.2, a7.1, a7.2, a8.1, a8.2, a9.1, a9.2]

/-- With exact addition the value `blur` computes is the stored quotient of the
nine-sample sum. -/
theorem blurValue_plain (store : Int → Int) (b : Buf) (W x y : Nat) :
    blurValue (fun a c => a + c) store b W x y = store (Int.tdiv (sum9 b W x y) 9) := by
  unfold blurValue sum9
  congr 2
  ring

/-- When the nine samples are non-negative and their sum is below `2 ^ 31`, the
32-bit additions of `bluri` are exact. -/
theorem blurValue_wrap (store : Int → Int) (b : Buf) (W H r t : Nat) (hi : Int)
    (hb : ∀ i, i < W * H → 0 ≤ b.getD i 0 ∧ b.getD i 0 ≤ hi) (hhi : 9 * hi < 2147483648)
    (ht : t + 2 < W) (hr : r + 2 < H) :
    blurValue (fun a c => wrap32 (a + c)) store b W (t + 1) (r + 1)
      = store (Int.tdiv (sum9 b W (t + 1) (r + 1)) 9) := by
  have a1 := px_range b W H (t + 1 - 1) (r + 1 - 1) 0 hi hb (by omega) (by omega)
  have a2 := px_range b W H (t + 1) (r + 1 - 1) 0 hi hb (by omega) (by omega)
  have a3 := px_range b W H (t + 1 + 1) (r + 1 - 1) 0 hi hb (by omega) (by omega)
  have a4 := px_range b W H (t + 1 - 1) (r + 1) 0 hi hb (by omega) (by omega)
  have a5 := px_range b W H (t + 1) (r + 1) 0 hi hb (by omega) (by omega)
  have a6 := px_range b W H (t + 1 + 1) (r + 1) 0 hi hb (by omega) (by omega)
  have a7 := px_range b W H (t + 1 - 1) (r + 1 + 1) 0 hi hb (by omega) (by omega)
  have a8 := px_range b W H (t + 1) (r + 1 + 1) 0 hi hb (by omega) (by omega)
  have a9 := px_range b W H (t + 1 + 1) (r + 1 + 1) 0 hi hb (by omega) (by omega)
  rw [← blurValue_plain store b W (t + 1) (r + 1)]
  unfold blurValue
  generalize px b W (t + 1 - 1) (r + 1 - 1) = v1 at a1 ⊢
  generalize px b W (t + 1) (r + 1 - 1) = v2 at a2 ⊢
  generalize px b W (t + 1 + 1) (r + 1 - 1) = v3 at a3 ⊢
  generalize px b W (t + 1 - 1) (r + 1) = v4 at a4 ⊢
  generalize px b W (t + 1) (r + 1) = v5 at a5 ⊢
  generalize px b W (t + 1 + 1) (r + 1) = v6 at a6 ⊢
  generalize px b W (t + 1 - 1) (r + 1 + 1) = v7 at a7 ⊢
  generalize px b W (t + 1) (r + 1 + 1) = v8 at a8 ⊢
  generalize px b W (t + 1 + 1) (r + 1 + 1) = v9 at a9 ⊢
  clear hb
  have w1 : wrap32 (v4 + v6) = v4 + v6 := by unfold wrap32; omega
  have w2 : wrap32 (v4 + v6 + v2) = v4 + v6 + v2 := by unfold wrap32; omega
  have w3 : wrap32 (v4 + v6 + v2 + v8) = v4 + v6 + v2 + v8 := by unfold wrap32; omega
  have w4 : wrap32 (v4 + v6 + v2 + v8 + v1) = v4 + v6 + v2 + v8 + v1 := by
    unfold wrap32; omega
  have w5 : wrap32 (v4 + v6 + v2 + v8 + v1 + v3) = v4 + v6 + v2 + v8 + v1 + v3 := by
    unfold wrap32; omega
  have w6 : wrap32 (v4 + v6 + v2 + v8 + v1 + v3 + v7) = v4 + v6 + v2 + v8 + v1 + v3 + v7 := by
    unfold wrap32; omega
  have w7 : wrap32 (v4 + v6 + v2 + v8 + v1 + v3 + v7 + v9)
      = v4 + v6 + v2 + v8 + v1 + v3 + v7 + v9 := by unfold wrap32; omega
  have w8 : wrap32 (v4 + v6 + v2 + v8 + v1 + v3 + v7 + v9 + v5)
      = v4 + v6 + v2 + v8 + v1 + v3 + v7 + v9 + v5 := by unfold wrap32; omega
  simp only [w1, w2, w3, w4, w5, w6, w7, w8]

/-- The truncated quotient by 9 of a sum of nine bytes is a byte. -/
theorem tdiv9_byte (s : Int) (h0 : 0 ≤ s) (h1 : s ≤ 9 * 255) :
    0 ≤ Int.tdiv s 9 ∧ Int.tdiv s 9 ≤ 255 ∧ u8 (Int.tdiv s 9) = Int.tdiv s 9 ∧
      Int.tdiv s 9 = s / 9 := by
  have e : Int.tdiv s 9 = s / 9 := Int.tdiv_eq_ediv h0 (by norm_num)
  rw [e]
  unfold u8
  omega

/-- Lowering the global threshold keeps the classes 0 and 255. -/
theorem classify_mono (x m t t1 t2 : Int) (ht : t1 ≤ t2) :
    (classify x m t t2 = 0 → classify x m t t1 = 0) ∧
      (classify x m t t2 = 255 → classify x m t t1 = 255) := by
  unfold classify
  by_cases h2 : m > t2
  · have h1 : m > t1 := by omega
    rw [if_pos h2, if_pos h1]
    exact ⟨id, id⟩
  · rw [if_neg h2]
    exact ⟨fun h => by omega, fun h => by omega⟩

/-- An edge of the classification `c2` at an interior pixel is an edge of every
classification that keeps the classes 0 and 255 of `c2` around that pixel. -/
theorem edgeValue_mono (c1 c2 : Buf) (W x y : Nat)
    (h : ∀ a b, x ≤ a + 1 → a ≤ x + 1 → y ≤ b + 1 → b ≤ y + 1 →
      (px c2 W a b = 0 → px c1 W a b = 0) ∧ (px c2 W a b = 255 → px c1 W a b = 255))
    (he : edgeValue c2 W x y = 0) : edgeValue c1 W x y = 0 := by
  unfold edgeValue at he ⊢
  by_cases hc : px c2 W x y = 0 ∧
      (px c2 W (x - 1) (y - 1) = 255 ∨ px c2 W x (y - 1) = 255 ∨
       px c2 W (x + 1) (y - 1) = 255 ∨ px c2 W (x - 1) y = 255 ∨
       px c2 W (x + 1) y = 255 ∨ px c2 W (x - 1) (y + 1) = 255 ∨
       px c2 W x (y + 1) = 255 ∨ px c2 W (x + 1) (y + 1) = 255)
  · obtain ⟨h0, hn⟩ := hc
    have k0 := (h x y (by omega) (by omega) (by omega) (by omega)).1 h0
    have k1 := (h (x - 1) (y - 1) (by omega) (by omega) (by omega) (by omega)).2
    have k2 := (h x (y - 1) (by omega) (by omega) (by omega) (by omega)).2
    have k3 := (h (x + 1) (y - 1) (by omega) (by omega) (by omega) (by omega)).2
    have k4 := (h (x - 1) y (by omega) (by omega) (by omega) (by omega)).2
    have k5 := (h (x + 1) y (by omega) (by omega) (by omega) (by omega)).2
    have k6 := (h (x - 1) (y + 1) (by omega) (by omega) (by omega) (by omega)).2
    have k7 := (h x (y + 1) (by omega) (by omega) (by omega) (by omega)).2
    have k8 := (h (x + 1) (y + 1) (by omega) (by omega) (by omega) (by omega)).2
    rw [if_pos]
    refine ⟨k0, ?_⟩
    rcases hn with hn | hn | hn | hn | hn | hn | hn | hn
    · exact Or.inl (k1 hn)
    · exact Or.inr (Or.inl (k2 hn))
    · exact Or.inr (Or.inr (Or.inl (k3 hn)))
    · exact Or.inr (Or.inr (Or.inr (Or.inl (k4 hn))))
    · exact Or.inr (Or.inr (Or.inr (Or.inr (Or.inl (k5 hn)))))
    · exact Or.inr (Or.inr (Or.inr (Or.inr (Or.inr (Or.inl (k6 hn))))))
    · exact Or.inr (Or.inr (Or.inr (Or.inr (Or.inr (Or.inr (Or.inl (k7 hn)))))))
    · exact Or.inr (Or.inr (Or.inr (Or.inr (Or.inr (Or.inr (Or.inr (k8 hn)))))))
  · rw [if_neg hc] at he
    exact absurd he (by decide)

/-- The sample of a buffer whose contents are known. -/
theorem px_of_get (buf : Buf) (W H x y : Nat) (F : Nat → Int)
    (hc : ∀ i, i < W * H → buf[i]? = some (F i)) (hx : x < W) (hy : y < H) :
    px buf W x y = F (y * W + x) := by
  unfold px
  rw [List.getD_eq_getElem?_getD, hc _ (flat_lt W H x y hx hy), Option.getD_some]
/-! ## The byte and the wide variants on samples in range -/

theorem shift_one (a : Int) : a >>> (1 : Nat) = a / 2 := by
  rw [Int.shiftRight_eq_div_pow]
  norm_num

/-- The arithmetic of `upsize` is exact on bytes. -/
theorem exactOn_bytes : ExactOn (fun a b => a + b) u8 0 255 := by
  refine ⟨fun a h0 h1 => by unfold u8; omega, fun a b ha0 ha1 hb0 hb1 => ?_⟩
  show u8 ((a + b) >>> (1 : Nat)) = (a + b) / 2
  rw [shift_one]
  unfold u8
  omega

/-- The arithmetic of `upsizei` is exact on samples whose sums fit in 32 bits. -/
theorem exactOn_wide : ExactOn (fun a b => wrap32 (a + b)) id (-1073741824) 1073741823 := by
  refine ⟨fun a _ _ => rfl, fun a b ha0 ha1 hb0 hb1 => ?_⟩
  show wrap32 (a + b) >>> (1 : Nat) = (a + b) / 2
  have e : wrap32 (a + b) = a + b := by unfold wrap32; omega
  rw [e, shift_one]

/-- Unbounded integer arithmetic is exact everywhere. -/
theorem exactOn_plain (lo hi : Int) : ExactOn (fun a b => a + b) id lo hi :=
  ⟨fun _ _ _ => rfl, fun a b _ _ _ _ => shift_one (a + b)⟩

theorem mean_range (a b lo hi : Int) (ha0 : lo ≤ a) (ha1 : a ≤ hi) (hb0 : lo ≤ b)
    (hb1 : b ≤ hi) : lo ≤ (a + b) / 2 ∧ (a + b) / 2 ≤ hi := by
  omega

theorem InRange.widen {b : Buf} {n : Nat} {lo hi lo2 hi2 : Int} (h : InRange b n lo hi)
    (h0 : lo2 ≤ lo) (h1 : hi ≤ hi2) : InRange b n lo2 hi2 :=
  fun i hi' => ⟨le_trans h0 (h i hi').1, le_trans (h i hi').2 h1⟩

/-- On samples in a range on which the arithmetic is exact, the row loop of
`upsize` computes what unbounded integer arithmetic gives, a value of the same
range. -/
theorem upRowValue_exact (add : Int → Int → Int) (store : Int → Int) (lo hi : Int)
    (hE : ExactOn add store lo hi) (hlo : lo ≤ 0) (hhi : 0 ≤ hi) (src : Buf)
    (w h nw y c : Nat) (hsrc : InRange src (w * h) lo hi) (hw : 1 ≤ w) (hy : y < h) :
    upRowValue add store src w nw y c = upRowValue (fun a b => a + b) id src w nw y c ∧
      lo ≤ upRowValue (fun a b => a + b) id src w nw y c ∧
      upRowValue (fun a b => a + b) id src w nw y c ≤ hi := by
  have hp : ∀ k, k < w → lo ≤ px src w k y ∧ px src w k y ≤ hi :=
    fun k hk => px_range src w h k y lo hi hsrc hk hy
  obtain ⟨hs, ha⟩ := hE
  have hz : lo ≤ (if w = 1 then 0 else px src w (w - 1) y) ∧
      (if w = 1 then 0 else px src w (w - 1) y) ≤ hi := by
    by_cases h1 : w = 1
    · rw [if_pos h1]; exact ⟨hlo, hhi⟩
    · rw [if_neg h1]; exact hp _ (by omega)
  unfold upRowValue
  by_cases c0 : c = 0
  · have p := hp 0 (by omega)
    simp only [if_pos c0, id]
    exact ⟨hs _ p.1 p.2, p⟩
  · by_cases c1 : c + 1 < 2 * w
    · by_cases c2 : c % 2 = 1
      · have p1 := hp ((c - 1) / 2) (by omega)
        have p2 := hp ((c + 1) / 2) (by omega)
        simp only [if_neg c0, if_pos c1, if_pos c2, id]
        rw [ha _ _ p1.1 p1.2 p2.1 p2.2, shift_one]
        exact ⟨rfl, mean_range _ _ lo hi p1.1 p1.2 p2.1 p2.2⟩
      · have p := hp (c / 2) (by omega)
        simp only [if_neg c0, if_pos c1, if_neg c2, id]
        exact ⟨hs _ p.1 p.2, p⟩
    · by_cases c3 : nw % 2 = 1 ∧ c + 1 = 2 * w
      · have p1 := hp (w - 1) (by omega)
        simp only [if_neg c0, if_neg c1, if_pos c3, id]
        rw [ha _ _ p1.1 p1.2 hz.1 hz.2, shift_one]
        exact ⟨rfl, mean_range _ _ lo hi p1.1 p1.2 hz.1 hz.2⟩
      · simp only [if_neg c0, if_neg c1, if_neg c3, id]
        exact ⟨hs _ hz.1 hz.2, hz⟩

/-- The same for a whole output sample of `upsize`. -/
theorem upsizeAt_exact (add : Int → Int → Int) (store : Int → Int) (lo hi : Int)
    (hE : ExactOn add store lo hi) (hlo : lo ≤ 0) (hhi : 0 ≤ hi) (src : Buf)
    (w h nw nh r c : Nat) (hsrc : InRange src (w * h) lo hi) (hw : 1 ≤ w) (hh : 1 ≤ h) :
    upsizeAt add store src w h nw nh r c
        = upsizeAt (fun a b => a + b) id src w h nw nh r c ∧
      lo ≤ upsizeAt (fun a b => a + b) id src w h nw nh r c ∧
      upsizeAt (fun a b => a + b) id src w h nw nh r c ≤ hi := by
  have hr : ∀ q, upEven add store src w h nw q c = upEven (fun a b => a + b) id src w h nw q c ∧
      lo ≤ upEven (fun a b => a + b) id src w h nw q c ∧
      upEven (fun a b => a + b) id src w h nw q c ≤ hi := by
    intro q
    unfold upEven
    exact upRowValue_exact add store lo hi hE hlo hhi src w h nw _ c hsrc hw (by
      have := min_le_right (q / 2) (h - 1)
      omega)
  obtain ⟨hs, ha⟩ := hE
  unfold upsizeAt
  by_cases r0 : r % 2 = 0
  · simp only [if_pos r0]
    exact hr r
  · by_cases r1 : r + 1 < nh
    · have p1 := hr (r - 1)
      have p2 := hr (r + 1)
      simp only [if_neg r0, if_pos r1, id]
      rw [p1.1, p2.1, ha _ _ p1.2.1 p1.2.2 p2.2.1 p2.2.2, shift_one]
      exact ⟨rfl, mean_range _ _ lo hi p1.2.1 p1.2.2 p2.2.1 p2.2.2⟩
    · simp only [if_neg r0, if_neg r1]
      exact hr (r - 1)

/-- On bytes the additions and the store of `blur` and those of `bluri` give the
same interior value, a byte. -/
theorem blurValue_agree (src : Buf) (W H r t : Nat) (hb : IsBytes src (W * H))
    (ht : t + 2 < W) (hr : r + 2 < H) :
    blurValue (fun a c => a + c) u8 src W (t + 1) (r + 1)
        = Int.tdiv (sum9 src W (t + 1) (r + 1)) 9 ∧
      blurValue (fun a c => wrap32 (a + c)) id src W (t + 1) (r + 1)
        = Int.tdiv (sum9 src W (t + 1) (r + 1)) 9 ∧
      0 ≤ Int.tdiv (sum9 src W (t + 1) (r + 1)) 9 ∧
      Int.tdiv (sum9 src W (t + 1) (r + 1)) 9 ≤ 255 := by
  have hs := sum9_range src W H r t 0 255 hb ht hr
  obtain ⟨q0, q1, q2, _⟩ := tdiv9_byte (sum9 src W (t + 1) (r + 1)) (by omega) (by omega)
  refine ⟨?_, ?_, q0, q1⟩
  · rw [blurValue_plain, q2]
  · rw [blurValue_wrap id src W H r t 255 hb (by norm_num) ht hr]
    rfl

/-- On a byte field the closed forms of `blur` and `bluri` agree and give
bytes. -/
theorem blurFlat_agree (src : Buf) (W H i : Nat) (hW : 2 ≤ W) (hb : IsBytes src (W * H))
    (hi : i < W * H) :
    blurFlat (fun a c => wrap32 (a + c)) id src W H i = blurFlat (fun a c => a + c) u8 src W H i ∧
      0 ≤ blurFlat (fun a c => a + c) u8 src W H i ∧
      blurFlat (fun a c => a + c) u8 src W H i ≤ 255 := by
  by_cases hbd : i % W = 0 ∨ i / W = 0 ∨ i % W + 1 = W ∨ i / W + 1 = H
  · have e1 : blurFlat (fun a c => wrap32 (a + c)) id src W H i = src.getD i 0 := by
      unfold blurFlat
      rw [if_pos hbd]
    have e2 : blurFlat (fun a c => a + c) u8 src W H i = src.getD i 0 := by
      unfold blurFlat
      rw [if_pos hbd]
    rw [e1, e2]
    exact ⟨rfl, hb i hi⟩
  · have hy : i / W < H := div_lt_rows W H i hi
    have hx : i % W < W := Nat.mod_lt _ (by omega)
    have e1 : blurFlat (fun a c => wrap32 (a + c)) id src W H i
        = blurValue (fun a c => wrap32 (a + c)) id src W (i % W) (i / W) := by
      unfold blurFlat
      rw [if_neg hbd]
    have e2 : blurFlat (fun a c => a + c) u8 src W H i
        = blurValue (fun a c => a + c) u8 src W (i % W) (i / W) := by
      unfold blurFlat
      rw [if_neg hbd]
    rw [e1, e2]
    generalize i % W = x at hbd hx ⊢
    generalize i / W = y at hbd hy ⊢
    obtain ⟨t, rfl⟩ : ∃ t, x = t + 1 := ⟨x - 1, by omega⟩
    obtain ⟨r, rfl⟩ : ∃ r, y = r + 1 := ⟨y - 1, by omega⟩
    obtain ⟨e1, e2, q0, q1⟩ := blurValue_agree src W H r t hb (by omega) (by omega)
    rw [e1, e2]
    exact ⟨rfl, q0, q1⟩

/-- With arithmetic that is exact on the range of the source, every sample of the
output of `upsize` is the one unbounded integer arithmetic gives. -/
theorem upsizeG_exact (add : Int → Int → Int) (store : Int → Int) (lo hi : Int)
    (hE : ExactOn add store lo hi) (hlo : lo ≤ 0) (hhi : 0 ≤ hi) (src dst : Buf)
    (w h nw nh : Nat) (hw : 1 ≤ w) (hh : 1 ≤ h) (hnw : nw = 2 * w ∨ nw = 2 * w + 1)
    (hnh : nh = 2 * h ∨ nh = 2 * h + 1) (hsrc : src.length = w * h)
    (hdst : dst.length = nw * nh) (hr : InRange src (w * h) lo hi) :
    ∃ out, upsizeG add store src dst w h nw nh = some out ∧ out.length = nw * nh ∧
      ∀ r c, r < nh → c < nw →
        out[r * nw + c]? = some (upsizeAt (fun a b => a + b) id src w h nw nh r c) ∧
        out.getD (r * nw + c) 0 = upsizeAt (fun a b => a + b) id src w h nw nh r c := by
  obtain ⟨out, e, l, v⟩ := upsizeG_closed add store src dst w h nw nh hw hh hnw hnh hsrc hdst
  refine ⟨out, e, l, fun r c hr' hc => ?_⟩
  have hv := v _ (flat_lt nw nh c r hc hr')
  rw [upsizeFlat_at add store src w h nw nh r c hc,
    (upsizeAt_exact add store lo hi hE hlo hhi src w h nw nh r c hr hw hh).1] at hv
  exact ⟨hv, by rw [List.getD_eq_getElem?_getD, hv, Option.getD_some]⟩

/-- The row law holds for the output of `upsize` when the arithmetic is exact on
the range of the source. -/
theorem upsizeG_row_law (add : Int → Int → Int) (store : Int → Int) (lo hi : Int)
    (hE : ExactOn add store lo hi) (hlo : lo ≤ 0) (hhi : 0 ≤ hi) (src dst : Buf)
    (w h nw nh : Nat) (hw : 2 ≤ w) (hh : 1 ≤ h) (hnw : nw = 2 * w ∨ nw = 2 * w + 1)
    (hnh : nh = 2 * h ∨ nh = 2 * h + 1) (hsrc : src.length = w * h)
    (hdst : dst.length = nw * nh) (hr : InRange src (w * h) lo hi) :
    ∃ out, upsizeG add store src dst w h nw nh = some out ∧ out.length = nw * nh ∧
      ∀ y, y < h → UpsampledRow out src w nw y := by
  obtain ⟨out, e, l, v⟩ := upsizeG_exact add store lo hi hE hlo hhi src dst w h nw nh
    (by omega) hh hnw hnh hsrc hdst hr
  refine ⟨out, e, l, fun y hy => ?_⟩
  have hrow : ∀ c, c < nw →
      out[2 * y * nw + c]? = some (upRowValue (fun a b => a + b) id src w nw y c) := by
    intro c hc
    rw [(v (2 * y) c (by omega) hc).1, upsizeAt_even _ _ _ _ _ _ _ _ _ hy]
  have hnw' : (nw % 2 = 1 ∧ nw = 2 * w + 1) ∨ (¬ nw % 2 = 1 ∧ nw = 2 * w) := by omega
  have hlast : ∀ c, c + 1 = nw →
      upRowValue (fun a b => a + b) id src w nw y c = px src w (w - 1) y := by
    intro c hc
    rw [upRowValue_last _ _ src w nw y c (by omega) hc hnw', if_neg (by omega)]
    rfl
  refine ⟨?_, ?_, ?_, ?_⟩
  · have := hrow 0 (by omega)
    rw [Nat.add_zero] at this
    rw [this, upRowValue_zero]
    rfl
  · intro k hk1 hk2
    obtain ⟨j, rfl⟩ : ∃ j, k = j + 1 := ⟨k - 1, by omega⟩
    have e1 : 2 * (j + 1) - 1 = 1 + 2 * j := by omega
    have e2 : 2 * (j + 1) = 1 + 2 * j + 1 := by omega
    constructor
    · rw [e1, hrow _ (by omega), upRowValue_odd _ _ src w nw y j (by omega)]
      show some ((px src w j y + px src w (j + 1) y) >>> (1 : Nat)) = _
      rw [shift_one]
      rfl
    · rw [e2, hrow _ (by omega), upRowValue_even _ _ src w nw y j (by omega)]
      rfl
  · rw [hrow _ (by omega)]
    rcases hnw' with ⟨ho, hn⟩ | ⟨he, hn⟩
    · have e1 : 2 * w - 1 = 1 + 2 * (w - 1) := by omega
      rw [e1, upRowValue_extra _ _ src w nw y (by omega) ho, if_neg (by omega)]
      show some ((px src w (w - 1) y + px src w (w - 1) y) >>> (1 : Nat)) = _
      rw [shift_one]
      congr 1
      omega
    · rw [hlast _ (by omega)]
  · intro ho
    rw [hrow _ (by omega), hlast _ (by omega)]

/-- The law between the rows holds for the output of `upsize` when the
arithmetic is exact on the range of the source. -/
theorem upsizeG_rows_law (add : Int → Int → Int) (store : Int → Int) (lo hi : Int)
    (hE : ExactOn add store lo hi) (hlo : lo ≤ 0) (hhi : 0 ≤ hi) (src dst : Buf)
    (w h nw nh : Nat) (hw : 1 ≤ w) (hh : 1 ≤ h) (hnw : nw = 2 * w ∨ nw = 2 * w + 1)
    (hnh : nh = 2 * h ∨ nh = 2 * h + 1) (hsrc : src.length = w * h)
    (hdst : dst.length = nw * nh) (hr : InRange src (w * h) lo hi) :
    ∃ out, upsizeG add store src dst w h nw nh = some out ∧ out.length = nw * nh ∧
      UpsampledRows out (upRowValue (fun a b => a + b) id src w nw) h nw nh := by
  obtain ⟨out, e, l, v⟩ := upsizeG_exact add store lo hi hE hlo hhi src dst w h nw nh
    hw hh hnw hnh hsrc hdst hr
  refine ⟨out, e, l, ?_, ?_, ?_, ?_⟩
  · intro y c hy hc
    rw [(v (2 * y) c (by omega) hc).1, upsizeAt_even _ _ _ _ _ _ _ _ _ hy]
  · intro r c hodd hr1 hc
    obtain ⟨k, rfl⟩ : ∃ k, r = 2 * k + 1 := ⟨r / 2, by omega⟩
    have e1 : 2 * k + 1 - 1 = 2 * k := by omega
    have e2 : 2 * k + 1 + 1 = 2 * k + 2 := by omega
    rw [(v (2 * k + 1) c (by omega) hc).1, e1, e2, (v (2 * k) c (by omega) hc).2,
      (v (2 * k + 2) c (by omega) hc).2,
      upsizeAt_mid _ _ src w h nw nh k c (by omega)]
    show some ((upsizeAt (fun a b => a + b) id src w h nw nh (2 * k) c
      + upsizeAt (fun a b => a + b) id src w h nw nh (2 * k + 2) c) >>> (1 : Nat)) = _
    rw [shift_one]
  · intro he c hc
    have hn : nh = 2 * h := by omega
    have e1 : nh - 1 = 2 * (h - 1) + 1 := by omega
    have e2 : nh - 2 = 2 * (h - 1) := by omega
    rw [e1, e2, (v (2 * (h - 1) + 1) c (by omega) hc).1, (v (2 * (h - 1)) c (by omega) hc).1,
      upsizeAt_last _ _ src w h nw nh (h - 1) c (by omega)]
  · intro ho c hc
    have hn : nh = 2 * h + 1 := by omega
    have e1 : nh - 1 = 2 * h := by omega
    have e2 : nh - 3 = 2 * (h - 1) := by omega
    rw [e1, e2, (v (2 * h) c (by omega) hc).1, (v (2 * (h - 1)) c (by omega) hc).1,
      upsizeAt_even _ _ _ _ _ _ _ _ _ (show h - 1 < h by omega)]
    unfold upsizeAt upEven
    have e3 : 2 * h % 2 = 0 := by omega
    have e4 : 2 * h / 2 = h := by omega
    rw [if_pos e3, e4, min_eq_right (by omega)]
/-! ## Ranges in the wide-integer stages -/

theorem magCombine_range (v g : Int) (hv0 : 0 ≤ v) (hv1 : v ≤ 255) (hg0 : 0 ≤ g)
    (hg1 : g ≤ 255) : 0 ≤ magCombine v g ∧ magCombine v g ≤ 340 := by
  have e1 : Int.tdiv g 3 = g / 3 := Int.tdiv_eq_ediv hg0 (by norm_num)
  have e2 : Int.tdiv v 3 = v / 3 := Int.tdiv_eq_ediv hv0 (by norm_num)
  unfold magCombine
  rw [e1, e2]
  split_ifs <;> omega

/-- The gradient magnitude of a byte field lies in `[0, 340]`. -/
theorem magFlat_range (inp : Buf) (w h i : Nat) (hw : 2 ≤ w) (hb : IsBytes inp (w * h))
    (hi : i < w * h) : 0 ≤ magFlat inp w h i ∧ magFlat inp w h i ≤ 340 := by
  unfold magFlat
  by_cases hbd : i % w = 0 ∨ i / w = 0 ∨ i % w + 1 = w ∨ i / w + 1 = h
  · rw [if_pos hbd]
    exact ⟨le_refl _, by norm_num⟩
  · rw [if_neg hbd]
    have hy : i / w < h := div_lt_rows w h i hi
    have hx : i % w < w := Nat.mod_lt _ (by omega)
    generalize i % w = x at hbd hx ⊢
    generalize i / w = y at hbd hy ⊢
    have p1 := px_range inp w h (x + 1) y 0 255 hb (by omega) hy
    have p2 := px_range inp w h (x - 1) y 0 255 hb (by omega) hy
    have p3 := px_range inp w h x (y + 1) 0 255 hb hx (by omega)
    have p4 := px_range inp w h x (y - 1) 0 255 hb hx (by omega)
    unfold magValue
    exact magCombine_range _ _ (by omega) (by omega) (by omega) (by omega)

/-- The product of a byte and a magnitude fits in 32 bits. -/
theorem product_range (a m : Int) (ha0 : 0 ≤ a) (ha1 : a ≤ 255) (hm0 : 0 ≤ m)
    (hm1 : m ≤ 340) : wrap32 (a * m) = a * m ∧ 0 ≤ a * m ∧ a * m ≤ 86700 := by
  have h0 : 0 ≤ a * m := Int.mul_nonneg ha0 hm0
  have h1 : a * m ≤ 255 * 340 := Int.mul_le_mul ha1 hm1 hm0 (by norm_num)
  refine ⟨?_, h0, by omega⟩
  unfold wrap32
  omega

/-- The samples of a buffer whose contents are known. -/
theorem getD_of_get (buf : Buf) (n i : Nat) (F : Nat → Int)
    (hc : ∀ i, i < n → buf[i]? = some (F i)) (hi : i < n) : buf.getD i 0 = F i := by
  rw [List.getD_eq_getElem?_getD, hc i hi, Option.getD_some]

/-- On a field of non-negative samples bounded by `hi`, with `9 * hi` below
`2 ^ 31`, the closed form of `bluri` is the exact quotient of the nine-sample
sum in the interior and stays in `[0, hi]` everywhere. -/
theorem bluriFlat_range (src : Buf) (W H i : Nat) (hi : Int) (hW : 2 ≤ W)
    (hb : InRange src (W * H) 0 hi) (hhi : 9 * hi < 2147483648) (hlt : i < W * H) :
    0 ≤ blurFlat (fun a c => wrap32 (a + c)) id src W H i ∧
      blurFlat (fun a c => wrap32 (a + c)) id src W H i ≤ hi := by
  unfold blurFlat
  by_cases hbd : i % W = 0 ∨ i / W = 0 ∨ i % W + 1 = W ∨ i / W + 1 = H
  · rw [if_pos hbd]
    exact hb i hlt
  · rw [if_neg hbd]
    have hy : i / W < H := div_lt_rows W H i hlt
    have hx : i % W < W := Nat.mod_lt _ (by omega)
    generalize i % W = x at hbd hx ⊢
    generalize i / W = y at hbd hy ⊢
    obtain ⟨t, rfl⟩ : ∃ t, x = t + 1 := ⟨x - 1, by omega⟩
    obtain ⟨r, rfl⟩ : ∃ r, y = r + 1 := ⟨y - 1, by omega⟩
    have hs := sum9_range src W H r t 0 hi hb (by omega) (by omega)
    rw [blurValue_wrap id src W H r t hi hb hhi (by omega) (by omega)]
    have e : Int.tdiv (sum9 src W (t + 1) (r + 1)) 9 = sum9 src W (t + 1) (r + 1) / 9 :=
      Int.tdiv_eq_ediv (by omega) (by norm_num)
    show 0 ≤ Int.tdiv (sum9 src W (t + 1) (r + 1)) 9 ∧
      Int.tdiv (sum9 src W (t + 1) (r + 1)) 9 ≤ hi
    rw [e]
    omega
/-! ## Evaluating the bright-square scenario -/

theorem pack_div (L : List Nat) (hb : ∀ a ∈ L, a < 1048576) (j : Nat) :
    pack L / 1048576 ^ j % 1048576 = L.getD j 0 := by
  induction L generalizing j with
  | nil => simp [pack]
  | cons a l ih =>
    have ha : a < 1048576 := hb a (List.mem_cons_self _ _)
    cases j with
    | zero =>
      simp only [pack, pow_zero, Nat.div_one, List.getD_cons_zero]
      omega
    | succ j =>
      have e : (a + 1048576 * pack l) / 1048576 ^ (j + 1) = pack l / 1048576 ^ j := by
        rw [pow_succ', ← Nat.div_div_eq_div_mul, Nat.add_mul_div_left _ _ (by norm_num),
          Nat.div_eq_of_lt ha, Nat.zero_add]
      simp only [pack, List.getD_cons_succ]
      rw [e]
      exact ih (fun b hb' => hb b (List.mem_cons_of_mem _ hb')) j

/-- Reading a packed buffer is taking a digit. -/
theorem img_getD (L : List Nat) (hb : ∀ a ∈ L, a < 1048576) (j : Nat) :
    (img L).getD j 0 = dig (pack L) j := by
  unfold img dig
  rw [pack_div L hb j, List.getD_eq_getElem?_getD, List.getD_eq_getElem?_getD,
    List.getElem?_map]
  cases L[j]? <;> rfl

theorem img_get (L : List Nat) (hb : ∀ a ∈ L, a < 1048576) (i : Nat) (hi : i < L.length) :
    (img L)[i]? = some (dig (pack L) i) := by
  have h := img_getD L hb i
  rw [List.getD_eq_getElem?_getD] at h
  have hl : i < (img L).length := by unfold img; rw [List.length_map]; exact hi
  rw [List.getElem?_eq_getElem hl] at h ⊢
  exact congrArg some h

theorem sq_getD (j : Nat) : brightSquare.getD j 0 = sqPixel j := by
  unfold brightSquare sqPixel
  by_cases hj : j < 400
  · rw [if_pos hj, List.getD_eq_getElem?_getD, List.getElem?_map, List.getElem?_range hj]
    rfl
  · rw [if_neg hj, List.getD_eq_getElem?_getD, List.getElem?_eq_none (by simp; omega)]
    rfl

theorem sq_length : brightSquare.length = 400 := by
  unfold brightSquare
  rw [List.length_map, List.length_range]

theorem ringImage_get (ring : Nat → Nat → Bool) (i : Nat) (hi : i < 400) :
    (ringImage ring)[i]? = some (if ring (i % 20) (i / 20) then 0 else 255) := by
  unfold ringImage
  rw [List.getElem?_map, List.getElem?_range hi]
  rfl

theorem ringImage_length (ring : Nat → Nat → Bool) : (ringImage ring).length = 400 := by
  unfold ringImage
  rw [List.length_map, List.length_range]

/-- A stage whose closed form evaluates to the digits of `L` returns `img L`. -/
theorem stage_eq {r : Option Buf} {t : Buf} (n : Nat) (F : Nat → Int) (L : List Nat)
    (hr : r = some t)
    (hc : ∃ out, r = some out ∧ out.length = n ∧ ∀ i, i < n → out[i]? = some (F i))
    (hL : L.length = n) (hb : ∀ a ∈ L, a < 1048576)
    (hF : ∀ i, i < n → F i = dig (pack L) i) : t = img L := by
  obtain ⟨out, e, l, v⟩ := hc
  have ht : t = out := Option.some.inj (hr.symm.trans e)
  rw [ht]
  refine buf_ext out (img L) n F l (by unfold img; rw [List.length_map, hL]) v (fun i hi => ?_)
  rw [img_get L hb i (by omega), hF i hi]

set_option maxRecDepth 100000 in
theorem sqBlurred_length : sqBlurred.length = 400 := by
  decide!

set_option maxRecDepth 100000 in
theorem sqBlurredHalf_length : sqBlurredHalf.length = 100 := by
  decide!

set_option maxRecDepth 100000 in
theorem sqMagHalf_length : sqMagHalf.length = 100 := by
  decide!

set_option maxRecDepth 100000 in
theorem sqMag_length : sqMag.length = 400 := by
  decide!

set_option maxRecDepth 100000 in
theorem sqThreshHalf_length : sqThreshHalf.length = 100 := by
  decide!

set_option maxRecDepth 100000 in
theorem sqFiltThresh_length : sqFiltThresh.length = 100 := by
  decide!

set_option maxRecDepth 100000 in
theorem sqFiltMag_length : sqFiltMag.length = 100 := by
  decide!

set_option maxRecDepth 100000 in
theorem sqAdaptiveHalf_length : sqAdaptiveHalf.length = 100 := by
  decide!

set_option maxRecDepth 100000 in
theorem sqAdaptive_length : sqAdaptive.length = 400 := by
  decide!

set_option maxRecDepth 100000 in
theorem sqClasses_length : sqClasses.length = 400 := by
  decide!

set_option maxRecDepth 100000 in
theorem sqBlurred_small : ∀ a ∈ sqBlurred, a < 1048576 := by
  decide!

set_option maxRecDepth 100000 in
theorem sqBlurredHalf_small : ∀ a ∈ sqBlurredHalf, a < 1048576 := by
  decide!

set_option maxRecDepth 100000 in
theorem sqMagHalf_small : ∀ a ∈ sqMagHalf, a < 1048576 := by
  decide!

set_option maxRecDepth 100000 in
theorem sqMag_small : ∀ a ∈ sqMag, a < 1048576 := by
  decide!

set_option maxRecDepth 100000 in
theorem sqThreshHalf_small : ∀ a ∈ sqThreshHalf, a < 1048576 := by
  decide!

set_option maxRecDepth 100000 in
theorem sqFiltThresh_small : ∀ a ∈ sqFiltThresh, a < 1048576 := by
  decide!

set_option maxRecDepth 100000 in
theorem sqFiltMag_small : ∀ a ∈ sqFiltMag, a < 1048576 := by
  decide!

set_option maxRecDepth 100000 in
theorem sqAdaptiveHalf_small : ∀ a ∈ sqAdaptiveHalf, a < 1048576 := by
  decide!

set_option maxRecDepth 100000 in
theorem sqAdaptive_small : ∀ a ∈ sqAdaptive, a < 1048576 := by
  decide!

set_option maxRecDepth 100000 in
theorem sqClasses_small : ∀ a ∈ sqClasses, a < 1048576 := by
  decide!

set_option maxRecDepth 100000 in
set_option maxHeartbeats 4000000 in
theorem sq_grey : ∀ i, i < 400 →
    greyFlat brightSquare 1 false i
      = sqPixel i := by
  simp only [greyFlat, chanSum, sq_getD]
  decide!

set_option maxRecDepth 100000 in
set_option maxHeartbeats 4000000 in
theorem sq_blur : ∀ i, i < 400 →
    blurFlat (fun a b => a + b) u8 brightSquare 20 20 i
      = dig (pack sqBlurred) i := by
  simp only [blurFlat, blurValue, px, sq_getD]
  decide!

set_option maxRecDepth 100000 in
set_option maxHeartbeats 4000000 in
theorem sq_down : ∀ i, i < 100 →
    downFlat (img sqBlurred) 20 10 i
      = dig (pack sqBlurredHalf) i := by
  have h0 := img_getD sqBlurred sqBlurred_small
  simp only [downFlat, px, h0]
  decide!

set_option maxRecDepth 100000 in
set_option maxHeartbeats 4000000 in
theorem sq_magnitude : ∀ i, i < 100 →
    magFlat (img sqBlurredHalf) 10 10 i
      = dig (pack sqMagHalf) i := by
  have h0 := img_getD sqBlurredHalf sqBlurredHalf_small
  simp only [magFlat, magValue, px, h0]
  decide!

set_option maxRecDepth 100000 in
set_option maxHeartbeats 4000000 in
theorem sq_upsizei : ∀ i, i < 400 →
    upsizeFlat (fun a b => wrap32 (a + b)) id (img sqMagHalf) 10 10 20 20 i
      = dig (pack sqMag) i := by
  have h0 := img_getD sqMagHalf sqMagHalf_small
  simp only [upsizeFlat, upsizeAt, upEven, upRowValue, px, h0]
  decide!

set_option maxRecDepth 100000 in
set_option maxHeartbeats 4000000 in
theorem sq_multiply : ∀ i, i < 100 →
    wrap32 ((img sqBlurredHalf).getD i 0 * (img sqMagHalf).getD i 0)
      = dig (pack sqThreshHalf) i := by
  have h0 := img_getD sqBlurredHalf sqBlurredHalf_small
  have h1 := img_getD sqMagHalf sqMagHalf_small
  simp only [h0, h1]
  decide!

set_option maxRecDepth 100000 in
set_option maxHeartbeats 4000000 in
theorem sq_bluri_thresh : ∀ i, i < 100 →
    blurFlat (fun a b => wrap32 (a + b)) id (img sqThreshHalf) 10 10 i
      = dig (pack sqFiltThresh) i := by
  have h0 := img_getD sqThreshHalf sqThreshHalf_small
  simp only [blurFlat, blurValue, px, h0]
  decide!

set_option maxRecDepth 100000 in
set_option maxHeartbeats 4000000 in
theorem sq_bluri_mag : ∀ i, i < 100 →
    blurFlat (fun a b => wrap32 (a + b)) id (img sqMagHalf) 10 10 i
      = dig (pack sqFiltMag) i := by
  have h0 := img_getD sqMagHalf sqMagHalf_small
  simp only [blurFlat, blurValue, px, h0]
  decide!

set_option maxRecDepth 100000 in
set_option maxHeartbeats 4000000 in
theorem sq_divide : ∀ i, i < 100 →
    divValue ((img sqFiltThresh).getD i 0) ((img sqFiltMag).getD i 0)
      = dig (pack sqAdaptiveHalf) i := by
  have h0 := img_getD sqFiltThresh sqFiltThresh_small
  have h1 := img_getD sqFiltMag sqFiltMag_small
  simp only [h0, h1]
  decide!

set_option maxRecDepth 100000 in
set_option maxHeartbeats 4000000 in
theorem sq_upsize : ∀ i, i < 400 →
    upsizeFlat (fun a b => a + b) u8 (img sqAdaptiveHalf) 10 10 20 20 i
      = dig (pack sqAdaptive) i := by
  have h0 := img_getD sqAdaptiveHalf sqAdaptiveHalf_small
  simp only [upsizeFlat, upsizeAt, upEven, upRowValue, px, h0]
  decide!

set_option maxRecDepth 100000 in
set_option maxHeartbeats 4000000 in
theorem sq_classify : ∀ i, i < 400 →
    classify ((img sqBlurred).getD i 0) ((img sqMag).getD i 0) ((img sqAdaptive).getD i 0) 10
      = dig (pack sqClasses) i := by
  have h0 := img_getD sqBlurred sqBlurred_small
  have h1 := img_getD sqMag sqMag_small
  have h2 := img_getD sqAdaptive sqAdaptive_small
  simp only [h0, h1, h2]
  decide!

set_option maxRecDepth 100000 in
set_option maxHeartbeats 4000000 in
theorem sq_filter : ∀ i, i < 400 →
    filterFlat (img sqClasses) 20 20 1 1 i
      = (if outerRing (i % 20) (i / 20) then 0 else 255) := by
  have h0 := img_getD sqClasses sqClasses_small
  simp only [filterFlat, filterSample, edgeValue, px, h0]
  decide!

/-- The bright square through the whole pipeline with the manual threshold 10,
for every set of scratch buffers of the allocated sizes: the classification and
the result handed back to the host. -/
theorem brightSquare_stages (m : Scratch) (hm : m.Sized 20 20 1) :
    ∃ t, edgeStages brightSquare m 20 20 1 false 10 = some t ∧
      t.classes = img sqClasses ∧ t.out = ringImage outerRing := by
  obtain ⟨t, ht, e1, e2, e3, e4, e5, e6, e7, e8, e9, e10, e11, e12, l1, l2, l3, l4, l5, l6,
    l7, l8⟩ := edgeStages_safe brightSquare m 20 20 1 false 10 (by decide) (by decide)
      (by decide) sq_length hm
  obtain ⟨mo, mbl, mbh, mbu, mth, mmag, mmh, mft, mfm⟩ := hm
  have g1 : t.grey = brightSquare := by
    obtain ⟨out, e, l, v⟩ := greyscale_closed brightSquare m.buffer 400 1 false (by decide)
      sq_length mbu
    have ht : t.grey = out := Option.some.inj (e1.symm.trans e)
    rw [ht]
    refine buf_ext out brightSquare 400 sqPixel l sq_length
      (fun i hi => by rw [v i hi, sq_grey i hi]) (fun i hi => ?_)
    have h := sq_getD i
    rw [List.getD_eq_getElem?_getD, List.getElem?_eq_getElem (by rw [sq_length]; exact hi),
      Option.getD_some] at h
    rw [List.getElem?_eq_getElem (by rw [sq_length]; exact hi), h]
  have g2 : t.blurred = img sqBlurred :=
    stage_eq 400 _ sqBlurred e2
      (blur_closed t.grey m.blurred 20 20 (by decide) (by decide) l1 mbl) sqBlurred_length sqBlurred_small
      (by rw [g1]; exact sq_blur)
  have g3 : t.blurredHalf = img sqBlurredHalf :=
    stage_eq 100 _ sqBlurredHalf e3 (downsize_closed t.blurred m.blurredHalf 20 20 l2 mbh) sqBlurredHalf_length
      sqBlurredHalf_small (by rw [g2]; exact sq_down)
  have g4 : t.magHalf = img sqMagHalf :=
    stage_eq 100 _ sqMagHalf e4
      (magnitude_closed t.blurredHalf m.magHalf 10 10 (by decide) (by decide) l3 mmh) sqMagHalf_length
      sqMagHalf_small (by rw [g3]; exact sq_magnitude)
  have g5 : t.mag = img sqMag :=
    stage_eq 400 _ sqMag e5
      (upsizei_closed t.magHalf m.mag 10 10 20 20 (by decide) (by decide) (Or.inl rfl)
        (Or.inl rfl) l4 mmag) sqMag_length sqMag_small (by rw [g4]; exact sq_upsizei)
  have g6 : t.threshHalf = img sqThreshHalf :=
    stage_eq 100 _ sqThreshHalf e6
      (multiply_closed t.blurredHalf t.magHalf m.threshHalf 100 l3 l4 mth) sqThreshHalf_length
      sqThreshHalf_small (by rw [g3, g4]; exact sq_multiply)
  have l6' : t.threshHalf.length = 100 := by
    rw [g6]; unfold img; rw [List.length_map, sqThreshHalf_length]
  have g7 : t.filtThresh = img sqFiltThresh :=
    stage_eq 100 _ sqFiltThresh e7
      (bluri_closed t.threshHalf m.filtThresh 10 10 (by decide) (by decide) l6' mft) sqFiltThresh_length
      sqFiltThresh_small (by rw [g6]; exact sq_bluri_thresh)
  have g8 : t.filtMag = img sqFiltMag :=
    stage_eq 100 _ sqFiltMag e8
      (bluri_closed t.magHalf m.filtMag 10 10 (by decide) (by decide) l4 mfm) sqFiltMag_length
      sqFiltMag_small (by rw [g4]; exact sq_bluri_mag)
  have l7' : t.filtThresh.length = 100 := by
    rw [g7]; unfold img; rw [List.length_map, sqFiltThresh_length]
  have l8' : t.filtMag.length = 100 := by
    rw [g8]; unfold img; rw [List.length_map, sqFiltMag_length]
  have g9 : t.adaptiveHalf = img sqAdaptiveHalf :=
    stage_eq 100 _ sqAdaptiveHalf e9
      (divide_closed t.filtThresh t.filtMag t.blurredHalf 100 l7' l8' l3) sqAdaptiveHalf_length
      sqAdaptiveHalf_small (by rw [g7, g8]; exact sq_divide)
  have l9' : t.adaptiveHalf.length = 100 := by
    rw [g9]; unfold img; rw [List.length_map, sqAdaptiveHalf_length]
  have g10 : t.adaptive = img sqAdaptive :=
    stage_eq 400 _ sqAdaptive e10
      (upsize_closed t.adaptiveHalf t.grey 10 10 20 20 (by decide) (by decide) (Or.inl rfl)
        (Or.inl rfl) l9' l1) sqAdaptive_length sqAdaptive_small (by rw [g9]; exact sq_upsize)
  have g11 : t.classes = img sqClasses :=
    stage_eq 400 _ sqClasses e11
      (apply_threshold_closed t.blurred t.mag t.adaptive 400 10 l2 l5 l6) sqClasses_length sqClasses_small
      (by rw [g2, g5, g10]; exact sq_classify)
  refine ⟨t, ht, g11, ?_⟩
  obtain ⟨out, e, l, v⟩ := filter_closed t.classes m.out 20 20 1 false (by decide) (by decide)
    l7 mo
  have ho : t.out = out := Option.some.inj (e12.symm.trans e)
  rw [ho]
  refine buf_ext out (ringImage outerRing) 400
    (fun i => if outerRing (i % 20) (i / 20) then 0 else 255) (by rw [l, mo]) (ringImage_length _)
    (fun i hi => ?_) (fun i hi => ringImage_get outerRing i hi)
  rw [v i (by rw [mo]; exact hi), g11]
  exact congrArg some (sq_filter i hi)

/-- The result of `edge` on the bright square with the manual threshold 10. -/
theorem edge_brightSquare (m : Scratch) (hm : m.Sized 20 20 1) :
    edge brightSquare m 20 20 1 false 10 = some (ringImage outerRing) := by
  obtain ⟨t, ht, _, ho⟩ := brightSquare_stages m hm
  unfold edge
  rw [ht, Option.map_some', ho]

/-! ## Claims about `filter` -/

/-- C1 (ConnectivityFilter rule).  For a classification buffer of width and
height at least 3 with arbitrary contents, `filter` stays inside its buffers and
every non-alpha sample of every interior pixel `(x, y)` is 0 exactly when the
classification at `(x, y)` is 0 and one of the eight neighbours is 255, and is
255 otherwise. -/
theorem filter_interior_rule (cls out0 : Buf) (W H channels : Nat) (alpha : Bool)
    (hW : 3 ≤ W) (hH : 3 ≤ H) (hcls : cls.length = W * H)
    (hout : out0.length = W * H * (channels + (if alpha then 1 else 0))) :
    ∃ out, filter cls out0 W H channels alpha = some out ∧
      ∀ x y c, 1 ≤ x → x + 2 ≤ W → 1 ≤ y → y + 2 ≤ H → c < channels →
        out[(y * W + x) * (channels + (if alpha then 1 else 0)) + c]? =
          some (if px cls W x y = 0 ∧
              (px cls W (x - 1) (y - 1) = 255 ∨ px cls W x (y - 1) = 255 ∨
               px cls W (x + 1) (y - 1) = 255 ∨ px cls W (x - 1) y = 255 ∨
               px cls W (x + 1) y = 255 ∨ px cls W (x - 1) (y + 1) = 255 ∨
               px cls W x (y + 1) = 255 ∨ px cls W (x + 1) (y + 1) = 255)
            then 0 else 255) := by
  obtain ⟨out, ho, _, hval⟩ := filter_closed cls out0 W H channels alpha (by omega) (by omega)
    hcls hout
  refine ⟨out, ho, ?_⟩
  intro x y c hx1 hx2 hy1 hy2 hc
  obtain ⟨t, rfl⟩ : ∃ t, x = t + 1 := ⟨x - 1, by omega⟩
  obtain ⟨r, rfl⟩ : ∃ r, y = r + 1 := ⟨y - 1, by omega⟩
  have hp : (r + 1) * W + (t + 1) + 1 ≤ W * H := by nlinarith
  have hlt : ((r + 1) * W + (t + 1)) * (channels + (if alpha then 1 else 0)) + c
      < out0.length := by
    have h1 := Nat.mul_le_mul_right (channels + (if alpha then 1 else 0)) hp
    rw [hout]
    have e : ((r + 1) * W + (t + 1) + 1) * (channels + (if alpha then 1 else 0))
        = ((r + 1) * W + (t + 1)) * (channels + (if alpha then 1 else 0))
          + (channels + (if alpha then 1 else 0)) := by ring
    omega
  rw [hval _ hlt, filterFlat_eq _ _ _ _ _ _ _ (by omega),
    filterSample_inner _ _ _ _ _ _ _ (by omega) (by omega), if_pos hc]
  rfl

/-- Witness of C1 on a 3 x 3 classification with one channel and no alpha. -/
theorem filter_interior_rule_witness :
    (3 ≤ 3 ∧ 3 ≤ 3) ∧
    ∃ out, filter [255, 255, 255, 0, 0, 0, 128, 128, 128] (List.replicate 9 7) 3 3 1 false
        = some out ∧
      ∀ x y c, 1 ≤ x → x + 2 ≤ 3 → 1 ≤ y → y + 2 ≤ 3 → c < 1 →
        out[(y * 3 + x) * (1 + (if false = true then 1 else 0)) + c]? =
          some (if px [255, 255, 255, 0, 0, 0, 128, 128, 128] 3 x y = 0 ∧
              (px [255, 255, 255, 0, 0, 0, 128, 128, 128] 3 (x - 1) (y - 1) = 255 ∨
               px [255, 255, 255, 0, 0, 0, 128, 128, 128] 3 x (y - 1) = 255 ∨
               px [255, 255, 255, 0, 0, 0, 128, 128, 128] 3 (x + 1) (y - 1) = 255 ∨
               px [255, 255, 255, 0, 0, 0, 128, 128, 128] 3 (x - 1) y = 255 ∨
               px [255, 255, 255, 0, 0, 0, 128, 128, 128] 3 (x + 1) y = 255 ∨
               px [255, 255, 255, 0, 0, 0, 128, 128, 128] 3 (x - 1) (y + 1) = 255 ∨
               px [255, 255, 255, 0, 0, 0, 128, 128, 128] 3 x (y + 1) = 255 ∨
               px [255, 255, 255, 0, 0, 0, 128, 128, 128] 3 (x + 1) (y + 1) = 255)
            then 0 else 255) :=
  ⟨⟨by decide, by decide⟩,
    filter_interior_rule [255, 255, 255, 0, 0, 0, 128, 128, 128] (List.replicate 9 7) 3 3 1
      false (by decide) (by decide) (by decide) (by decide)⟩

/-- C2 (binary output law).  For a field of at least 2 x 2 pixels, at least one
non-alpha channel and either alpha flag, `filter` stays inside an output buffer
of exactly `W * H * (channels + alpha)` samples, overwrites every one of them
(the initial contents are arbitrary) with 0 or 255, and every alpha sample is
255. -/
theorem filter_binary_output (cls out0 : Buf) (W H channels : Nat) (alpha : Bool)
    (hW : 2 ≤ W) (hH : 2 ≤ H) (_hch : 1 ≤ channels) (hcls : cls.length = W * H)
    (hout : out0.length = W * H * (channels + (if alpha then 1 else 0))) :
    ∃ out, filter cls out0 W H channels alpha = some out ∧
      out.length = W * H * (channels + (if alpha then 1 else 0)) ∧
      (∀ i, i < W * H * (channels + (if alpha then 1 else 0)) →
        out[i]? = some 0 ∨ out[i]? = some 255) ∧
      (alpha = true → ∀ p, p < W * H → out[p * (channels + 1) + channels]? = some 255) := by
  obtain ⟨out, ho, hlen, hval⟩ := filter_closed cls out0 W H channels alpha hW hH hcls hout
  refine ⟨out, ho, by rw [hlen, hout], ?_, ?_⟩
  · intro i hi
    rw [hval i (by rw [hout]; exact hi)]
    unfold filterFlat filterSample edgeValue
    split_ifs <;> simp
  · intro ha p hp
    subst ha
    have hlt : p * (channels + 1) + channels < out0.length := by
      rw [hout]
      have h1 := Nat.mul_le_mul_right (channels + 1) (show p + 1 ≤ W * H from hp)
      have e : (p + 1) * (channels + 1) = p * (channels + 1) + (channels + 1) := by ring
      simp only [if_true]
      omega
    have := hval _ hlt
    simp only [if_true] at this
    rw [this, filterFlat_eq _ _ _ _ _ _ _ (by omega)]
    unfold filterSample
    split_ifs <;> first | rfl | omega

/-- Witness of C2 on a 2 x 3 classification with one channel and alpha. -/
theorem filter_binary_output_witness :
    (2 ≤ 2 ∧ 2 ≤ 3 ∧ 1 ≤ 1) ∧
    ∃ out, filter [0, 255, 0, 255, 0, 255] (List.replicate 12 7) 2 3 1 true = some out ∧
      out.length = 2 * 3 * (1 + (if true = true then 1 else 0)) ∧
      (∀ i, i < 2 * 3 * (1 + (if true = true then 1 else 0)) →
        out[i]? = some 0 ∨ out[i]? = some 255) ∧
      (true = true → ∀ p, p < 2 * 3 → out[p * (1 + 1) + 1]? = some 255) :=
  ⟨⟨by decide, by decide, by decide⟩,
    filter_binary_output [0, 255, 0, 255, 0, 255] (List.replicate 12 7) 2 3 1 true (by decide)
      (by decide) (by decide) (by decide) (by decide)⟩

/-- C3 (border law).  For width and height at least 3, every channel layout and
every classification buffer, all samples of every pixel of the output of
`filter` in the first or last row or the first or last column are 255. -/
theorem filter_border_law (cls out0 : Buf) (W H channels : Nat) (alpha : Bool)
    (hW : 3 ≤ W) (hH : 3 ≤ H) (hcls : cls.length = W * H)
    (hout : out0.length = W * H * (channels + (if alpha then 1 else 0))) :
    ∃ out, filter cls out0 W H channels alpha = some out ∧
      ∀ x y j, x < W → y < H → (x = 0 ∨ y = 0 ∨ x + 1 = W ∨ y + 1 = H) →
        j < channels + (if alpha then 1 else 0) →
        out[(y * W + x) * (channels + (if alpha then 1 else 0)) + j]? = some 255 := by
  obtain ⟨out, ho, _, hval⟩ := filter_closed cls out0 W H channels alpha (by omega) (by omega)
    hcls hout
  refine ⟨out, ho, ?_⟩
  intro x y j hx hy hb hj
  have hp : y * W + x + 1 ≤ W * H := by nlinarith
  have hlt : (y * W + x) * (channels + (if alpha then 1 else 0)) + j < out0.length := by
    have h1 := Nat.mul_le_mul_right (channels + (if alpha then 1 else 0)) hp
    rw [hout]
    have e : (y * W + x + 1) * (channels + (if alpha then 1 else 0))
        = (y * W + x) * (channels + (if alpha then 1 else 0))
          + (channels + (if alpha then 1 else 0)) := by ring
    omega
  rw [hval _ hlt, filterFlat_eq _ _ _ _ _ _ _ hj, filterSample_border]
  rw [coord_mod y W x hx, coord_div y W x hx]
  exact hb

/-- Witness of C3 on a 3 x 4 classification with three channels and alpha. -/
theorem filter_border_law_witness :
    (3 ≤ 3 ∧ 3 ≤ 4) ∧
    ∃ out, filter (List.replicate 12 0) (List.replicate 48 7) 3 4 3 true = some out ∧
      ∀ x y j, x < 3 → y < 4 → (x = 0 ∨ y = 0 ∨ x + 1 = 3 ∨ y + 1 = 4) →
        j < 3 + (if true = true then 1 else 0) →
        out[(y * 3 + x) * (3 + (if true = true then 1 else 0)) + j]? = some 255 :=
  ⟨⟨by decide, by decide⟩,
    filter_border_law (List.replicate 12 0) (List.replicate 48 7) 3 4 3 true (by decide)
      (by decide) (by decide) (by decide)⟩

/-! ## Claim about `apply_threshold` -/

/-- C4 (classifier rule).  For every size, every global threshold and all fields
`blurred`, `mag` and `buffer` of that size, `apply_threshold` stays inside its
buffers and replaces `blurred[i]`, at every index `i`, by 0 when
`mag[i] > threshold` and `blurred[i] <= buffer[i]`, by 255 when
`mag[i] > threshold` and `blurred[i] > buffer[i]`, and by 128 when
`mag[i] <= threshold`; so each result sample is 0, 128 or 255 and is a function
of the three inputs at index `i` only. -/
theorem apply_threshold_rule (blurred mag buffer : Buf) (size : Nat) (threshold : Int)
    (hbl : blurred.length = size) (hmag : mag.length = size) (hbuf : buffer.length = size) :
    ∃ out, apply_threshold blurred mag buffer size threshold = some out ∧ out.length = size ∧
      ∀ i, i < size →
        (mag.getD i 0 > threshold → blurred.getD i 0 ≤ buffer.getD i 0 → out[i]? = some 0) ∧
        (mag.getD i 0 > threshold → blurred.getD i 0 > buffer.getD i 0 →
          out[i]? = some 255) ∧
        (mag.getD i 0 ≤ threshold → out[i]? = some 128) ∧
        (out[i]? = some 0 ∨ out[i]? = some 128 ∨ out[i]? = some 255) := by
  obtain ⟨out, ho, hlen, hval⟩ := apply_threshold_closed blurred mag buffer size threshold hbl
    hmag hbuf
  refine ⟨out, ho, hlen, fun i hi => ?_⟩
  rw [hval i hi]
  unfold classify
  refine ⟨fun h1 h2 => by rw [if_pos h1, if_pos h2], fun h1 h2 => by
    rw [if_pos h1, if_neg (by omega)], fun h1 => by rw [if_neg (by omega)], ?_⟩
  split_ifs <;> simp

/-- Witness of C4 on four pixels with global threshold 4. -/
theorem apply_threshold_rule_witness :
    ([1, 2, 3, 4].length = 4 ∧ [5, 5, 0, 9].length = 4 ∧ [1, 1, 1, 1].length = 4) ∧
    ∃ out, apply_threshold [1, 2, 3, 4] [5, 5, 0, 9] [1, 1, 1, 1] 4 4 = some out ∧
      out.length = 4 ∧
      ∀ i, i < 4 →
        (([5, 5, 0, 9] : Buf).getD i 0 > 4 →
          ([1, 2, 3, 4] : Buf).getD i 0 ≤ ([1, 1, 1, 1] : Buf).getD i 0 → out[i]? = some 0) ∧
        (([5, 5, 0, 9] : Buf).getD i 0 > 4 →
          ([1, 2, 3, 4] : Buf).getD i 0 > ([1, 1, 1, 1] : Buf).getD i 0 →
          out[i]? = some 255) ∧
        (([5, 5, 0, 9] : Buf).getD i 0 ≤ 4 → out[i]? = some 128) ∧
        (out[i]? = some 0 ∨ out[i]? = some 128 ∨ out[i]? = some 255) :=
  ⟨⟨rfl, rfl, rfl⟩,
    apply_threshold_rule [1, 2, 3, 4] [5, 5, 0, 9] [1, 1, 1, 1] 4 4 rfl rfl rfl⟩

/-! ## Claim about `magnitude` -/

/-- C5, as stated, fails: on the 3 x 3 field that is 255 in the top left corner
and 0 elsewhere the two diagonal differences at the centre are 255 and 0, so the
formula of the claim gives 255, while `magnitude` writes 0 there. -/
theorem magnitude_not_diagonal :
    magnitude [255, 0, 0, 0, 0, 0, 0, 0, 0] (List.replicate 9 7) 3 3
      = some [0, 0, 0, 0, 0, 0, 0, 0, 0] ∧
    diagonalMagnitude [255, 0, 0, 0, 0, 0, 0, 0, 0] 3 1 1 = 255 := by
  constructor <;> decide

/-- C5, amended (GradientMagnitude formula).  For a field of width and height at
least 3 and every interior pixel `(x, y)`, `magnitude` stays inside its buffers
and writes `max a b + min a b / 3` (truncating division), where `a` is the
absolute difference of the right and left neighbours of `(x, y)` and `b` that
of the lower and upper neighbours. -/
theorem magnitude_central_rule (inp out0 : Buf) (w h : Nat) (hw : 3 ≤ w) (hh : 3 ≤ h)
    (hinp : inp.length = w * h) (hout : out0.length = w * h) :
    ∃ out, magnitude inp out0 w h = some out ∧
      ∀ x y, 1 ≤ x → x + 2 ≤ w → 1 ≤ y → y + 2 ≤ h →
        out[y * w + x]? = some
          (max ((px inp w (x + 1) y - px inp w (x - 1) y).natAbs : Int)
              ((px inp w x (y + 1) - px inp w x (y - 1)).natAbs : Int)
            + min ((px inp w (x + 1) y - px inp w (x - 1) y).natAbs : Int)
              ((px inp w x (y + 1) - px inp w x (y - 1)).natAbs : Int) / 3) := by
  obtain ⟨out, ho, _, hval⟩ := magnitude_closed inp out0 w h (by omega) (by omega) hinp hout
  refine ⟨out, ho, ?_⟩
  intro x y hx1 hx2 hy1 hy2
  obtain ⟨t, rfl⟩ : ∃ t, x = t + 1 := ⟨x - 1, by omega⟩
  obtain ⟨r, rfl⟩ : ∃ r, y = r + 1 := ⟨y - 1, by omega⟩
  have hp : (r + 1) * w + (t + 1) + 1 ≤ w * h := by nlinarith
  rw [hval _ (by omega), magFlat_inner inp w h r t (by omega) (by omega)]
  unfold magValue magCombine
  generalize (px inp w (t + 1 + 1) (r + 1) - px inp w (t + 1 - 1) (r + 1)).natAbs = a
  generalize (px inp w (t + 1) (r + 1 + 1) - px inp w (t + 1) (r + 1 - 1)).natAbs = b
  have ha : Int.tdiv (a : Int) 3 = (a : Int) / 3 := Int.tdiv_eq_ediv (by omega) (by norm_num)
  have hb : Int.tdiv (b : Int) 3 = (b : Int) / 3 := Int.tdiv_eq_ediv (by omega) (by norm_num)
  rw [ha, hb]
  congr 1
  by_cases hab : (a : Int) > b
  · rw [if_pos hab, max_eq_left (by omega), min_eq_right (by omega)]
  · rw [if_neg hab, max_eq_right (by omega), min_eq_left (by omega)]

/-- Witness of the amended C5 on a 3 x 3 field. -/
theorem magnitude_central_rule_witness :
    (3 ≤ 3 ∧ 3 ≤ 3) ∧
    ∃ out, magnitude [0, 10, 0, 0, 0, 40, 0, 0, 0] (List.replicate 9 7) 3 3 = some out ∧
      ∀ x y, 1 ≤ x → x + 2 ≤ 3 → 1 ≤ y → y + 2 ≤ 3 →
        out[y * 3 + x]? = some
          (max ((px [0, 10, 0, 0, 0, 40, 0, 0, 0] 3 (x + 1) y
                - px [0, 10, 0, 0, 0, 40, 0, 0, 0] 3 (x - 1) y).natAbs : Int)
              ((px [0, 10, 0, 0, 0, 40, 0, 0, 0] 3 x (y + 1)
                - px [0, 10, 0, 0, 0, 40, 0, 0, 0] 3 x (y - 1)).natAbs : Int)
            + min ((px [0, 10, 0, 0, 0, 40, 0, 0, 0] 3 (x + 1) y
                - px [0, 10, 0, 0, 0, 40, 0, 0, 0] 3 (x - 1) y).natAbs : Int)
              ((px [0, 10, 0, 0, 0, 40, 0, 0, 0] 3 x (y + 1)
                - px [0, 10, 0, 0, 0, 40, 0, 0, 0] 3 x (y - 1)).natAbs : Int) / 3) :=
  ⟨⟨by decide, by decide⟩,
    magnitude_central_rule [0, 10, 0, 0, 0, 40, 0, 0, 0] (List.replicate 9 7) 3 3 (by decide)
      (by decide) rfl rfl⟩

/-! ## Claim about `divide` -/

/-- C6, as stated, fails: for numerator -1 and denominator 1 the quotient is -1,
which the claim clamps to 0, while `divide` stores 255 (the quotient converted
to a byte): only the upper end is clamped. -/
theorem divide_negative_wraps :
    divide [-1] [1] [9] 1 = some [255] ∧ clampedQuotient (-1) 1 = 0 := by
  constructor <;> decide

/-- C6, amended (adaptive-threshold division).  For every size and all fields of
that size, `divide` stays inside its buffers; at every index whose numerator is
a non-negative 32-bit value and whose denominator is non-negative it stores
`min q 255`, which is `q` clamped to `[0, 255]`, where `q = a[i] / d` and
`d = 1` if `b[i] = 0`, else `b[i]`; the result is in `[0, 255]`, so the clamp
saturates at 255 and does not wrap. -/
theorem divide_saturates (a b out0 : Buf) (size : Nat) (ha : a.length = size)
    (hb : b.length = size) (ho : out0.length = size) :
    ∃ out, divide a b out0 size = some out ∧ out.length = size ∧
      ∀ i, i < size → 0 ≤ a.getD i 0 → a.getD i 0 < 2147483648 → 0 ≤ b.getD i 0 →
        out[i]? = some (min (a.getD i 0 / (if b.getD i 0 = 0 then 1 else b.getD i 0)) 255) ∧
        out[i]? = some (clampedQuotient (a.getD i 0) (b.getD i 0)) ∧
        0 ≤ out.getD i 0 ∧ out.getD i 0 ≤ 255 := by
  obtain ⟨out, hout, hlen, hval⟩ := divide_closed a b out0 size ha hb ho
  refine ⟨out, hout, hlen, fun i hi h0 h1 h2 => ?_⟩
  obtain ⟨e1, e2⟩ := divValue_nonneg (a.getD i 0) (b.getD i 0) h0 h1 h2
  have hv := hval i hi
  have hd' : 0 < (if b.getD i 0 = 0 then 1 else b.getD i 0) := by split_ifs <;> omega
  have hq0 : 0 ≤ a.getD i 0 / (if b.getD i 0 = 0 then 1 else b.getD i 0) :=
    Int.ediv_nonneg h0 (by omega)
  refine ⟨by rw [hv, e1], by rw [hv, e2], ?_⟩
  have hg : out.getD i 0 = min (a.getD i 0 / (if b.getD i 0 = 0 then 1 else b.getD i 0)) 255 := by
    rw [List.getD_eq_getElem?_getD, hv, e1, Option.getD_some]
  rw [hg]
  exact ⟨le_min hq0 (by norm_num), min_le_right _ _⟩

/-- Witness of the amended C6 on three samples, one with a zero denominator. -/
theorem divide_saturates_witness :
    ([1000, 7, 6].length = 3 ∧ [2, 0, 4].length = 3 ∧ [9, 9, 9].length = 3) ∧
    ∃ out, divide [1000, 7, 6] [2, 0, 4] [9, 9, 9] 3 = some out ∧ out.length = 3 ∧
      ∀ i, i < 3 → 0 ≤ ([1000, 7, 6] : Buf).getD i 0 →
        ([1000, 7, 6] : Buf).getD i 0 < 2147483648 → 0 ≤ ([2, 0, 4] : Buf).getD i 0 →
        out[i]? = some (min (([1000, 7, 6] : Buf).getD i 0 /
          (if ([2, 0, 4] : Buf).getD i 0 = 0 then 1 else ([2, 0, 4] : Buf).getD i 0)) 255) ∧
        out[i]? = some (clampedQuotient (([1000, 7, 6] : Buf).getD i 0)
          (([2, 0, 4] : Buf).getD i 0)) ∧
        0 ≤ out.getD i 0 ∧ out.getD i 0 ≤ 255 :=
  ⟨⟨rfl, rfl, rfl⟩, divide_saturates [1000, 7, 6] [2, 0, 4] [9, 9, 9] 3 rfl rfl rfl⟩

/-! ## Claims refuted by evaluation -/

/-- C7 fails on the code: the constant 2 x 2 field of value 200 is decimated to
the 1 x 1 field `[200]`, and `upsize` of that field to 2 x 2 writes 0 in the
second column (the local `curr` is never assigned when the half width is 1);
the 3 x 3 case loses the constant in the same way. -/
theorem upsize_constant_lost :
    downsize [200, 200, 200, 200] [7] 2 2 1 1 = some [200] ∧
    upsize [200] [7, 7, 7, 7] 1 1 2 2 = some [200, 0, 200, 0] ∧
    downsize [200, 200, 200, 200, 200, 200, 200, 200, 200] [7] 3 3 1 1 = some [200] ∧
    upsize [200] [7, 7, 7, 7, 7, 7, 7, 7, 7] 1 1 3 3
      = some [200, 100, 0, 200, 100, 0, 200, 100, 0] := by
  refine ⟨?_, ?_, ?_, ?_⟩ <;> decide

/-- C9 fails on the code: on a 1 x 3 field and on a 3 x 1 field each of `blur`,
`bluri`, `magnitude` and `filter` leaves its buffers (the model faults), because
the border rows and the two border columns are written unconditionally. -/
theorem degenerate_geometry_faults :
    blur [1, 2, 3] [7, 7, 7] 1 3 = none ∧ bluri [1, 2, 3] [7, 7, 7] 1 3 = none ∧
    magnitude [1, 2, 3] [7, 7, 7] 1 3 = none ∧ filter [0, 0, 0] [7, 7, 7] 1 3 1 false = none ∧
    blur [1, 2, 3] [7, 7, 7] 3 1 = none ∧ bluri [1, 2, 3] [7, 7, 7] 3 1 = none ∧
    magnitude [1, 2, 3] [7, 7, 7] 3 1 = none ∧ filter [0, 0, 0] [7, 7, 7] 3 1 1 false = none := by
  refine ⟨?_, ?_, ?_, ?_, ?_, ?_, ?_, ?_⟩ <;> decide

/-! ## Claims about the pipeline -/

/-- C8 (in-bounds pipeline, equal dimensions).  For every region of at least
4 x 4 pixels (either parity of each dimension), every channel layout with at
least one non-alpha channel, every input of `width * height * bpp` samples,
arbitrary initial contents of the scratch buffers and every threshold, all
stages of `edge` (greyscale, blur, downsize, magnitude, upsizei, multiply,
bluri twice, divide, upsize, apply_threshold, filter) run without leaving their
buffers, the full-resolution buffers holding `width * height` samples and the
half-resolution ones `(width / 2) * (height / 2)`, and the output has
`width * height * bpp` samples. -/
theorem edge_pipeline_in_bounds (inp : Buf) (m : Scratch) (width height bpp : Nat)
    (alpha : Bool) (threshold : Int) (hW : 4 ≤ width) (hH : 4 ≤ height)
    (hbpp : (if alpha then 1 else 0) < bpp)
    (hinp : inp.length = width * height * bpp) (hm : m.Sized width height bpp) :
    ∃ t, edgeStages inp m width height bpp alpha threshold = some t ∧
      edge inp m width height bpp alpha threshold = some t.out ∧
      t.grey.length = width * height ∧ t.blurred.length = width * height ∧
      t.blurredHalf.length = (width / 2) * (height / 2) ∧
      t.magHalf.length = (width / 2) * (height / 2) ∧ t.mag.length = width * height ∧
      t.adaptive.length = width * height ∧ t.classes.length = width * height ∧
      t.out.length = width * height * bpp := by
  obtain ⟨t, ht, _, _, _, _, _, _, _, _, _, _, _, _, l1, l2, l3, l4, l5, l10, l11, l12⟩ :=
    edgeStages_safe inp m width height bpp alpha threshold hW hH hbpp hinp hm
  refine ⟨t, ht, ?_, l1, l2, l3, l4, l5, l10, l11, l12⟩
  unfold edge
  rw [ht]
  rfl

/-- Witness of C8 on a 15 x 17 single-channel region, odd in both dimensions. -/
theorem edge_pipeline_in_bounds_witness :
    (4 ≤ 15 ∧ 4 ≤ 17) ∧
    ∃ t, edgeStages (List.replicate (15 * 17 * 1) 9) (scratchOf 15 17 1 7) 15 17 1 false 3
        = some t ∧
      edge (List.replicate (15 * 17 * 1) 9) (scratchOf 15 17 1 7) 15 17 1 false 3
        = some t.out ∧
      t.grey.length = 15 * 17 ∧ t.blurred.length = 15 * 17 ∧
      t.blurredHalf.length = (15 / 2) * (17 / 2) ∧
      t.magHalf.length = (15 / 2) * (17 / 2) ∧ t.mag.length = 15 * 17 ∧
      t.adaptive.length = 15 * 17 ∧ t.classes.length = 15 * 17 ∧
      t.out.length = 15 * 17 * 1 :=
  ⟨⟨by decide, by decide⟩,
    edge_pipeline_in_bounds (List.replicate (15 * 17 * 1) 9) (scratchOf 15 17 1 7) 15 17 1
      false 3 (by decide) (by decide) (by decide) (List.length_replicate _ _)
      (scratchOf_sized 15 17 1 7)⟩

/-- C10 (flat image).  For every region of at least 4 x 4 pixels whose intensity
(the greyscale value of every pixel) is one value `v` in `[0, 255]`, and every
global threshold that is not negative (0 in automatic mode), the half-resolution
magnitude field and its upsampled full-resolution field are all 0,
`apply_threshold` marks every pixel 128, and the output of `edge` is entirely
255. -/
theorem edge_flat_image (inp : Buf) (m : Scratch) (width height bpp : Nat) (alpha : Bool)
    (threshold v : Int) (hW : 4 ≤ width) (hH : 4 ≤ height)
    (hbpp : (if alpha then 1 else 0) < bpp)
    (hinp : inp.length = width * height * bpp) (hm : m.Sized width height bpp)
    (hv0 : 0 ≤ v) (hv1 : v ≤ 255) (ht : 0 ≤ threshold)
    (huni : ∀ p, p < width * height →
      greyFlat inp (if alpha then bpp - 1 else bpp) alpha p = v) :
    ∃ t, edgeStages inp m width height bpp alpha threshold = some t ∧
      t.magHalf = List.replicate ((width / 2) * (height / 2)) 0 ∧
      t.mag = List.replicate (width * height) 0 ∧
      t.classes = List.replicate (width * height) 128 ∧
      edge inp m width height bpp alpha threshold
        = some (List.replicate (width * height * bpp) 255) := by
  obtain ⟨t, ht', _, g4, g5, g6, g7⟩ := edgeStages_flat inp m width height bpp alpha threshold v
    hW hH hbpp hinp hm hv0 hv1 ht huni
  refine ⟨t, ht', g4, g5, g6, ?_⟩
  unfold edge
  rw [ht', ← g7]
  rfl

/-- Witness of C10 on the 10 x 10 single-channel image of value 128 with threshold 0. -/
theorem edge_flat_image_witness :
    (4 ≤ 10 ∧ 4 ≤ 10 ∧ (0 : Int) ≤ 128 ∧ (128 : Int) ≤ 255 ∧ (0 : Int) ≤ 0) ∧
    ∃ t, edgeStages (List.replicate (10 * 10 * 1) 128) (scratchOf 10 10 1 7) 10 10 1 false 0
        = some t ∧
      t.magHalf = List.replicate ((10 / 2) * (10 / 2)) 0 ∧
      t.mag = List.replicate (10 * 10) 0 ∧
      t.classes = List.replicate (10 * 10) 128 ∧
      edge (List.replicate (10 * 10 * 1) 128) (scratchOf 10 10 1 7) 10 10 1 false 0
        = some (List.replicate (10 * 10 * 1) 255) :=
  ⟨⟨by decide, by decide, by decide, by decide, by decide⟩,
    edge_flat_image (List.replicate (10 * 10 * 1) 128) (scratchOf 10 10 1 7) 10 10 1 false 0
      128 (by decide) (by decide) (by decide) (List.length_replicate _ _)
      (scratchOf_sized 10 10 1 7) (by decide) (by decide) (by decide)
      (fun p hp => greyFlat_replicate (10 * 10 * 1) 128 (by decide) (by decide) p
        (by omega))⟩
/-! ## Claims about the single stages -/

/-- C12 (downsample is stride-2 decimation).  For every width and height at
least 2, odd or even, `downsize` with `nw = w / 2` and `nh = h / 2` stays inside
both buffers, leaves the output at its `nw * nh` samples and, whatever the
output held before, stores at `(x, y)` the source sample `(2 x, 2 y)`:
`dst[y * nw + x] = src[2 * y * w + 2 * x]`, an index below `w * h`; no other
source sample enters the result. -/
theorem downsize_decimates (src out0 : Buf) (w h : Nat) (hw : 2 ≤ w) (hh : 2 ≤ h)
    (hsrc : src.length = w * h) (hout : out0.length = (w / 2) * (h / 2)) :
    ∃ out, downsize src out0 w h (w / 2) (h / 2) = some out ∧
      out.length = (w / 2) * (h / 2) ∧
      ∀ x y, x < w / 2 → y < h / 2 →
        2 * y * w + 2 * x < w * h ∧
        out[y * (w / 2) + x]? = some (src.getD (2 * y * w + 2 * x) 0) ∧
        out[y * (w / 2) + x]? = src[2 * y * w + 2 * x]? := by
  have _ := hw
  have _ := hh
  obtain ⟨out, ho, hl, hval⟩ := downsize_closed src out0 w h hsrc hout
  refine ⟨out, ho, hl, fun x y hx hy => ?_⟩
  have hb : 2 * y * w + 2 * x < w * h := by
    have h1 : 2 * y + 2 ≤ h := by omega
    have h2 : (2 * y + 2) * w ≤ h * w := Nat.mul_le_mul_right w h1
    have h3 : (2 * y + 2) * w = 2 * y * w + 2 * w := by ring
    have h4 : h * w = w * h := Nat.mul_comm _ _
    omega
  have hi : y * (w / 2) + x < (w / 2) * (h / 2) := by
    have h1 : y + 1 ≤ h / 2 := hy
    have h2 : (y + 1) * (w / 2) ≤ (h / 2) * (w / 2) := Nat.mul_le_mul_right _ h1
    have h3 : (y + 1) * (w / 2) = y * (w / 2) + w / 2 := by ring
    have h4 : (h / 2) * (w / 2) = (w / 2) * (h / 2) := Nat.mul_comm _ _
    omega
  have hv := hval _ hi
  rw [downFlat, coord_mod y (w / 2) x hx, coord_div y (w / 2) x hx] at hv
  have e : px src w (2 * x) (2 * y) = src.getD (2 * y * w + 2 * x) 0 := rfl
  rw [e] at hv
  refine ⟨hb, hv, ?_⟩
  rw [hv, List.getD_eq_getElem?_getD, List.getElem?_eq_getElem (by omega)]
  simp

/-- Witness of C12 on a 5 x 3 field (odd width and height). -/
theorem downsize_decimates_witness :
    (2 ≤ 5 ∧ 2 ≤ 3) ∧
    ∃ out, downsize [1, 2, 3, 4, 5, 6, 7, 8, 9, 10, 11, 12, 13, 14, 15] [77, 77] 5 3 (5 / 2)
        (3 / 2) = some out ∧
      out.length = (5 / 2) * (3 / 2) ∧
      ∀ x y, x < 5 / 2 → y < 3 / 2 →
        2 * y * 5 + 2 * x < 5 * 3 ∧
        out[y * (5 / 2) + x]? = some
          (([1, 2, 3, 4, 5, 6, 7, 8, 9, 10, 11, 12, 13, 14, 15] : Buf).getD
            (2 * y * 5 + 2 * x) 0) ∧
        out[y * (5 / 2) + x]? =
          ([1, 2, 3, 4, 5, 6, 7, 8, 9, 10, 11, 12, 13, 14, 15] : Buf)[2 * y * 5 + 2 * x]? :=
  ⟨⟨by decide, by decide⟩,
    downsize_decimates [1, 2, 3, 4, 5, 6, 7, 8, 9, 10, 11, 12, 13, 14, 15] [77, 77] 5 3
      (by decide) (by decide) rfl rfl⟩

/-- C15 (BoxBlur).  For every byte field of width and height at least 3, `blur`
stays inside both buffers and leaves `width * height` samples; every interior
sample equals the truncated quotient by 9 of the sum of the source sample at
`(x, y)` and of its eight neighbours (a byte, so the store loses nothing), and
every sample of the first row, last row, first column or last column equals the
source sample at the same position. -/
theorem blur_box_rule (src out0 : Buf) (W H : Nat) (hW : 3 ≤ W) (hH : 3 ≤ H)
    (hsrc : src.length = W * H) (hout : out0.length = W * H) (hbyte : IsBytes src (W * H)) :
    ∃ out, blur src out0 W H = some out ∧ out.length = W * H ∧
      (∀ x y, 1 ≤ x → x + 2 ≤ W → 1 ≤ y → y + 2 ≤ H →
        out[y * W + x]? = some (Int.tdiv (sum9 src W x y) 9) ∧
        Int.tdiv (sum9 src W x y) 9 = sum9 src W x y / 9 ∧
        0 ≤ sum9 src W x y / 9 ∧ sum9 src W x y / 9 ≤ 255) ∧
      (∀ x y, x < W → y < H → (x = 0 ∨ y = 0 ∨ x + 1 = W ∨ y + 1 = H) →
        out[y * W + x]? = some (px src W x y)) := by
  obtain ⟨out, ho, hl, hval⟩ := blur_closed src out0 W H (by omega) (by omega) hsrc hout
  refine ⟨out, ho, hl, ?_, ?_⟩
  · intro x y hx1 hx2 hy1 hy2
    obtain ⟨t, rfl⟩ : ∃ t, x = t + 1 := ⟨x - 1, by omega⟩
    obtain ⟨r, rfl⟩ : ∃ r, y = r + 1 := ⟨y - 1, by omega⟩
    have hp := (nbr_bounds W H r t (W * H) rfl (by omega) (by omega))
    have hs := sum9_range src W H r t 0 255 hbyte (by omega) (by omega)
    obtain ⟨q0, q1, q2, q3⟩ := tdiv9_byte (sum9 src W (t + 1) (r + 1)) (by omega) (by omega)
    have hi : (r + 1) * W + (t + 1) < W * H := by
      have h1 : (r + 2) * W ≤ H * W := Nat.mul_le_mul_right W (by omega)
      have h2 : (r + 2) * W = (r + 1) * W + W := by ring
      have h3 : H * W = W * H := Nat.mul_comm _ _
      omega
    rw [hval _ hi, blurFlat_inner _ _ src W H r t (by omega) (by omega), blurValue_plain, q2]
    exact ⟨rfl, q3, by omega, by omega⟩
  · intro x y hx hy hb
    have hi : y * W + x < W * H := by
      have h1 : (y + 1) * W ≤ H * W := Nat.mul_le_mul_right W hy
      have h2 : (y + 1) * W = y * W + W := by ring
      have h3 : H * W = W * H := Nat.mul_comm _ _
      omega
    rw [hval _ hi, blurFlat_border _ _ src W H x y hx hb]
    rfl

/-- Witness of C15 on a 3 x 3 byte field. -/
theorem blur_box_rule_witness :
    (3 ≤ 3 ∧ IsBytes [10, 20, 30, 40, 50, 60, 70, 80, 99] (3 * 3)) ∧
    ∃ out, blur [10, 20, 30, 40, 50, 60, 70, 80, 99] (List.replicate 9 7) 3 3 = some out ∧
      out.length = 3 * 3 ∧
      (∀ x y, 1 ≤ x → x + 2 ≤ 3 → 1 ≤ y → y + 2 ≤ 3 →
        out[y * 3 + x]? = some (Int.tdiv (sum9 [10, 20, 30, 40, 50, 60, 70, 80, 99] 3 x y) 9) ∧
        Int.tdiv (sum9 [10, 20, 30, 40, 50, 60, 70, 80, 99] 3 x y) 9
          = sum9 [10, 20, 30, 40, 50, 60, 70, 80, 99] 3 x y / 9 ∧
        0 ≤ sum9 [10, 20, 30, 40, 50, 60, 70, 80, 99] 3 x y / 9 ∧
        sum9 [10, 20, 30, 40, 50, 60, 70, 80, 99] 3 x y / 9 ≤ 255) ∧
      (∀ x y, x < 3 → y < 3 → (x = 0 ∨ y = 0 ∨ x + 1 = 3 ∨ y + 1 = 3) →
        out[y * 3 + x]? = some (px [10, 20, 30, 40, 50, 60, 70, 80, 99] 3 x y)) :=
  ⟨⟨by decide, by unfold IsBytes; decide⟩,
    blur_box_rule [10, 20, 30, 40, 50, 60, 70, 80, 99] (List.replicate 9 7) 3 3 (by decide)
      (by decide) rfl rfl (by unfold IsBytes; decide)⟩

/-- C16 (GreyscaleReducer).  For every pixel count, every number
`channels >= 1` of non-alpha channels and either alpha flag, `greyscale` on a
byte image stays inside both buffers and writes for each pixel `i` the
truncated quotient by `channels` of the sum of the `channels` samples that start
at offset `i * (channels + (alpha ? 1 : 0))`; that quotient is in `[0, 255]`, so
the conversion to a byte loses nothing.  The alpha samples are never added: an
image that differs in the alpha samples only gives the same result. -/
theorem greyscale_mean_rule (src out0 : Buf) (size channels : Nat) (alpha : Bool)
    (hch : 1 ≤ channels) (hsrc : src.length = size * (channels + (if alpha then 1 else 0)))
    (hout : out0.length = size)
    (hbyte : IsBytes src (size * (channels + (if alpha then 1 else 0)))) :
    ∃ out, greyscale src out0 size channels alpha = some out ∧ out.length = size ∧
      (∀ i, i < size →
        out[i]? = some (Int.tdiv
          (chanSum src (i * (channels + (if alpha then 1 else 0))) channels) channels) ∧
        0 ≤ Int.tdiv (chanSum src (i * (channels + (if alpha then 1 else 0))) channels)
          channels ∧
        Int.tdiv (chanSum src (i * (channels + (if alpha then 1 else 0))) channels)
          channels ≤ 255) ∧
      (∀ src2 : Buf, src2.length = src.length →
        (∀ i j, i < size → j < channels →
          src2.getD (i * (channels + (if alpha then 1 else 0)) + j) 0
            = src.getD (i * (channels + (if alpha then 1 else 0)) + j) 0) →
        greyscale src2 out0 size channels alpha = some out) := by
  obtain ⟨out, ho, hl, hval⟩ := greyscale_closed src out0 size channels alpha hch hsrc hout
  refine ⟨out, ho, hl, ?_, ?_⟩
  · intro i hi
    have hr := chanSum_range src (i * (channels + (if alpha then 1 else 0))) channels
      (fun j hj => hbyte _ (by
        have h1 : (i + 1) * (channels + (if alpha then 1 else 0))
            ≤ size * (channels + (if alpha then 1 else 0)) := Nat.mul_le_mul_right _ hi
        have h2 : (i + 1) * (channels + (if alpha then 1 else 0))
            = i * (channels + (if alpha then 1 else 0))
              + (channels + (if alpha then 1 else 0)) := by ring
        omega))
    obtain ⟨q0, q1, q2⟩ := mean_byte _ channels hch hr.1 hr.2
    refine ⟨?_, q0, q1⟩
    rw [hval i hi, greyFlat, q2]
  · intro src2 hlen hagree
    obtain ⟨out2, ho2, hl2, hval2⟩ := greyscale_closed src2 out0 size channels alpha hch
      (by rw [hlen, hsrc]) hout
    rw [ho2]
    congr 1
    refine buf_ext out2 out size (greyFlat src channels alpha) hl2 hl (fun i hi => ?_) hval
    rw [hval2 i hi, greyFlat, greyFlat,
      chanSum_congr src2 src _ channels (fun j hj => hagree i j hi hj)]

/-- Witness of C16 on two RGBA pixels. -/
theorem greyscale_mean_rule_witness :
    (1 ≤ 3 ∧ IsBytes [10, 20, 31, 255, 255, 255, 254, 0] (2 * (3 + (if true then 1 else 0)))) ∧
    ∃ out, greyscale [10, 20, 31, 255, 255, 255, 254, 0] [7, 7] 2 3 true = some out ∧
      out.length = 2 ∧
      (∀ i, i < 2 →
        out[i]? = some (Int.tdiv
          (chanSum [10, 20, 31, 255, 255, 255, 254, 0] (i * (3 + (if true then 1 else 0))) 3)
          (3 : Nat)) ∧
        0 ≤ Int.tdiv
          (chanSum [10, 20, 31, 255, 255, 255, 254, 0] (i * (3 + (if true then 1 else 0))) 3)
          (3 : Nat) ∧
        Int.tdiv
          (chanSum [10, 20, 31, 255, 255, 255, 254, 0] (i * (3 + (if true then 1 else 0))) 3)
          (3 : Nat) ≤ 255) ∧
      (∀ src2 : Buf, src2.length = ([10, 20, 31, 255, 255, 255, 254, 0] : Buf).length →
        (∀ i j, i < 2 → j < 3 →
          src2.getD (i * (3 + (if true then 1 else 0)) + j) 0
            = ([10, 20, 31, 255, 255, 255, 254, 0] : Buf).getD
                (i * (3 + (if true then 1 else 0)) + j) 0) →
        greyscale src2 [7, 7] 2 3 true = some out) :=
  ⟨⟨by decide, by unfold IsBytes; decide⟩,
    greyscale_mean_rule [10, 20, 31, 255, 255, 255, 254, 0] [7, 7] 2 3 true (by decide) rfl rfl
      (by unfold IsBytes; decide)⟩

/-- C17 (gradient border is zero).  For every field of width and height at
least 2, `magnitude` stays inside both buffers, leaves `w * h` samples and
every sample of the first row, last row, first column and last column of its
output is 0, whatever the input and the previous contents of the output. -/
theorem magnitude_border_zero (inp out0 : Buf) (w h : Nat) (hw : 2 ≤ w) (hh : 2 ≤ h)
    (hinp : inp.length = w * h) (hout : out0.length = w * h) :
    ∃ out, magnitude inp out0 w h = some out ∧ out.length = w * h ∧
      ∀ x y, x < w → y < h → (x = 0 ∨ y = 0 ∨ x + 1 = w ∨ y + 1 = h) →
        out[y * w + x]? = some 0 := by
  obtain ⟨out, ho, hl, hval⟩ := magnitude_closed inp out0 w h hw hh hinp hout
  refine ⟨out, ho, hl, fun x y hx hy hb => ?_⟩
  rw [hval _ (flat_lt w h x y hx hy), magFlat_border inp w h x y hx hb]

/-- Witness of C17 on a 3 x 2 field, all of whose samples are border samples. -/
theorem magnitude_border_zero_witness :
    (2 ≤ 3 ∧ 2 ≤ 2) ∧
    ∃ out, magnitude [9, 200, 31, 47, 5, 255] (List.replicate 6 77) 3 2 = some out ∧
      out.length = 3 * 2 ∧
      ∀ x y, x < 3 → y < 2 → (x = 0 ∨ y = 0 ∨ x + 1 = 3 ∨ y + 1 = 2) →
        out[y * 3 + x]? = some 0 :=
  ⟨⟨by decide, by decide⟩,
    magnitude_border_zero [9, 200, 31, 47, 5, 255] (List.replicate 6 77) 3 2 (by decide)
      (by decide) rfl rfl⟩

/-- C19 (edges shrink as the global threshold grows).  For every width and
height at least 3, every triple of full-resolution fields (blurred intensity,
magnitude, adaptive threshold) and every two thresholds `t1 <= t2`, both runs
of `apply_threshold` followed by `filter` stay inside their buffers, and every
output sample that is 0 for the threshold `t2` is 0 for the threshold `t1`:
raising the threshold never creates a new edge pixel. -/
theorem edges_shrink_with_threshold (blurred mag adaptive out0 : Buf) (W H channels : Nat)
    (alpha : Bool) (t1 t2 : Int) (hW : 3 ≤ W) (hH : 3 ≤ H) (hbl : blurred.length = W * H)
    (hmag : mag.length = W * H) (had : adaptive.length = W * H)
    (hout : out0.length = W * H * (channels + (if alpha then 1 else 0))) (ht : t1 ≤ t2) :
    ∃ c1 c2 o1 o2,
      apply_threshold blurred mag adaptive (W * H) t1 = some c1 ∧
      filter c1 out0 W H channels alpha = some o1 ∧
      apply_threshold blurred mag adaptive (W * H) t2 = some c2 ∧
      filter c2 out0 W H channels alpha = some o2 ∧
      o1.length = out0.length ∧ o2.length = out0.length ∧
      ∀ i, i < out0.length → o2[i]? = some 0 → o1[i]? = some 0 := by
  obtain ⟨c1, hc1, l1, v1⟩ := apply_threshold_closed blurred mag adaptive (W * H) t1 hbl hmag had
  obtain ⟨c2, hc2, l2, v2⟩ := apply_threshold_closed blurred mag adaptive (W * H) t2 hbl hmag had
  obtain ⟨o1, ho1, m1, w1⟩ := filter_closed c1 out0 W H channels alpha (by omega) (by omega)
    l1 hout
  obtain ⟨o2, ho2, m2, w2⟩ := filter_closed c2 out0 W H channels alpha (by omega) (by omega)
    l2 hout
  refine ⟨c1, c2, o1, o2, hc1, ho1, hc2, ho2, m1, m2, fun i hi h0 => ?_⟩
  rw [w2 i hi] at h0
  rw [w1 i hi]
  have h0' := Option.some.inj h0
  congr 1
  unfold filterFlat filterSample at h0' ⊢
  by_cases hb : i / (channels + (if alpha then 1 else 0)) % W = 0 ∨
      i / (channels + (if alpha then 1 else 0)) / W = 0 ∨
      i / (channels + (if alpha then 1 else 0)) % W + 1 = W ∨
      i / (channels + (if alpha then 1 else 0)) / W + 1 = H
  · rw [if_pos hb] at h0'
    exact absurd h0' (by decide)
  rw [if_neg hb] at h0' ⊢
  by_cases hj : i % (channels + (if alpha then 1 else 0)) < channels
  swap
  · rw [if_neg hj] at h0'
    exact absurd h0' (by decide)
  rw [if_pos hj] at h0' ⊢
  have hpos : 0 < channels + (if alpha then 1 else 0) := by
    rcases Nat.eq_zero_or_pos (channels + (if alpha then 1 else 0)) with h | h
    · rw [hout, h] at hi
      simp at hi
    · exact h
  have hp : i / (channels + (if alpha then 1 else 0)) < W * H := by
    apply Nat.div_lt_of_lt_mul
    rw [Nat.mul_comm]
    rw [hout] at hi
    exact hi
  have hy : i / (channels + (if alpha then 1 else 0)) / W < H := div_lt_rows W H _ hp
  have hx : i / (channels + (if alpha then 1 else 0)) % W < W := Nat.mod_lt _ (by omega)
  refine edgeValue_mono c1 c2 W _ _ (fun a b ha1 ha2 hb1 hb2 => ?_) h0'
  have hxa : a < W := by omega
  have hyb : b < H := by omega
  rw [px_of_get c1 W H a b _ v1 hxa hyb, px_of_get c2 W H a b _ v2 hxa hyb]
  exact classify_mono _ _ _ t1 t2 ht

/-- Witness of C19 on a 3 x 3 image whose centre is an edge for both thresholds. -/
theorem edges_shrink_with_threshold_witness :
    (3 ≤ 3 ∧ (5 : Int) ≤ 10) ∧
    ∃ c1 c2 o1 o2,
      apply_threshold [200, 200, 200, 200, 10, 200, 200, 200, 200] (List.replicate 9 50)
        (List.replicate 9 100) (3 * 3) 5 = some c1 ∧
      filter c1 (List.replicate 9 7) 3 3 1 false = some o1 ∧
      apply_threshold [200, 200, 200, 200, 10, 200, 200, 200, 200] (List.replicate 9 50)
        (List.replicate 9 100) (3 * 3) 10 = some c2 ∧
      filter c2 (List.replicate 9 7) 3 3 1 false = some o2 ∧
      o1.length = (List.replicate 9 (7 : Int)).length ∧
      o2.length = (List.replicate 9 (7 : Int)).length ∧
      ∀ i, i < (List.replicate 9 (7 : Int)).length → o2[i]? = some 0 → o1[i]? = some 0 :=
  ⟨⟨by decide, by decide⟩,
    edges_shrink_with_threshold [200, 200, 200, 200, 10, 200, 200, 200, 200]
      (List.replicate 9 50) (List.replicate 9 100) (List.replicate 9 7) 3 3 1 false 5 10
      (by decide) (by decide) rfl rfl rfl rfl (by decide)⟩
/-! ## Claims about the resampling routines -/

/-- C13, as stated, fails for `upsizei`: on the row of two samples `2147483647`
the sum `prev + curr` leaves the range of a `gint` and wraps to `-2`, so the
sample between the two is `-1`, not the mean `2147483647` of the claim. -/
theorem upsizei_row_overflows :
    upsizei [2147483647, 2147483647] (List.replicate 8 0) 2 1 4 2
      = some [2147483647, -1, 2147483647, 2147483647, 2147483647, -1, 2147483647, 2147483647] ∧
    ¬ UpsampledRow
      [2147483647, -1, 2147483647, 2147483647, 2147483647, -1, 2147483647, 2147483647]
      [2147483647, 2147483647] 2 4 0 := by
  refine ⟨by decide, fun h => ?_⟩
  have h1 := (h.2.1 1 (by decide) (by decide)).1
  revert h1
  decide

/-- C13, amended (upsample, within a row).  For every half-resolution width
`w >= 2`, target width `nw` in `{2 w, 2 w + 1}` and every source row, the even
output row `2 y` produced by `upsize` from a byte field, and by `upsizei` from a
field whose samples lie in `[-2^30, 2^30)` (so that no sum of two samples
leaves the 32-bit range), obeys the row law: `out[0] = s[0]`; for
`1 <= k <= w - 1`, `out[2 k - 1] = floor ((s[k - 1] + s[k]) / 2)` and
`out[2 k] = s[k]`; `out[2 w - 1] = s[w - 1]`; and `out[2 w] = s[w - 1]` when
`nw` is odd.  Both routines stay inside their buffers. -/
theorem upsize_row_rule (srcB srcW dstB dstW : Buf) (w h nw nh : Nat) (hw : 2 ≤ w)
    (hh : 1 ≤ h) (hnw : nw = 2 * w ∨ nw = 2 * w + 1) (hnh : nh = 2 * h ∨ nh = 2 * h + 1)
    (hsB : srcB.length = w * h) (hsW : srcW.length = w * h) (hdB : dstB.length = nw * nh)
    (hdW : dstW.length = nw * nh) (hB : IsBytes srcB (w * h))
    (hWide : InRange srcW (w * h) (-1073741824) 1073741823) :
    (∃ out, upsize srcB dstB w h nw nh = some out ∧ out.length = nw * nh ∧
      ∀ y, y < h → UpsampledRow out srcB w nw y) ∧
    (∃ out, upsizei srcW dstW w h nw nh = some out ∧ out.length = nw * nh ∧
      ∀ y, y < h → UpsampledRow out srcW w nw y) :=
  ⟨upsizeG_row_law _ _ 0 255 exactOn_bytes (le_refl _) (by norm_num) srcB dstB w h nw nh hw hh
      hnw hnh hsB hdB hB,
    upsizeG_row_law _ _ (-1073741824) 1073741823 exactOn_wide (by norm_num) (by norm_num)
      srcW dstW w h nw nh hw hh hnw hnh hsW hdW hWide⟩

/-- Witness of the amended C13: rows of three samples upsampled to seven. -/
theorem upsize_row_rule_witness :
    ((2 ≤ 3 ∧ 1 ≤ 1) ∧ IsBytes [10, 255, 0] (3 * 1) ∧
      InRange [-7, 1000000, 340] (3 * 1) (-1073741824) 1073741823) ∧
    (∃ out, upsize [10, 255, 0] (List.replicate 14 9) 3 1 7 2 = some out ∧
      out.length = 7 * 2 ∧ ∀ y, y < 1 → UpsampledRow out [10, 255, 0] 3 7 y) ∧
    (∃ out, upsizei [-7, 1000000, 340] (List.replicate 14 9) 3 1 7 2 = some out ∧
      out.length = 7 * 2 ∧ ∀ y, y < 1 → UpsampledRow out [-7, 1000000, 340] 3 7 y) :=
  ⟨⟨⟨by decide, by decide⟩, by unfold IsBytes; decide, by unfold InRange; decide⟩,
    upsize_row_rule [10, 255, 0] [-7, 1000000, 340] (List.replicate 14 9) (List.replicate 14 9)
      3 1 7 2 (by decide) (by decide) (Or.inr rfl) (Or.inl rfl) rfl rfl rfl rfl
      (by unfold IsBytes; decide) (by unfold InRange; decide)⟩

/-- C14, as stated, fails for `upsizei`: on the 2 x 2 field with the columns
`2147483647` and `-2147483647` the sum of the rows above and below leaves the
range of a `gint` and wraps, so the odd row 1 starts with `-1`, not with the
mean `2147483647` of the samples above and below it. -/
theorem upsizei_rows_overflow :
    upsizei [2147483647, -2147483647, 2147483647, -2147483647] (List.replicate 16 0) 2 2 4 4
      = some [2147483647, 0, -2147483647, -2147483647, -1, 0, 1, 1,
          2147483647, 0, -2147483647, -2147483647, 2147483647, 0, -2147483647, -2147483647] ∧
    ¬ UpsampledRows
      [2147483647, 0, -2147483647, -2147483647, -1, 0, 1, 1,
        2147483647, 0, -2147483647, -2147483647, 2147483647, 0, -2147483647, -2147483647]
      (upRowValue (fun a b => a + b) id [2147483647, -2147483647, 2147483647, -2147483647] 2 4)
      2 4 4 := by
  refine ⟨by decide, fun h => ?_⟩
  have h1 := h.2.1 1 0 (by decide) (by decide) (by decide)
  revert h1
  decide

/-- C14, amended (upsample, between rows).  For every half-resolution width and
height at least 1 and target height `nh` in `{2 h, 2 h + 1}`, in the output of
`upsize` on a byte field, and of `upsizei` on a field whose samples lie in
`[-2^30, 2^30)` (so that no sum of two samples leaves the 32-bit range): every
even row `2 y` (`y < h`) is the horizontally upsampled source row `y` (the
row that the row loop produces, `upRowValue`); every
odd row `r` with `r < nh - 1` is the element-wise `floor ((row (r - 1) + row
(r + 1)) / 2)`; if `nh` is even the last row is a copy of row `nh - 2`; if `nh`
is odd the last row `2 h` is a copy of row `2 h - 2`.  Both routines stay inside
their buffers. -/
theorem upsize_rows_rule (srcB srcW dstB dstW : Buf) (w h nw nh : Nat) (hw : 1 ≤ w)
    (hh : 1 ≤ h) (hnw : nw = 2 * w ∨ nw = 2 * w + 1) (hnh : nh = 2 * h ∨ nh = 2 * h + 1)
    (hsB : srcB.length = w * h) (hsW : srcW.length = w * h) (hdB : dstB.length = nw * nh)
    (hdW : dstW.length = nw * nh) (hB : IsBytes srcB (w * h))
    (hWide : InRange srcW (w * h) (-1073741824) 1073741823) :
    (∃ out, upsize srcB dstB w h nw nh = some out ∧ out.length = nw * nh ∧
      UpsampledRows out (upRowValue (fun a b => a + b) id srcB w nw) h nw nh) ∧
    (∃ out, upsizei srcW dstW w h nw nh = some out ∧ out.length = nw * nh ∧
      UpsampledRows out (upRowValue (fun a b => a + b) id srcW w nw) h nw nh) :=
  ⟨upsizeG_rows_law _ _ 0 255 exactOn_bytes (le_refl _) (by norm_num) srcB dstB w h nw nh hw hh
      hnw hnh hsB hdB hB,
    upsizeG_rows_law _ _ (-1073741824) 1073741823 exactOn_wide (by norm_num) (by norm_num)
      srcW dstW w h nw nh hw hh hnw hnh hsW hdW hWide⟩

/-- Witness of the amended C14: 2 x 2 fields upsampled to 4 x 5. -/
theorem upsize_rows_rule_witness :
    ((1 ≤ 2 ∧ 1 ≤ 2) ∧ IsBytes [10, 255, 0, 31] (2 * 2) ∧
      InRange [-7, 1000000, 340, 0] (2 * 2) (-1073741824) 1073741823) ∧
    (∃ out, upsize [10, 255, 0, 31] (List.replicate 20 9) 2 2 4 5 = some out ∧
      out.length = 4 * 5 ∧
      UpsampledRows out (upRowValue (fun a b => a + b) id [10, 255, 0, 31] 2 4) 2 4 5) ∧
    (∃ out, upsizei [-7, 1000000, 340, 0] (List.replicate 20 9) 2 2 4 5 = some out ∧
      out.length = 4 * 5 ∧
      UpsampledRows out (upRowValue (fun a b => a + b) id [-7, 1000000, 340, 0] 2 4) 2 4 5) :=
  ⟨⟨⟨by decide, by decide⟩, by unfold IsBytes; decide, by unfold InRange; decide⟩,
    upsize_rows_rule [10, 255, 0, 31] [-7, 1000000, 340, 0] (List.replicate 20 9)
      (List.replicate 20 9) 2 2 4 5 (by decide) (by decide) (Or.inl rfl) (Or.inr rfl) rfl rfl
      rfl rfl (by unfold IsBytes; decide) (by unfold InRange; decide)⟩

/-- C20 (the byte and the wide-integer variants are the same routine).  For
every field whose samples are all in `[0, 255]`: `bluri` on the field gives the
buffer `blur` gives (for width, height at least 2), and `upsizei` gives the
buffer `upsize` gives (for half-resolution width and height at least 1 and
either parity of the target dimensions), whatever the output buffers held
before; the common results are byte fields.  A widened byte and the byte are
the same integer in this model, so widening is the identity. -/
theorem wide_variants_agree (src b0 b1 d0 d1 : Buf) (w h nw nh : Nat) (hw : 1 ≤ w)
    (hh : 1 ≤ h) (hnw : nw = 2 * w ∨ nw = 2 * w + 1) (hnh : nh = 2 * h ∨ nh = 2 * h + 1)
    (hsrc : src.length = w * h) (hb0 : b0.length = w * h) (hb1 : b1.length = w * h)
    (hd0 : d0.length = nw * nh) (hd1 : d1.length = nw * nh) (hbyte : IsBytes src (w * h)) :
    (2 ≤ w → 2 ≤ h →
      ∃ out, blur src b0 w h = some out ∧ bluri src b1 w h = some out ∧
        IsBytes out (w * h)) ∧
    (∃ out, upsize src d0 w h nw nh = some out ∧ upsizei src d1 w h nw nh = some out ∧
      IsBytes out (nw * nh)) := by
  constructor
  · intro hw2 hh2
    obtain ⟨o1, e1, l1, v1⟩ := blur_closed src b0 w h hw2 hh2 hsrc hb0
    obtain ⟨o2, e2, l2, v2⟩ := bluri_closed src b1 w h hw2 hh2 hsrc hb1
    have hag := fun i hi => blurFlat_agree src w h i hw2 hbyte hi
    have e : o2 = o1 := buf_ext o2 o1 (w * h) _ l2 l1
      (fun i hi => by rw [v2 i hi, (hag i hi).1]) v1
    refine ⟨o1, e1, by rw [e2, e], fun i hi => ?_⟩
    rw [List.getD_eq_getElem?_getD, v1 i hi, Option.getD_some]
    exact (hag i hi).2
  · obtain ⟨o1, e1, l1, v1⟩ := upsize_closed src d0 w h nw nh hw hh hnw hnh hsrc hd0
    obtain ⟨o2, e2, l2, v2⟩ := upsizei_closed src d1 w h nw nh hw hh hnw hnh hsrc hd1
    have hwide : InRange src (w * h) (-1073741824) 1073741823 :=
      InRange.widen hbyte (by norm_num) (by norm_num)
    have hA := fun i => upsizeAt_exact _ _ 0 255 exactOn_bytes (le_refl _) (by norm_num) src
      w h nw nh (i / nw) (i % nw) hbyte hw hh
    have hB := fun i => upsizeAt_exact _ _ (-1073741824) 1073741823 exactOn_wide (by norm_num)
      (by norm_num) src w h nw nh (i / nw) (i % nw) hwide hw hh
    have e : o2 = o1 := buf_ext o2 o1 (nw * nh)
      (upsizeFlat (fun a b => a + b) id src w h nw nh) l2 l1
      (fun i hi => by rw [v2 i hi]; unfold upsizeFlat; rw [(hB i).1])
      (fun i hi => by rw [v1 i hi]; unfold upsizeFlat; rw [(hA i).1])
    refine ⟨o1, e1, by rw [e2, e], fun i hi => ?_⟩
    rw [List.getD_eq_getElem?_getD, v1 i hi, Option.getD_some]
    unfold upsizeFlat
    rw [(hA i).1]
    exact (hA i).2

/-- Witness of C20 on a 3 x 3 byte field upsampled to 7 x 6. -/
theorem wide_variants_agree_witness :
    ((1 ≤ 3 ∧ 1 ≤ 3) ∧ IsBytes [0, 255, 254, 7, 100, 255, 255, 255, 1] (3 * 3)) ∧
    (2 ≤ 3 → 2 ≤ 3 →
      ∃ out, blur [0, 255, 254, 7, 100, 255, 255, 255, 1] (List.replicate 9 9) 3 3 = some out ∧
        bluri [0, 255, 254, 7, 100, 255, 255, 255, 1] (List.replicate 9 (-3)) 3 3 = some out ∧
        IsBytes out (3 * 3)) ∧
    (∃ out, upsize [0, 255, 254, 7, 100, 255, 255, 255, 1] (List.replicate 42 9) 3 3 7 6
        = some out ∧
      upsizei [0, 255, 254, 7, 100, 255, 255, 255, 1] (List.replicate 42 (-3)) 3 3 7 6
        = some out ∧
      IsBytes out (7 * 6)) :=
  ⟨⟨⟨by decide, by decide⟩, by unfold IsBytes; decide⟩,
    wide_variants_agree [0, 255, 254, 7, 100, 255, 255, 255, 1] (List.replicate 9 9)
      (List.replicate 9 (-3)) (List.replicate 42 9) (List.replicate 42 (-3)) 3 3 7 6
      (by decide) (by decide) (Or.inr rfl) (Or.inl rfl) rfl rfl rfl rfl rfl
      (by unfold IsBytes; decide)⟩
/-! ## Claim about the wide-integer stages -/

/-- C18 (no overflow in the wide-integer stages).  For every half-resolution
byte intensity field of width and height at least 2, the stages `magnitude`,
`multiply`, `bluri` (on the product field and on the magnitude field) and
`divide` stay inside their buffers and: every magnitude is in `[0, 340]`;
every product is the exact product, in `[0, 86700]`; every nine-sample sum that
`bluri` forms on the product field is in `[0, 780300]` and on the magnitude
field in `[0, 3060]`, so below `2 ^ 31`, and the stored sample is the exact
quotient by 9; both inputs of `divide` are non-negative; and the output of
`divide` is `min quotient 255`, in `[0, 255]`, with no wraparound. -/
theorem wide_stages_in_range (bh m0 t0 f0 f1 d0 : Buf) (w h : Nat) (hw : 2 ≤ w) (hh : 2 ≤ h)
    (hbh : bh.length = w * h) (hm0 : m0.length = w * h) (ht0 : t0.length = w * h)
    (hf0 : f0.length = w * h) (hf1 : f1.length = w * h) (hd0 : d0.length = w * h)
    (hbyte : IsBytes bh (w * h)) :
    ∃ mag th ft fm ad,
      magnitude bh m0 w h = some mag ∧ multiply bh mag t0 (w * h) = some th ∧
      bluri th f0 w h = some ft ∧ bluri mag f1 w h = some fm ∧
      divide ft fm d0 (w * h) = some ad ∧
      InRange mag (w * h) 0 340 ∧
      InRange th (w * h) 0 86700 ∧
      (∀ i, i < w * h → th.getD i 0 = bh.getD i 0 * mag.getD i 0) ∧
      (∀ x y, 1 ≤ x → x + 2 ≤ w → 1 ≤ y → y + 2 ≤ h →
        (0 ≤ sum9 th w x y ∧ sum9 th w x y ≤ 780300 ∧
          ft[y * w + x]? = some (sum9 th w x y / 9)) ∧
        (0 ≤ sum9 mag w x y ∧ sum9 mag w x y ≤ 3060 ∧
          fm[y * w + x]? = some (sum9 mag w x y / 9))) ∧
      InRange ft (w * h) 0 86700 ∧ InRange fm (w * h) 0 340 ∧
      ∀ i, i < w * h →
        ad[i]? = some (min (ft.getD i 0 / (if fm.getD i 0 = 0 then 1 else fm.getD i 0)) 255) ∧
        0 ≤ ad.getD i 0 ∧ ad.getD i 0 ≤ 255 := by
  obtain ⟨mag, e1, l1, v1⟩ := magnitude_closed bh m0 w h hw hh hbh hm0
  obtain ⟨th, e2, l2, v2⟩ := multiply_closed bh mag t0 (w * h) hbh l1 ht0
  obtain ⟨ft, e3, l3, v3⟩ := bluri_closed th f0 w h hw hh l2 hf0
  obtain ⟨fm, e4, l4, v4⟩ := bluri_closed mag f1 w h hw hh l1 hf1
  obtain ⟨ad, e5, l5, v5⟩ := divide_closed ft fm d0 (w * h) l3 l4 hd0
  have rmag : InRange mag (w * h) 0 340 := fun i hi => by
    rw [getD_of_get mag (w * h) i _ v1 hi]
    exact magFlat_range bh w h i hw hbyte hi
  have hprod := fun i (hi : i < w * h) =>
    product_range (bh.getD i 0) (mag.getD i 0) (hbyte i hi).1 (hbyte i hi).2 (rmag i hi).1
      (rmag i hi).2
  have eth : ∀ i, i < w * h → th.getD i 0 = bh.getD i 0 * mag.getD i 0 := fun i hi => by
    rw [getD_of_get th (w * h) i _ v2 hi, (hprod i hi).1]
  have rth : InRange th (w * h) 0 86700 := fun i hi => by
    rw [eth i hi]
    exact (hprod i hi).2
  have rft : InRange ft (w * h) 0 86700 := fun i hi => by
    rw [getD_of_get ft (w * h) i _ v3 hi]
    exact bluriFlat_range th w h i 86700 hw rth (by norm_num) hi
  have rfm : InRange fm (w * h) 0 340 := fun i hi => by
    rw [getD_of_get fm (w * h) i _ v4 hi]
    exact bluriFlat_range mag w h i 340 hw rmag (by norm_num) hi
  refine ⟨mag, th, ft, fm, ad, e1, e2, e3, e4, e5, rmag, rth, eth, ?_, rft, rfm, ?_⟩
  · intro x y hx1 hx2 hy1 hy2
    obtain ⟨t, rfl⟩ : ∃ t, x = t + 1 := ⟨x - 1, by omega⟩
    obtain ⟨r, rfl⟩ : ∃ r, y = r + 1 := ⟨y - 1, by omega⟩
    have hi : (r + 1) * w + (t + 1) < w * h := flat_lt w h _ _ (by omega) (by omega)
    have s1 := sum9_range th w h r t 0 86700 rth (by omega) (by omega)
    have s2 := sum9_range mag w h r t 0 340 rmag (by omega) (by omega)
    have q1 : Int.tdiv (sum9 th w (t + 1) (r + 1)) 9 = sum9 th w (t + 1) (r + 1) / 9 :=
      Int.tdiv_eq_ediv (by omega) (by norm_num)
    have q2 : Int.tdiv (sum9 mag w (t + 1) (r + 1)) 9 = sum9 mag w (t + 1) (r + 1) / 9 :=
      Int.tdiv_eq_ediv (by omega) (by norm_num)
    refine ⟨⟨by omega, by omega, ?_⟩, ⟨by omega, by omega, ?_⟩⟩
    · rw [v3 _ hi, blurFlat_inner _ _ th w h r t (by omega) (by omega),
        blurValue_wrap id th w h r t 86700 rth (by norm_num) (by omega) (by omega), ← q1]
      rfl
    · rw [v4 _ hi, blurFlat_inner _ _ mag w h r t (by omega) (by omega),
        blurValue_wrap id mag w h r t 340 rmag (by norm_num) (by omega) (by omega), ← q2]
      rfl
  · intro i hi
    have hv := v5 i hi
    obtain ⟨d1, _⟩ := divValue_nonneg (ft.getD i 0) (fm.getD i 0) (rft i hi).1
      (by have := (rft i hi).2; omega) (rfm i hi).1
    rw [d1] at hv
    have hd' : 0 < (if fm.getD i 0 = 0 then 1 else fm.getD i 0) := by
      have := (rfm i hi).1
      split_ifs <;> omega
    have hq0 : 0 ≤ ft.getD i 0 / (if fm.getD i 0 = 0 then 1 else fm.getD i 0) :=
      Int.ediv_nonneg (rft i hi).1 (by omega)
    refine ⟨hv, ?_⟩
    rw [List.getD_eq_getElem?_getD (l := ad), hv, Option.getD_some]
    exact ⟨le_min hq0 (by norm_num), min_le_right _ _⟩

/-- Witness of C18 on a 3 x 3 byte field whose centre reaches the magnitude 340
and the product 86700. -/
theorem wide_stages_in_range_witness :
    ((2 ≤ 3 ∧ 2 ≤ 3) ∧ IsBytes [0, 255, 0, 0, 255, 255, 0, 0, 0] (3 * 3)) ∧
    ∃ mag th ft fm ad,
      magnitude [0, 255, 0, 0, 255, 255, 0, 0, 0] (List.replicate 9 (-1)) 3 3 = some mag ∧
      multiply [0, 255, 0, 0, 255, 255, 0, 0, 0] mag (List.replicate 9 (-1)) (3 * 3) = some th ∧
      bluri th (List.replicate 9 (-1)) 3 3 = some ft ∧
      bluri mag (List.replicate 9 (-1)) 3 3 = some fm ∧
      divide ft fm (List.replicate 9 7) (3 * 3) = some ad ∧
      InRange mag (3 * 3) 0 340 ∧
      InRange th (3 * 3) 0 86700 ∧
      (∀ i, i < 3 * 3 →
        th.getD i 0 = ([0, 255, 0, 0, 255, 255, 0, 0, 0] : Buf).getD i 0 * mag.getD i 0) ∧
      (∀ x y, 1 ≤ x → x + 2 ≤ 3 → 1 ≤ y → y + 2 ≤ 3 →
        (0 ≤ sum9 th 3 x y ∧ sum9 th 3 x y ≤ 780300 ∧
          ft[y * 3 + x]? = some (sum9 th 3 x y / 9)) ∧
        (0 ≤ sum9 mag 3 x y ∧ sum9 mag 3 x y ≤ 3060 ∧
          fm[y * 3 + x]? = some (sum9 mag 3 x y / 9))) ∧
      InRange ft (3 * 3) 0 86700 ∧ InRange fm (3 * 3) 0 340 ∧
      ∀ i, i < 3 * 3 →
        ad[i]? = some (min (ft.getD i 0 / (if fm.getD i 0 = 0 then 1 else fm.getD i 0)) 255) ∧
        0 ≤ ad.getD i 0 ∧ ad.getD i 0 ≤ 255 :=
  ⟨⟨⟨by decide, by decide⟩, by unfold IsBytes; decide⟩,
    wide_stages_in_range [0, 255, 0, 0, 255, 255, 0, 0, 0] (List.replicate 9 (-1))
      (List.replicate 9 (-1)) (List.replicate 9 (-1)) (List.replicate 9 (-1))
      (List.replicate 9 7) 3 3 (by decide) (by decide) rfl rfl rfl rfl rfl rfl
      (by unfold IsBytes; decide)⟩
/-! ## Claim about the bright-square scenario -/

/-- C11, as stated, fails: on the bright square with the manual threshold 10 the
output of `edge` is 0 on the ring `outerRing` that surrounds the block, not on
the perimeter pixels of the block.  The block pixel `(8, 7)`, on the perimeter,
is 255 in the output, and the background pixel `(6, 8)`, outside the block, is
0. -/
theorem bright_square_not_block_perimeter :
    edge brightSquare (scratchOf 20 20 1 0) 20 20 1 false 10 = some (ringImage outerRing) ∧
    ringImage outerRing ≠ ringImage blockPerimeter ∧
    (ringImage outerRing)[7 * 20 + 8]? = some 255 ∧ blockPerimeter 8 7 = true ∧
    (ringImage outerRing)[8 * 20 + 6]? = some 0 ∧ blockPerimeter 6 8 = false := by
  have h1 := ringImage_get outerRing (7 * 20 + 8) (by decide)
  have h2 := ringImage_get outerRing (8 * 20 + 6) (by decide)
  have h3 := ringImage_get blockPerimeter (7 * 20 + 8) (by decide)
  refine ⟨edge_brightSquare _ (scratchOf_sized 20 20 1 0), fun h => ?_, h1, by decide, h2,
    by decide⟩
  rw [h] at h1
  rw [h1] at h3
  revert h3
  decide

/-- C11, amended (bright-square scenario).  For the single-channel 20 x 20 image
that is 0 everywhere except the block of value 255 in rows and columns 7 to 12,
run through the pipeline with the manual threshold 10, whatever the scratch
buffers held before: the output has 400 samples, it is 0 exactly on a closed
ring of 28 pixels that surrounds the block (the pixels with `x`, `y` in
`6 .. 13` and `x` in `{6, 13}` or `y` in `{6, 13}`, without the corner `(6, 6)`,
together with the block corner `(7, 7)`) and 255 at every other pixel. -/
theorem bright_square_ring (m : Scratch) (hm : m.Sized 20 20 1) :
    ∃ out, edge brightSquare m 20 20 1 false 10 = some out ∧ out.length = 400 ∧
      out.count 0 = 28 ∧
      ∀ x y, x < 20 → y < 20 →
        (out[y * 20 + x]? = some 0 ∨ out[y * 20 + x]? = some 255) ∧
        (out[y * 20 + x]? = some 0 ↔
          ((6 ≤ x ∧ x ≤ 13 ∧ 6 ≤ y ∧ y ≤ 13 ∧ (x = 6 ∨ x = 13 ∨ y = 6 ∨ y = 13) ∧
            ¬ (x = 6 ∧ y = 6)) ∨ (x = 7 ∧ y = 7))) := by
  refine ⟨ringImage outerRing, edge_brightSquare m hm, ringImage_length _, by decide!,
    fun x y hx hy => ?_⟩
  rw [ringImage_get outerRing (y * 20 + x) (by omega), coord_mod y 20 x hx,
    coord_div y 20 x hx]
  unfold outerRing
  by_cases hr : (6 ≤ x ∧ x ≤ 13 ∧ 6 ≤ y ∧ y ≤ 13 ∧ (x = 6 ∨ x = 13 ∨ y = 6 ∨ y = 13) ∧
      ¬ (x = 6 ∧ y = 6)) ∨ (x = 7 ∧ y = 7)
  · simp only [hr, decide_True, if_true, true_or, iff_true, and_self]
  · simp only [hr, decide_False, iff_false]
    exact ⟨Or.inr rfl, by decide⟩

/-- Witness of the amended C11 with scratch buffers full of the value 7. -/
theorem bright_square_ring_witness :
    (scratchOf 20 20 1 7).Sized 20 20 1 ∧
    ∃ out, edge brightSquare (scratchOf 20 20 1 7) 20 20 1 false 10 = some out ∧
      out.length = 400 ∧ out.count 0 = 28 ∧
      ∀ x y, x < 20 → y < 20 →
        (out[y * 20 + x]? = some 0 ∨ out[y * 20 + x]? = some 255) ∧
        (out[y * 20 + x]? = some 0 ↔
          ((6 ≤ x ∧ x ≤ 13 ∧ 6 ≤ y ∧ y ≤ 13 ∧ (x = 6 ∨ x = 13 ∨ y = 6 ∨ y = 13) ∧
            ¬ (x = 6 ∧ y = 6)) ∨ (x = 7 ∧ y = 7))) :=
  ⟨scratchOf_sized 20 20 1 7, bright_square_ring (scratchOf 20 20 1 7) (scratchOf_sized 20 20 1 7)⟩

end AdaptiveEdge
